import Mathlib

/-!
Verification of the `beancount-ast` specification against a shallow embedding.

The repository's parsing core (lexer, parser, AST, renderer) is implemented in a
Rust extension module `beancount_ast._ast` that is not part of the Python sources
available here; only its re-exports, an abstract-base registration file and its
tests are. Following the spec (sections 2-4, 6-8), the definitions below model
that missing core: source buffers are sequences of characters (spans count
characters, which coincide with bytes on the ASCII subset exercised here), the
lexer produces spanned tokens line by line, the parser is a single-pass
recursive-descent parser producing a `File` of span-carrying directives, and the
renderer (`dump`) returns the source slice designated by a node's span, exactly
as section 4.4 prescribes for nodes parsed from source.

The model covers the grammar subset the frozen claims exercise: comment lines,
headlines, the bare directives `option`, `include`, `plugin`, `pushtag`,
`poptag`, and the dated directives `open`, `close`, `balance`, `price`, `event`,
`note`, `custom` and transactions with postings (account, amount with arithmetic
number expressions, and a brace cost spec). Metadata lines, `pad`, `commodity`,
`query`, `document`, `pushmeta`/`popmeta`, posting flags and price annotations
are outside the modelled subset; a source using them simply fails to parse in
the model, so every universally quantified theorem about successful parses
remains faithful to the spec's statements on the covered subset.
-/

namespace BA

/-- A half-open character range into the source buffer. The implementation's
attribute is called `end`; that is a Lean keyword, so the model calls it
`stop`. -/
structure Span where
  start : Nat
  stop : Nat
deriving DecidableEq, Repr

/-- Shorthand turning a Lean string literal into the model's character-list
representation of source text. -/
def lit (s : String) : List Char := s.toList

/-- The substring `content[a..b]` of the source buffer, as section 3 writes it. -/
def slice (S : List Char) (a b : Nat) : List Char := (S.drop a).take (b - a)

/-- Slice of the source designated by a span. -/
def sliceSp (S : List Char) (s : Span) : List Char := slice S s.start s.stop

/-- Shift a span by a line's starting offset in the buffer. -/
def shiftSpan (o : Nat) (s : Span) : Span := ⟨o + s.start, o + s.stop⟩

/-- Modelled from the spec, section 3: a quoted string literal carrying its
span and unescaped value. -/
structure SpannedStr where
  span : Span
  value : List Char
deriving DecidableEq, Repr

/-- A `YYYY-MM-DD` date token with its span (lexical validity only). -/
structure SpannedDate where
  span : Span
  year : Nat
  month : Nat
  day : Nat
deriving DecidableEq, Repr

/-- An account name such as `Assets:Cash`, with its span. -/
structure SpannedAccount where
  span : Span
  name : List Char
deriving DecidableEq, Repr

/-- A currency / commodity name such as `USD`, with its span. -/
structure SpannedCurrency where
  span : Span
  name : List Char
deriving DecidableEq, Repr

/-- A `#tag` or `^link` label, with its span. -/
structure SpannedLabel where
  span : Span
  name : List Char
deriving DecidableEq, Repr

/-- Modelled from the spec, section 3: a numeric expression node stores the
evaluated arbitrary-precision decimal (modelled by `Rat`, which is exact for
the additions, subtractions, multiplications and terminating divisions the
grammar produces) together with the span of the original token range, which is
what `dump` renders. -/
structure NumberExpr where
  span : Span
  value : Rat
deriving DecidableEq, Repr

/-- The raw-text anchor sub-node that `Amount`, `CostSpec` and `CustomValue`
expose (the tests access `node.raw.span`): it carries the span of the full
original text of the wrapper node. -/
structure Raw where
  span : Span
deriving DecidableEq, Repr

/-- Modelled from the spec, section 3: an amount is a number expression plus a
commodity; its overall text range lives on the `raw` sub-node. -/
structure Amount where
  raw : Raw
  number : NumberExpr
  currency : SpannedCurrency
deriving DecidableEq, Repr

/-- A per-unit cost amount inside a cost spec (`{number currency}`). -/
structure CostAmount where
  number : NumberExpr
  currency : SpannedCurrency
deriving DecidableEq, Repr

/-- Modelled from the spec, section 3: the `{…}` cost clause on a posting.
The modelled subset carries one per-unit cost amount; date, label and merge
entries of the full grammar are outside the subset. -/
structure CostSpec where
  raw : Raw
  per_unit : CostAmount
deriving DecidableEq, Repr

/-- The payload of one value of a `custom` directive. -/
inductive CustomPayload where
  | str (s : SpannedStr)
  | num (n : NumberExpr)
deriving DecidableEq, Repr

/-- One value of a `custom` directive, anchored at its raw text range. -/
structure CustomValue where
  raw : Raw
  value : CustomPayload
deriving DecidableEq, Repr

/-- Modelled from the spec, section 3: one leg of a transaction. The modelled
subset carries account, optional amount and optional cost spec; posting flags,
price annotations and metadata are outside the subset. -/
structure Posting where
  span : Span
  account : SpannedAccount
  amount : Option Amount
  cost_spec : Option CostSpec
deriving DecidableEq, Repr

/-- Transaction flag: `*`, `!`, or the keyword `txn`. -/
inductive Flag where
  | star
  | bang
  | txn
deriving DecidableEq, Repr

/-- Modelled from the spec, section 3: ordered, duplicate-free tags and links
accumulated from a transaction header. -/
structure TransactionExtra where
  tags : List SpannedLabel
  links : List SpannedLabel
deriving DecidableEq, Repr

/-- `pushtag` or `poptag`. -/
inductive TagAction where
  | push
  | pop
deriving DecidableEq, Repr

/-- The `Open(date, account, currencies[])` directive (booking is outside the
modelled subset). -/
structure Open where
  span : Span
  date : SpannedDate
  account : SpannedAccount
  currencies : List SpannedCurrency
deriving DecidableEq, Repr

/-- The `Close(date, account)` directive. -/
structure Close where
  span : Span
  date : SpannedDate
  account : SpannedAccount
deriving DecidableEq, Repr

/-- The `Balance(date, account, amount)` directive (tolerance is outside the
modelled subset). -/
structure Balance where
  span : Span
  date : SpannedDate
  account : SpannedAccount
  amount : Amount
deriving DecidableEq, Repr

/-- The `Transaction(date, flag, payee?, narration?, extra, postings[])`
directive. -/
structure Transaction where
  span : Span
  date : SpannedDate
  flag : Flag
  payee : Option SpannedStr
  narration : Option SpannedStr
  extra : TransactionExtra
  postings : List Posting
deriving DecidableEq, Repr

/-- The `Price(date, commodity, amount)` directive. -/
structure Price where
  span : Span
  date : SpannedDate
  commodity : SpannedCurrency
  amount : Amount
deriving DecidableEq, Repr

/-- The `Event(date, type, description)` directive. -/
structure Event where
  span : Span
  date : SpannedDate
  typ : SpannedStr
  description : SpannedStr
deriving DecidableEq, Repr

/-- The `Note(date, account, comment)` directive. -/
structure Note where
  span : Span
  date : SpannedDate
  account : SpannedAccount
  comment : SpannedStr
deriving DecidableEq, Repr

/-- The `Custom(date, type, values[])` directive. -/
structure Custom where
  span : Span
  date : SpannedDate
  typ : SpannedStr
  values : List CustomValue
deriving DecidableEq, Repr

/-- The `Option(name, value)` directive. `Option` itself is the Lean name of
the optional type, so the model calls the structure `OptionDirective`. -/
structure OptionDirective where
  span : Span
  name : SpannedStr
  value : SpannedStr
deriving DecidableEq, Repr

/-- The `Include(path)` directive. -/
structure Include where
  span : Span
  path : SpannedStr
deriving DecidableEq, Repr

/-- The `Plugin(name, config?)` directive. -/
structure Plugin where
  span : Span
  name : SpannedStr
  config : Option SpannedStr
deriving DecidableEq, Repr

/-- The `Tag(action, tag)` push/pop tag-stack marker directive. -/
structure Tag where
  span : Span
  action : TagAction
  tag : SpannedLabel
deriving DecidableEq, Repr

/-- The `Comment(text)` directive: a line comment kept as a directive to
preserve file layout. -/
structure Comment where
  span : Span
  text : List Char
deriving DecidableEq, Repr

/-- The `Headline(level, text)` directive: an org-style heading line. -/
structure Headline where
  span : Span
  level : Nat
  text : List Char
deriving DecidableEq, Repr

/-- Modelled from the spec, section 3: the closed sum of directive variants
(the modelled subset; `pad`, `commodity`, `query`, `document`, `pushmeta` and
`popmeta` are outside it). -/
inductive Directive where
  | opn (d : Open)
  | cls (d : Close)
  | bal (d : Balance)
  | txn (d : Transaction)
  | prc (d : Price)
  | evt (d : Event)
  | nte (d : Note)
  | cst (d : Custom)
  | opt (d : OptionDirective)
  | inc (d : Include)
  | plg (d : Plugin)
  | tag (d : Tag)
  | cmt (d : Comment)
  | hdl (d : Headline)
deriving DecidableEq, Repr

/-- The span of a directive, uniformly over the variants (section 4.3: each
variant exposes its span). -/
def Directive.spanOf : Directive → Span
  | .opn d => d.span
  | .cls d => d.span
  | .bal d => d.span
  | .txn d => d.span
  | .prc d => d.span
  | .evt d => d.span
  | .nte d => d.span
  | .cst d => d.span
  | .opt d => d.span
  | .inc d => d.span
  | .plg d => d.span
  | .tag d => d.span
  | .cmt d => d.span
  | .hdl d => d.span

/-- Modelled from the spec, section 6: a `File` owns the source content and
the ordered directive list. -/
structure File where
  content : List Char
  directives : List Directive
deriving DecidableEq, Repr

/-- Horizontal whitespace (spec 4.1: spaces and tabs). -/
def isWs (c : Char) : Bool := c == ' ' || c == '\t'

/-- Characters allowed in account names (model subset: alphanumeric segments
joined by colons). -/
def acctChar (c : Char) : Bool := c.isAlphanum || c == ':'

/-- Characters allowed after `#` and `^` in tag and link labels. -/
def labelChar (c : Char) : Bool := c.isAlphanum || c == '-' || c == '_' || c == '/' || c == '.'

/-- Take the longest run of characters satisfying `p` from the front, and the
remaining suffix. -/
def munch (p : Char → Bool) : List Char → List Char × List Char
  | [] => ([], [])
  | c :: cs =>
    if p c then
      let r := munch p cs
      (c :: r.1, r.2)
    else ([], c :: cs)

/-- The value of a run of decimal digits. -/
def digitsToNat (ds : List Char) : Nat := ds.foldl (fun a c => 10 * a + (c.toNat - 48)) 0

/-- Exact decimal value of `intDigits.fracDigits`, as prescribed by section 9
(arbitrary-precision, exact arithmetic). -/
def decVal (intDigits fracDigits : List Char) : Rat :=
  (digitsToNat intDigits : Rat) + (digitsToNat fracDigits : Rat) / ((10 : Rat) ^ fracDigits.length)

/-- The string-literal escapes of spec 4.1 rule 7. -/
def escChar (c : Char) : Option Char :=
  if c == '\\' then some '\\'
  else if c == '"' then some '"'
  else if c == 'n' then some '\n'
  else if c == 't' then some '\t'
  else none

/-- Scan a string literal after its opening quote. Returns the unescaped
value, the number of characters consumed (including the closing quote) and the
rest; `none` on an unterminated literal or invalid escape. -/
def lexStr : List Char → Option (List Char × Nat × List Char)
  | [] => none
  | c :: r =>
    if c = '"' then some ([], 1, r)
    else if c = '\\' then
      match r with
      | [] => none
      | c2 :: r2 => do
        let e ← escChar c2
        let (v, n, r3) ← lexStr r2
        some (e :: v, n + 2, r3)
    else do
      let (v, n, r2) ← lexStr r
      some (c :: v, n + 1, r2)

/-- The keywords of the modelled grammar subset (spec 4.1 token set). -/
inductive Kw where
  | opn
  | cls
  | bal
  | prc
  | evt
  | nte
  | cst
  | opt
  | inc
  | plg
  | pushtag
  | poptag
  | txn
deriving DecidableEq, Repr

/-- Keyword recognition: full lowercase identifiers matching the keyword list
(spec 4.1 rule 11). -/
def kwOfWord (w : List Char) : Option Kw :=
  if w = lit "open" then some .opn
  else if w = lit "close" then some .cls
  else if w = lit "balance" then some .bal
  else if w = lit "price" then some .prc
  else if w = lit "event" then some .evt
  else if w = lit "note" then some .nte
  else if w = lit "custom" then some .cst
  else if w = lit "option" then some .opt
  else if w = lit "include" then some .inc
  else if w = lit "plugin" then some .plg
  else if w = lit "pushtag" then some .pushtag
  else if w = lit "poptag" then some .poptag
  else if w = lit "txn" then some .txn
  else none

/-- Modelled from the spec, section 4.1: the token alphabet of the line lexer
(the modelled subset; `word` carries a lowercase identifier that matches no
keyword, which the parser rejects while naming the expected productions). -/
inductive Tok where
  | date (sp : Span) (year month day : Nat)
  | acct (sp : Span) (name : List Char)
  | cur (sp : Span) (name : List Char)
  | str (sp : Span) (value : List Char)
  | tag (sp : Span) (name : List Char)
  | link (sp : Span) (name : List Char)
  | num (sp : Span) (value : Rat)
  | kw (sp : Span) (k : Kw)
  | word (sp : Span) (w : List Char)
  | sym (sp : Span) (c : Char)
deriving DecidableEq, Repr

/-- The span of a token. -/
def tokSp : Tok → Span
  | .date sp _ _ _ => sp
  | .acct sp _ => sp
  | .cur sp _ => sp
  | .str sp _ => sp
  | .tag sp _ => sp
  | .link sp _ => sp
  | .num sp _ => sp
  | .kw sp _ => sp
  | .word sp _ => sp
  | .sym sp _ => sp

/-- A lexer error: position within the line and a message. -/
def LexErr : Type := Nat × List Char

/-- Lex the `-MM-DD` tail of a date token whose year digits are `ds`; `t2` is
the input after the first hyphen. Month and day are checked lexically
(spec 4.1: month 1-12, day 1-31). -/
def lexDateTail (i : Nat) (ds : List Char) (t2 : List Char) :
    Except LexErr (Tok × Nat × List Char) :=
  let m2 := munch Char.isDigit t2
  match m2.2 with
  | c3 :: t3 =>
    if c3 = '-' then
      let m3 := munch Char.isDigit t3
      if m2.1.length = 2 ∧ m3.1.length = 2 then
        let mo := digitsToNat m2.1
        let dy := digitsToNat m3.1
        if 1 ≤ mo ∧ mo ≤ 12 ∧ 1 ≤ dy ∧ dy ≤ 31 then
          .ok (.date ⟨i, i + 10⟩ (digitsToNat ds) mo dy, 10, m3.2)
        else .error (i, lit "invalid date components")
      else .error (i, lit "invalid date")
    else .error (i, lit "invalid date")
  | [] => .error (i, lit "invalid date")

/-- Lex a number or a date starting with digit `c` at index `i`; `cs` is the
input after `c`. Returns the token, the count of characters consumed
(including `c`) and the rest. Spec 4.1 rule 3 gives the `YYYY-MM-DD` date
pattern priority over plain numbers. -/
def lexNumTok (i : Nat) (c : Char) (cs : List Char) : Except LexErr (Tok × Nat × List Char) :=
  let m := munch Char.isDigit cs
  let ds := c :: m.1
  match m.2 with
  | [] => .ok (.num ⟨i, i + ds.length⟩ (digitsToNat ds : Rat), ds.length, [])
  | c2 :: t2 =>
    if c2 = '-' ∧ ds.length = 4 then lexDateTail i ds t2
    else if c2 = '.' then
      let fr := munch Char.isDigit t2
      if fr.1.length = 0 then .error (i, lit "invalid number")
      else
        let n := ds.length + 1 + fr.1.length
        .ok (.num ⟨i, i + n⟩ (decVal ds fr.1), n, fr.2)
    else .ok (.num ⟨i, i + ds.length⟩ (digitsToNat ds : Rat), ds.length, c2 :: t2)

/-- One step of uppercase-identifier classification (spec 4.1 rules 4 and 5):
a colon chain is an account, an all-uppercase-or-digit word is a currency. -/
def classifyUpper (i : Nat) (w : List Char) : Except LexErr Tok :=
  if w.contains ':' then .ok (.acct ⟨i, i + w.length⟩ w)
  else if w.all (fun c => c.isUpper || c.isDigit) then .ok (.cur ⟨i, i + w.length⟩ w)
  else .error (i, lit "invalid identifier")

/-- Modelled from the spec, section 4.1: the line lexer. `fuel` is structural
recursion fuel (each step consumes at least one character, so `length + 1`
always suffices); `i` is the index of the head of `cs` within the line. -/
def lexAux : Nat → Nat → List Char → Except LexErr (List Tok)
  | 0, i, _ => .error (i, lit "lexer fuel exhausted")
  | _ + 1, _, [] => .ok []
  | f + 1, i, c :: cs =>
    if isWs c then lexAux f (i + 1) cs
    else if c == '"' then
      match lexStr cs with
      | none => .error (i, lit "unterminated string literal or invalid escape")
      | some (v, n, r) => (lexAux f (i + 1 + n) r).map (fun ts => Tok.str ⟨i, i + 1 + n⟩ v :: ts)
    else if c == '#' then
      let m := munch labelChar cs
      if m.1.length = 0 then .error (i, lit "empty tag")
      else (lexAux f (i + 1 + m.1.length) m.2).map
        (fun ts => Tok.tag ⟨i, i + 1 + m.1.length⟩ m.1 :: ts)
    else if c == '^' then
      let m := munch labelChar cs
      if m.1.length = 0 then .error (i, lit "empty link")
      else (lexAux f (i + 1 + m.1.length) m.2).map
        (fun ts => Tok.link ⟨i, i + 1 + m.1.length⟩ m.1 :: ts)
    else if c.isDigit then
      match lexNumTok i c cs with
      | .error e => .error e
      | .ok (t, n, r) => (lexAux f (i + n) r).map (fun ts => t :: ts)
    else if c.isLower then
      let m := munch Char.isLower cs
      let w := c :: m.1
      let t := match kwOfWord w with
        | some k => Tok.kw ⟨i, i + w.length⟩ k
        | none => Tok.word ⟨i, i + w.length⟩ w
      (lexAux f (i + w.length) m.2).map (fun ts => t :: ts)
    else if c.isUpper then
      let m := munch acctChar cs
      let w := c :: m.1
      match classifyUpper i w with
      | .error e => .error e
      | .ok t => (lexAux f (i + w.length) m.2).map (fun ts => t :: ts)
    else if c == '+' || c == '-' || c == '*' || c == '/' || c == '(' || c == ')'
        || c == '{' || c == '}' then
      (lexAux f (i + 1) cs).map (fun ts => Tok.sym ⟨i, i + 1⟩ c :: ts)
    else .error (i, lit "unexpected character")

/-- Lex one whole line. -/
def lexLine (L : List Char) : Except LexErr (List Tok) := lexAux (L.length + 1) 0 L

/-- A parser error local to one line: a span within the line and a message. -/
def PErr : Type := Span × List Char

/-- The parsing mode of the expression parser: factor, term, expression, and
the left-associative continuation loops of the latter two. -/
inductive EMode where
  | factor
  | term
  | termLoop
  | expr
  | exprLoop
deriving DecidableEq, Repr

/-- The head of a token list when it is a symbol token: the view the
expression parser dispatches on. -/
def symHead? (ts : List Tok) : Option (Span × Char × List Tok) :=
  match ts with
  | .sym sp c :: r => some (sp, c, r)
  | _ => none

/-- A number-literal factor: the non-symbol case of the factor production. -/
def numFactor (ts : List Tok) : Except PErr (NumberExpr × List Tok) :=
  match ts with
  | .num sp v :: r => .ok (⟨sp, v⟩, r)
  | t :: _ => .error (tokSp t, lit "expected a number")
  | [] => .error (⟨0, 0⟩, lit "expected a number")

/-- Wrap a parsed factor under a unary minus whose token starts at `sp`. -/
def negWrap (sp : Span) (p : NumberExpr × List Tok) : NumberExpr × List Tok :=
  (⟨⟨sp.start, p.1.span.stop⟩, -p.1.value⟩, p.2)

/-- Close a parenthesised expression opened at `sp`. -/
def parenTail (sp : Span) (p : NumberExpr × List Tok) : Except PErr (NumberExpr × List Tok) :=
  match symHead? p.2 with
  | some (sp2, c2, r3) =>
    if c2 = ')' then .ok (⟨⟨sp.start, sp2.stop⟩, p.1.value⟩, r3)
    else .error (sp, lit "expected a closing parenthesis")
  | none => .error (sp, lit "expected a closing parenthesis")

/-- Combine two operands of `*`: span from the left operand's start to the
right operand's stop, value the exact product. -/
def mulNE (a b : NumberExpr) : NumberExpr := ⟨⟨a.span.start, b.span.stop⟩, a.value * b.value⟩

/-- Combine two operands of `/`. -/
def divNE (a b : NumberExpr) : NumberExpr := ⟨⟨a.span.start, b.span.stop⟩, a.value / b.value⟩

/-- Combine two operands of `+`. -/
def addNE (a b : NumberExpr) : NumberExpr := ⟨⟨a.span.start, b.span.stop⟩, a.value + b.value⟩

/-- Combine two operands of `-`. -/
def subNE (a b : NumberExpr) : NumberExpr := ⟨⟨a.span.start, b.span.stop⟩, a.value - b.value⟩

/-- Modelled from the spec, section 4.2: the number-expression parser.
Standard precedence (`*` and `/` bind tighter than `+` and `-`),
left-associative, unary minus, parentheses. One structurally fueled function
covers the five modes; the loop modes carry the left operand in `acc`. Each
produced node records the exact token range of the expression together with
its evaluated value (exact `Rat` arithmetic). -/
def parseX : Nat → EMode → Option NumberExpr → List Tok → Except PErr (NumberExpr × List Tok)
  | 0, _, _, _ => .error (⟨0, 0⟩, lit "expression too deep")
  | f + 1, .factor, _, ts =>
    (symHead? ts).elim (numFactor ts) (fun v =>
      if v.2.1 = '-' then (parseX f .factor none v.2.2).map (negWrap v.1)
      else if v.2.1 = '(' then (parseX f .expr none v.2.2).bind (parenTail v.1)
      else .error (v.1, lit "expected a number"))
  | f + 1, .term, _, ts =>
    (parseX f .factor none ts).bind (fun p => parseX f .termLoop (some p.1) p.2)
  | f + 1, .termLoop, some a, ts =>
    (symHead? ts).elim (.ok (a, ts)) (fun v =>
      if v.2.1 = '*' then
        (parseX f .factor none v.2.2).bind (fun p => parseX f .termLoop (some (mulNE a p.1)) p.2)
      else if v.2.1 = '/' then
        (parseX f .factor none v.2.2).bind (fun p => parseX f .termLoop (some (divNE a p.1)) p.2)
      else .ok (a, ts))
  | _ + 1, .termLoop, none, _ => .error (⟨0, 0⟩, lit "internal loop state")
  | f + 1, .expr, _, ts =>
    (parseX f .term none ts).bind (fun p => parseX f .exprLoop (some p.1) p.2)
  | f + 1, .exprLoop, some a, ts =>
    (symHead? ts).elim (.ok (a, ts)) (fun v =>
      if v.2.1 = '+' then
        (parseX f .term none v.2.2).bind (fun p => parseX f .exprLoop (some (addNE a p.1)) p.2)
      else if v.2.1 = '-' then
        (parseX f .term none v.2.2).bind (fun p => parseX f .exprLoop (some (subNE a p.1)) p.2)
      else .ok (a, ts))
  | _ + 1, .exprLoop, none, _ => .error (⟨0, 0⟩, lit "internal loop state")

/-- Parse a number expression from the front of a token list. Four fuel units
per token cover the deepest chain of mode steps between consumptions. -/
def parseNumberExpr (ts : List Tok) : Except PErr (NumberExpr × List Tok) :=
  parseX (4 * ts.length + 8) .expr none ts

/-- Require that all tokens of the line were consumed. -/
def expectEnd : List Tok → Except PErr Unit
  | [] => .ok ()
  | t :: _ => .error (tokSp t, lit "unexpected token at end of directive")

/-- Parse `number_expr CURRENCY` into an `Amount`; its `raw` anchor spans from
the first expression token to the end of the currency. -/
def parseAmount (ts : List Tok) : Except PErr (Amount × List Tok) :=
  match parseNumberExpr ts with
  | .error e => .error e
  | .ok (e, r) =>
    match r with
    | .cur sp name :: r2 =>
      .ok (⟨⟨⟨e.span.start, sp.stop⟩⟩, e, ⟨sp, name⟩⟩, r2)
    | t :: _ => .error (tokSp t, lit "expected a currency")
    | [] => .error (e.span, lit "expected a currency")

/-- Parse an optional `{number_expr CURRENCY}` cost spec. -/
def parseCostOpt (ts : List Tok) : Except PErr (Option CostSpec × List Tok) :=
  match symHead? ts with
  | some (sp, c, r) =>
    if c = '{' then
      (parseNumberExpr r).bind (fun p =>
        match p.2 with
        | .cur csp name :: rest2 =>
          match symHead? rest2 with
          | some (sp2, c2, r3) =>
            if c2 = '}' then .ok (some ⟨⟨⟨sp.start, sp2.stop⟩⟩, ⟨p.1, ⟨csp, name⟩⟩⟩, r3)
            else .error (sp, lit "expected a closing brace in cost spec")
          | none => .error (sp, lit "expected a closing brace in cost spec")
        | _ => .error (sp, lit "expected a currency in cost spec"))
    else .ok (none, ts)
  | none => .ok (none, ts)

/-- Shift every span of a spanned string by a line offset. -/
def shiftStr (o : Nat) (s : SpannedStr) : SpannedStr := ⟨shiftSpan o s.span, s.value⟩

/-- Shift a spanned date by a line offset. -/
def shiftDate (o : Nat) (d : SpannedDate) : SpannedDate :=
  ⟨shiftSpan o d.span, d.year, d.month, d.day⟩

/-- Shift a spanned account by a line offset. -/
def shiftAccount (o : Nat) (a : SpannedAccount) : SpannedAccount := ⟨shiftSpan o a.span, a.name⟩

/-- Shift a spanned currency by a line offset. -/
def shiftCurrency (o : Nat) (c : SpannedCurrency) : SpannedCurrency := ⟨shiftSpan o c.span, c.name⟩

/-- Shift a spanned label by a line offset. -/
def shiftLabel (o : Nat) (l : SpannedLabel) : SpannedLabel := ⟨shiftSpan o l.span, l.name⟩

/-- Shift a number expression by a line offset. -/
def shiftNumberExpr (o : Nat) (e : NumberExpr) : NumberExpr := ⟨shiftSpan o e.span, e.value⟩

/-- Shift an amount by a line offset. -/
def shiftAmount (o : Nat) (a : Amount) : Amount :=
  ⟨⟨shiftSpan o a.raw.span⟩, shiftNumberExpr o a.number, shiftCurrency o a.currency⟩

/-- Shift a cost spec by a line offset. -/
def shiftCostSpec (o : Nat) (c : CostSpec) : CostSpec :=
  ⟨⟨shiftSpan o c.raw.span⟩, ⟨shiftNumberExpr o c.per_unit.number, shiftCurrency o c.per_unit.currency⟩⟩

/-- Shift a custom value by a line offset. -/
def shiftCustomValue (o : Nat) (v : CustomValue) : CustomValue :=
  ⟨⟨shiftSpan o v.raw.span⟩,
    match v.value with
    | .str s => .str (shiftStr o s)
    | .num e => .num (shiftNumberExpr o e)⟩

/-- Shift a posting by its line offset. -/
def shiftPosting (o : Nat) (p : Posting) : Posting :=
  ⟨shiftSpan o p.span, shiftAccount o p.account, p.amount.map (shiftAmount o),
    p.cost_spec.map (shiftCostSpec o)⟩

/-- Shift a whole directive by its line offset (used for the single-line
directives, whose spans are all local to the line). -/
def shiftDirective (o : Nat) : Directive → Directive
  | .opn d => .opn ⟨shiftSpan o d.span, shiftDate o d.date, shiftAccount o d.account,
      d.currencies.map (shiftCurrency o)⟩
  | .cls d => .cls ⟨shiftSpan o d.span, shiftDate o d.date, shiftAccount o d.account⟩
  | .bal d => .bal ⟨shiftSpan o d.span, shiftDate o d.date, shiftAccount o d.account,
      shiftAmount o d.amount⟩
  | .txn d => .txn ⟨shiftSpan o d.span, shiftDate o d.date, d.flag,
      d.payee.map (shiftStr o), d.narration.map (shiftStr o),
      ⟨d.extra.tags.map (shiftLabel o), d.extra.links.map (shiftLabel o)⟩,
      d.postings.map (shiftPosting o)⟩
  | .prc d => .prc ⟨shiftSpan o d.span, shiftDate o d.date, shiftCurrency o d.commodity,
      shiftAmount o d.amount⟩
  | .evt d => .evt ⟨shiftSpan o d.span, shiftDate o d.date, shiftStr o d.typ,
      shiftStr o d.description⟩
  | .nte d => .nte ⟨shiftSpan o d.span, shiftDate o d.date, shiftAccount o d.account,
      shiftStr o d.comment⟩
  | .cst d => .cst ⟨shiftSpan o d.span, shiftDate o d.date, shiftStr o d.typ,
      d.values.map (shiftCustomValue o)⟩
  | .opt d => .opt ⟨shiftSpan o d.span, shiftStr o d.name, shiftStr o d.value⟩
  | .inc d => .inc ⟨shiftSpan o d.span, shiftStr o d.path⟩
  | .plg d => .plg ⟨shiftSpan o d.span, shiftStr o d.name, d.config.map (shiftStr o)⟩
  | .tag d => .tag ⟨shiftSpan o d.span, d.action, shiftLabel o d.tag⟩
  | .cmt d => .cmt ⟨shiftSpan o d.span, d.text⟩
  | .hdl d => .hdl ⟨shiftSpan o d.span, d.level, d.text⟩

/-- Collect the leading currency tokens (the currency list of `open`). -/
def takeCurs : List Tok → List SpannedCurrency × List Tok
  | .cur sp name :: r =>
    let p := takeCurs r
    (⟨sp, name⟩ :: p.1, p.2)
  | ts => ([], ts)

/-- Collect the leading string tokens (payee / narration of a transaction
header). -/
def takeStrs : List Tok → List SpannedStr × List Tok
  | .str sp v :: r =>
    let p := takeStrs r
    (⟨sp, v⟩ :: p.1, p.2)
  | ts => ([], ts)

/-- Modelled from the spec, section 4.2: tags and links of a transaction
header accumulate in order; a duplicate within one directive is rejected with
a diagnostic. Any other trailing token is a syntax error. -/
def parseTagsLinks : List Tok → List SpannedLabel → List SpannedLabel →
    Except PErr TransactionExtra
  | [], tags, links => .ok ⟨tags, links⟩
  | .tag sp name :: r, tags, links =>
    if tags.any (fun t => t.name = name) then .error (sp, lit "duplicate tag")
    else parseTagsLinks r (tags ++ [⟨sp, name⟩]) links
  | .link sp name :: r, tags, links =>
    if links.any (fun t => t.name = name) then .error (sp, lit "duplicate link")
    else parseTagsLinks r tags (links ++ [⟨sp, name⟩])
  | t :: _, _, _ => .error (tokSp t, lit "unexpected token in transaction header")

/-- Parse the custom values of a `custom` directive (fueled; one fuel unit per
value, so `length + 1` suffices). -/
def takeCVals : Nat → List Tok → Except PErr (List CustomValue)
  | 0, _ => .error (⟨0, 0⟩, lit "custom value fuel exhausted")
  | _ + 1, [] => .ok []
  | f + 1, .str sp v :: r =>
    (takeCVals f r).map (fun vs => ⟨⟨sp⟩, .str ⟨sp, v⟩⟩ :: vs)
  | f + 1, ts =>
    (parseNumberExpr ts).bind (fun p =>
      (takeCVals f p.2).map (fun vs => ⟨⟨p.1.span⟩, .num p.1⟩ :: vs))

/-- Parse the tokens of an `open` directive after the keyword; `n` is the line
length, the whole line being the directive's (local) span. -/
def parseOpen (n : Nat) (d : SpannedDate) (ts : List Tok) : Except PErr Directive :=
  match ts with
  | .acct sp name :: r =>
    let p := takeCurs r
    match expectEnd p.2 with
    | .error e => .error e
    | .ok _ => .ok (.opn ⟨⟨0, n⟩, d, ⟨sp, name⟩, p.1⟩)
  | t :: _ => .error (tokSp t, lit "expected an account")
  | [] => .error (⟨0, n⟩, lit "expected an account")

/-- Parse the tokens of a `close` directive after the keyword. -/
def parseClose (n : Nat) (d : SpannedDate) (ts : List Tok) : Except PErr Directive :=
  match ts with
  | [.acct sp name] => .ok (.cls ⟨⟨0, n⟩, d, ⟨sp, name⟩⟩)
  | t :: _ => .error (tokSp t, lit "expected an account")
  | [] => .error (⟨0, n⟩, lit "expected an account")

/-- Parse the tokens of a `balance` directive after the keyword. -/
def parseBalance (n : Nat) (d : SpannedDate) (ts : List Tok) : Except PErr Directive :=
  match ts with
  | .acct sp name :: r =>
    match parseAmount r with
    | .error e => .error e
    | .ok (a, r2) =>
      match expectEnd r2 with
      | .error e => .error e
      | .ok _ => .ok (.bal ⟨⟨0, n⟩, d, ⟨sp, name⟩, a⟩)
  | t :: _ => .error (tokSp t, lit "expected an account")
  | [] => .error (⟨0, n⟩, lit "expected an account")

/-- Parse the tokens of a `price` directive after the keyword. -/
def parsePrice (n : Nat) (d : SpannedDate) (ts : List Tok) : Except PErr Directive :=
  match ts with
  | .cur sp name :: r =>
    match parseAmount r with
    | .error e => .error e
    | .ok (a, r2) =>
      match expectEnd r2 with
      | .error e => .error e
      | .ok _ => .ok (.prc ⟨⟨0, n⟩, d, ⟨sp, name⟩, a⟩)
  | t :: _ => .error (tokSp t, lit "expected a currency")
  | [] => .error (⟨0, n⟩, lit "expected a currency")

/-- Parse the tokens of an `event` directive after the keyword. -/
def parseEvent (n : Nat) (d : SpannedDate) (ts : List Tok) : Except PErr Directive :=
  match ts with
  | [.str sp1 v1, .str sp2 v2] => .ok (.evt ⟨⟨0, n⟩, d, ⟨sp1, v1⟩, ⟨sp2, v2⟩⟩)
  | t :: _ => .error (tokSp t, lit "expected two strings")
  | [] => .error (⟨0, n⟩, lit "expected two strings")

/-- Parse the tokens of a `note` directive after the keyword. -/
def parseNote (n : Nat) (d : SpannedDate) (ts : List Tok) : Except PErr Directive :=
  match ts with
  | [.acct sp name, .str sp2 v] => .ok (.nte ⟨⟨0, n⟩, d, ⟨sp, name⟩, ⟨sp2, v⟩⟩)
  | t :: _ => .error (tokSp t, lit "expected an account and a string")
  | [] => .error (⟨0, n⟩, lit "expected an account and a string")

/-- Parse the tokens of a `custom` directive after the keyword. -/
def parseCustom (n : Nat) (d : SpannedDate) (ts : List Tok) : Except PErr Directive :=
  match ts with
  | .str sp v :: r =>
    match takeCVals (r.length + 1) r with
    | .error e => .error e
    | .ok vs => .ok (.cst ⟨⟨0, n⟩, d, ⟨sp, v⟩, vs⟩)
  | t :: _ => .error (tokSp t, lit "expected a string")
  | [] => .error (⟨0, n⟩, lit "expected a string")

/-- Parse the tokens of a bare (undated) directive after its keyword. -/
def parseBare (n : Nat) (kwSpan : Span) (k : Kw) (ts : List Tok) : Except PErr Directive :=
  match k with
  | .opt =>
    match ts with
    | [.str sp1 v1, .str sp2 v2] => .ok (.opt ⟨⟨0, n⟩, ⟨sp1, v1⟩, ⟨sp2, v2⟩⟩)
    | t :: _ => .error (tokSp t, lit "expected two strings")
    | [] => .error (kwSpan, lit "expected two strings")
  | .inc =>
    match ts with
    | [.str sp v] => .ok (.inc ⟨⟨0, n⟩, ⟨sp, v⟩⟩)
    | t :: _ => .error (tokSp t, lit "expected a string")
    | [] => .error (kwSpan, lit "expected a string")
  | .plg =>
    match ts with
    | [.str sp v] => .ok (.plg ⟨⟨0, n⟩, ⟨sp, v⟩, none⟩)
    | [.str sp1 v1, .str sp2 v2] => .ok (.plg ⟨⟨0, n⟩, ⟨sp1, v1⟩, some ⟨sp2, v2⟩⟩)
    | t :: _ => .error (tokSp t, lit "expected one or two strings")
    | [] => .error (kwSpan, lit "expected one or two strings")
  | .pushtag =>
    match ts with
    | [.tag sp name] => .ok (.tag ⟨⟨0, n⟩, .push, ⟨sp, name⟩⟩)
    | t :: _ => .error (tokSp t, lit "expected a tag")
    | [] => .error (kwSpan, lit "expected a tag")
  | .poptag =>
    match ts with
    | [.tag sp name] => .ok (.tag ⟨⟨0, n⟩, .pop, ⟨sp, name⟩⟩)
    | t :: _ => .error (tokSp t, lit "expected a tag")
    | [] => .error (kwSpan, lit "expected a tag")
  | _ => .error (kwSpan, lit "expected option, include, plugin, pushtag or poptag")

/-- Parse one posting continuation line (local spans; the posting's span is
the whole line, leading indentation included, as the snapshots show). -/
def parsePostingLine (L : List Char) : Except PErr Posting :=
  match lexLine L with
  | .error e => .error (⟨e.1, e.1 + 1⟩, e.2)
  | .ok ts =>
    match ts with
    | [] => .error (⟨0, L.length⟩, lit "expected an account")
    | .acct sp name :: r =>
      match r with
      | [] => .ok ⟨⟨0, L.length⟩, ⟨sp, name⟩, none, none⟩
      | _ =>
        match parseAmount r with
        | .error e => .error e
        | .ok (a, r2) =>
          match parseCostOpt r2 with
          | .error e => .error e
          | .ok (c, r3) =>
            match expectEnd r3 with
            | .error e => .error e
            | .ok _ => .ok ⟨⟨0, L.length⟩, ⟨sp, name⟩, some a, c⟩
    | t :: _ => .error (tokSp t, lit "expected an account")

/-- A numbered line: the character offset of the line's first character in the
source buffer, and the line's text (without its terminator). -/
def NLine : Type := Nat × List Char

/-- A blank line: nothing but horizontal whitespace. -/
def isBlankL (L : List Char) : Bool := L.all isWs

/-- A line starting with horizontal whitespace (spec 4.2: a continuation line
starts with an `INDENT` of length at least one). -/
def isIndented (L : List Char) : Bool :=
  match L with
  | c :: _ => isWs c
  | [] => false

/-- A transaction continuation line: indented and not blank. -/
def contLine (L : List Char) : Bool := isIndented L && !isBlankL L

/-- Split the source into numbered lines. `o` is the offset of the current
line's start and `cur` the (reversed) characters of the current line read so
far. Every input, the empty one included, yields at least one line. -/
def splitAcc (o : Nat) (cur : List Char) : List Char → List NLine
  | [] => [(o, cur.reverse)]
  | c :: rest =>
    if c = '\n' then (o, cur.reverse) :: splitAcc (o + cur.length + 1) [] rest
    else splitAcc o (c :: cur) rest

/-- The numbered lines of a source buffer. -/
def numberedLines (S : List Char) : List NLine := splitAcc 0 [] S

/-- Take the leading continuation lines (a transaction's posting lines). -/
def takeIndented : List NLine → List NLine × List NLine
  | [] => ([], [])
  | x :: xs =>
    if contLine x.2 then
      let p := takeIndented xs
      (x :: p.1, p.2)
    else ([], x :: xs)

/-- A block: one significant head line and its continuation lines. -/
def Block : Type := NLine × List NLine

/-- An absolute parser error: a span into the whole buffer and a message. -/
def AErr : Type := Span × List Char

/-- Shift a line-local error to an absolute one. -/
def shiftErr (o : Nat) (e : PErr) : AErr := (shiftSpan o e.1, e.2)

/-- Modelled from the spec, section 4.2 top level: group the numbered lines
into blocks. Blank lines are skipped; a non-blank indented line that follows
no directive head is a syntax error; a significant line opens a block that
absorbs the following continuation lines. Fueled structurally (one unit per
line, so `length + 1` suffices). -/
def goB : Nat → List NLine → Except AErr (List Block)
  | 0, _ => .error (⟨0, 0⟩, lit "block fuel exhausted")
  | _ + 1, [] => .ok []
  | f + 1, x :: xs =>
    if isBlankL x.2 then goB f xs
    else if isIndented x.2 then
      .error (⟨x.1, x.1 + x.2.length⟩, lit "unexpected indentation")
    else
      let p := takeIndented xs
      match goB f p.2 with
      | .error e => .error e
      | .ok bs => .ok ((x, p.1) :: bs)

/-- Require that a single-line directive has no continuation lines. -/
def requireNoCont : List NLine → Except AErr Unit
  | [] => .ok ()
  | (o, L) :: _ => .error (⟨o, o + L.length⟩, lit "unexpected indentation")

/-- The message of the top-level dispatch error, naming the expected
productions (spec 4.2 and scenario 4 of section 8). -/
def dispatchMsg : List Char :=
  lit "expected a date, a directive keyword (option, include, plugin, pushtag, poptag), a comment, or a headline"

/-- Parse one posting at its numbered line: local parse, then shift by the
line's offset. -/
def parsePostingAt (x : NLine) : Except AErr Posting :=
  match parsePostingLine x.2 with
  | .error e => .error (shiftErr x.1 e)
  | .ok p => .ok (shiftPosting x.1 p)

/-- Parse every continuation line of a transaction as a posting, in order. -/
def mapPostings : List NLine → Except AErr (List Posting)
  | [] => .ok []
  | x :: xs => (parsePostingAt x).bind (fun p => (mapPostings xs).map (fun ps => p :: ps))

/-- Parse a transaction: header strings, tags and links, then one posting per
continuation line. The transaction's span runs from the head line's start to
the end of its last posting line (or of the head line when there are no
postings). -/
def parseTxnAt (o n : Nat) (cont : List NLine) (d : SpannedDate) (flag : Flag)
    (r : List Tok) : Except AErr Directive :=
  let strs := takeStrs r
  let pn : Except PErr (Option SpannedStr × Option SpannedStr) :=
    match strs.1 with
    | [] => .ok (none, none)
    | [a] => .ok (none, some a)
    | [a, b] => .ok (some a, some b)
    | _ :: _ :: c :: _ => .error (c.span, lit "too many strings in transaction header")
  match pn with
  | .error e => .error (shiftErr o e)
  | .ok (payee, narration) =>
    match parseTagsLinks strs.2 [] [] with
    | .error e => .error (shiftErr o e)
    | .ok extra =>
      match mapPostings cont with
      | .error e => .error e
      | .ok ps =>
        let stop := match ps.getLast? with
          | some p => p.span.stop
          | none => o + n
        .ok (.txn ⟨⟨o, stop⟩, shiftDate o d, flag,
          payee.map (shiftStr o), narration.map (shiftStr o),
          ⟨extra.tags.map (shiftLabel o), extra.links.map (shiftLabel o)⟩, ps⟩)

/-- Parse a dated directive from its head line. `o` is the line offset, `n`
the line length, `cont` the continuation lines, `d` the (local) date and `ts`
the tokens after the date. Dispatch follows spec 4.2: a directive keyword or a
transaction flag. -/
def parseDated (o n : Nat) (cont : List NLine) (d : SpannedDate) (ts : List Tok) :
    Except AErr Directive :=
  let single := fun (p : Except PErr Directive) =>
    match requireNoCont cont with
    | .error e => .error e
    | .ok _ =>
      match p with
      | .error e => .error (shiftErr o e)
      | .ok dir => .ok (shiftDirective o dir)
  match ts with
  | .kw sp k :: r =>
    match k with
    | .opn => single (parseOpen n d r)
    | .cls => single (parseClose n d r)
    | .bal => single (parseBalance n d r)
    | .prc => single (parsePrice n d r)
    | .evt => single (parseEvent n d r)
    | .nte => single (parseNote n d r)
    | .cst => single (parseCustom n d r)
    | .txn => parseTxnAt o n cont d Flag.txn r
    | _ => .error (shiftErr o (tokSp (.kw sp k),
        lit "expected a directive keyword (open, close, balance, price, event, note, custom) or a transaction flag"))
  | t :: r0 =>
    match symHead? (t :: r0) with
    | some (_, c, r) =>
      if c = '*' then parseTxnAt o n cont d Flag.star r
      else if c = '!' then parseTxnAt o n cont d Flag.bang r
      else .error (shiftErr o (tokSp t,
        lit "expected a directive keyword (open, close, balance, price, event, note, custom) or a transaction flag"))
    | none => .error (shiftErr o (tokSp t,
        lit "expected a directive keyword (open, close, balance, price, event, note, custom) or a transaction flag"))
  | [] => .error (⟨o, o + n⟩,
      lit "expected a directive keyword (open, close, balance, price, event, note, custom) or a transaction flag")

/-- The token-level dispatch of a block's head line: a date directive, a bare
keyword directive, or a syntax error naming the expected productions. -/
def parseBlockToks (o : Nat) (L : List Char) (cont : List NLine) : Except AErr Directive :=
  match lexLine L with
  | .error e => .error (⟨o + e.1, o + e.1 + 1⟩, e.2)
  | .ok ts =>
    match ts with
    | .date sp y mo dy :: r => parseDated o L.length cont ⟨sp, y, mo, dy⟩ r
    | .kw sp k :: r =>
      match requireNoCont cont with
      | .error e => .error e
      | .ok _ =>
        match parseBare L.length sp k r with
        | .error e => .error (shiftErr o e)
        | .ok dir => .ok (shiftDirective o dir)
    | t :: _ => .error (shiftErr o (tokSp t, dispatchMsg))
    | [] => .error (⟨o, o + L.length⟩, dispatchMsg)

/-- Modelled from the spec, section 4.2: parse one block. Dispatch on the
first significant token of the head line: a `;` comment, a `*…` headline, a
date, a bare keyword — otherwise a syntax error naming the expected
productions. -/
def parseBlock (b : Block) : Except AErr Directive :=
  match b.1.2 with
  | c :: _ =>
    if c = ';' then
      match requireNoCont b.2 with
      | .error e => .error e
      | .ok _ => .ok (.cmt ⟨⟨b.1.1, b.1.1 + b.1.2.length⟩, b.1.2⟩)
    else if c = '*' then
      match requireNoCont b.2 with
      | .error e => .error e
      | .ok _ => .ok (.hdl ⟨⟨b.1.1, b.1.1 + b.1.2.length⟩,
          (munch (fun x => x == '*') b.1.2).1.length, b.1.2⟩)
    else parseBlockToks b.1.1 b.1.2 b.2
  | [] => parseBlockToks b.1.1 b.1.2 b.2

/-- Parse every block, in order. -/
def mapBlocks : List Block → Except AErr (List Directive)
  | [] => .ok []
  | b :: bs => (parseBlock b).bind (fun d => (mapBlocks bs).map (fun ds => d :: ds))

/-- Modelled from the spec, sections 4.2 and 4.5: parse a whole buffer into
directives, or stop at the first error with a structured diagnostic. -/
def parseFileD (S : List Char) : Except AErr (List Directive) :=
  let lns := numberedLines S
  match goB (lns.length + 1) lns with
  | .error e => .error e
  | .ok bs => mapBlocks bs

/-- Decimal digits of a number, for diagnostics. -/
def natChars (n : Nat) : List Char := Nat.toDigits 10 n

/-- Modelled from the spec, section 4.5: render a diagnostic as
`<filename>:<line>:<col>: <message>`, line and column 1-based and derived from
the span start by counting newlines in the source buffer. -/
def renderDiag (fn S : List Char) (e : AErr) : List Char :=
  let pre := S.take e.1.start
  let ln := 1 + pre.count '\n'
  let col := 1 + (pre.reverse.takeWhile (fun c => !(c == '\n'))).length
  fn ++ ':' :: (natChars ln ++ ':' :: (natChars col ++ ':' :: ' ' :: e.2))

/-- Modelled from the spec, section 6, and the snapshot tests: the Python
entry point `parse_string`. A failure surfaces as a raised `ValueError` whose
`str()` is the rendered diagnostic; the shallow embedding renders that as the
`.error` branch carrying exactly that string, and no partial AST accompanies
it. -/
def parse_string (S fn : List Char) : Except (List Char) File :=
  match parseFileD S with
  | .error e => .error (renderDiag fn S e)
  | .ok ds => .ok ⟨S, ds⟩

/-- Modelled from the spec, section 4.4: for a node parsed from source,
`dump` returns the exact slice of the owning file's content designated by the
node's span. -/
def Directive.dump (S : List Char) (d : Directive) : List Char := sliceSp S d.spanOf

/-- `dump` of a posting: the slice at its span. -/
def Posting.dump (S : List Char) (p : Posting) : List Char := sliceSp S p.span

/-- `dump` of an amount: the slice at its raw anchor's span. -/
def Amount.dump (S : List Char) (a : Amount) : List Char := sliceSp S a.raw.span

/-- `dump` of a cost spec: the slice at its raw anchor's span. -/
def CostSpec.dump (S : List Char) (c : CostSpec) : List Char := sliceSp S c.raw.span

/-- `dump` of a custom value: the slice at its raw anchor's span. -/
def CustomValue.dump (S : List Char) (v : CustomValue) : List Char := sliceSp S v.raw.span

/-- The dumps of all directives of a file joined by newlines, as the
round-trip property of section 8 forms them. -/
def File.joinDumps (f : File) : List Char :=
  List.intercalate ['\n'] (f.directives.map (Directive.dump f.content))

/-- Erase a span: the "modulo spans" equivalence of the round-trip property
replaces every span by a fixed dummy. -/
def stripSpan (_ : Span) : Span := ⟨0, 0⟩

/-- Erase spans of a spanned string. -/
def stripStr (s : SpannedStr) : SpannedStr := ⟨stripSpan s.span, s.value⟩

/-- Erase spans of a spanned date. -/
def stripDate (d : SpannedDate) : SpannedDate := ⟨stripSpan d.span, d.year, d.month, d.day⟩

/-- Erase spans of a spanned account. -/
def stripAccount (a : SpannedAccount) : SpannedAccount := ⟨stripSpan a.span, a.name⟩

/-- Erase spans of a spanned currency. -/
def stripCurrency (c : SpannedCurrency) : SpannedCurrency := ⟨stripSpan c.span, c.name⟩

/-- Erase spans of a spanned label. -/
def stripLabel (l : SpannedLabel) : SpannedLabel := ⟨stripSpan l.span, l.name⟩

/-- Erase spans of a number expression. -/
def stripNumberExpr (e : NumberExpr) : NumberExpr := ⟨stripSpan e.span, e.value⟩

/-- Erase spans of an amount. -/
def stripAmount (a : Amount) : Amount :=
  ⟨⟨stripSpan a.raw.span⟩, stripNumberExpr a.number, stripCurrency a.currency⟩

/-- Erase spans of a cost spec. -/
def stripCostSpec (c : CostSpec) : CostSpec :=
  ⟨⟨stripSpan c.raw.span⟩, ⟨stripNumberExpr c.per_unit.number, stripCurrency c.per_unit.currency⟩⟩

/-- Erase spans of a custom value. -/
def stripCustomValue (v : CustomValue) : CustomValue :=
  ⟨⟨stripSpan v.raw.span⟩,
    match v.value with
    | .str s => .str (stripStr s)
    | .num e => .num (stripNumberExpr e)⟩

/-- Erase spans of a posting. -/
def stripPosting (p : Posting) : Posting :=
  ⟨stripSpan p.span, stripAccount p.account, p.amount.map stripAmount,
    p.cost_spec.map stripCostSpec⟩

/-- Erase every span of a directive: two directives are equal modulo spans
exactly when their strips are equal. -/
def stripDirective : Directive → Directive
  | .opn d => .opn ⟨stripSpan d.span, stripDate d.date, stripAccount d.account,
      d.currencies.map stripCurrency⟩
  | .cls d => .cls ⟨stripSpan d.span, stripDate d.date, stripAccount d.account⟩
  | .bal d => .bal ⟨stripSpan d.span, stripDate d.date, stripAccount d.account,
      stripAmount d.amount⟩
  | .txn d => .txn ⟨stripSpan d.span, stripDate d.date, d.flag,
      d.payee.map stripStr, d.narration.map stripStr,
      ⟨d.extra.tags.map stripLabel, d.extra.links.map stripLabel⟩,
      d.postings.map stripPosting⟩
  | .prc d => .prc ⟨stripSpan d.span, stripDate d.date, stripCurrency d.commodity,
      stripAmount d.amount⟩
  | .evt d => .evt ⟨stripSpan d.span, stripDate d.date, stripStr d.typ,
      stripStr d.description⟩
  | .nte d => .nte ⟨stripSpan d.span, stripDate d.date, stripAccount d.account,
      stripStr d.comment⟩
  | .cst d => .cst ⟨stripSpan d.span, stripDate d.date, stripStr d.typ,
      d.values.map stripCustomValue⟩
  | .opt d => .opt ⟨stripSpan d.span, stripStr d.name, stripStr d.value⟩
  | .inc d => .inc ⟨stripSpan d.span, stripStr d.path⟩
  | .plg d => .plg ⟨stripSpan d.span, stripStr d.name, d.config.map stripStr⟩
  | .tag d => .tag ⟨stripSpan d.span, d.action, stripLabel d.tag⟩
  | .cmt d => .cmt ⟨stripSpan d.span, d.text⟩
  | .hdl d => .hdl ⟨stripSpan d.span, d.level, d.text⟩

/-- A well-formed span: its start does not exceed its stop (starts are `Nat`,
so `0 ≤ start` holds by type). -/
def spanWf (s : Span) : Prop := s.start ≤ s.stop

/-- Span containment: the child's range lies within the parent's. -/
def inSpan (child parent : Span) : Prop :=
  parent.start ≤ child.start ∧ child.stop ≤ parent.stop

/-- Well-formedness of an amount inside a parent span: its raw anchor is a
well-formed sub-span, and number and currency nest inside the anchor. -/
def amountWfIn (p : Span) (a : Amount) : Prop :=
  spanWf a.raw.span ∧ inSpan a.raw.span p ∧
  spanWf a.number.span ∧ inSpan a.number.span a.raw.span ∧
  spanWf a.currency.span ∧ inSpan a.currency.span a.raw.span

/-- Well-formedness of a cost spec inside a parent span. -/
def costWfIn (p : Span) (c : CostSpec) : Prop :=
  spanWf c.raw.span ∧ inSpan c.raw.span p ∧
  spanWf c.per_unit.number.span ∧ inSpan c.per_unit.number.span c.raw.span ∧
  spanWf c.per_unit.currency.span ∧ inSpan c.per_unit.currency.span c.raw.span

/-- Well-formedness of a custom value inside a parent span. -/
def cvalWfIn (p : Span) (v : CustomValue) : Prop :=
  spanWf v.raw.span ∧ inSpan v.raw.span p ∧
  (match v.value with
   | .str s => spanWf s.span ∧ inSpan s.span v.raw.span
   | .num e => spanWf e.span ∧ inSpan e.span v.raw.span)

/-- Well-formedness of a posting inside a parent span: its own span is
well-formed and contained, and account, amount and cost spec nest inside it. -/
def postingWfIn (p : Span) (q : Posting) : Prop :=
  spanWf q.span ∧ inSpan q.span p ∧
  spanWf q.account.span ∧ inSpan q.account.span q.span ∧
  (match q.amount with
   | none => True
   | some a => amountWfIn q.span a) ∧
  (match q.cost_spec with
   | none => True
   | some c => costWfIn q.span c)

/-- Spec section 8, span containment, specialised to every parent-child edge
of the modelled AST: every node's span is well-formed and lies within its
parent's span, the directive's own span lying within `top` (the whole
buffer). -/
def Directive.wfIn (top : Span) : Directive → Prop
  | .opn d => spanWf d.span ∧ inSpan d.span top ∧
      spanWf d.date.span ∧ inSpan d.date.span d.span ∧
      spanWf d.account.span ∧ inSpan d.account.span d.span ∧
      ∀ c ∈ d.currencies, spanWf c.span ∧ inSpan c.span d.span
  | .cls d => spanWf d.span ∧ inSpan d.span top ∧
      spanWf d.date.span ∧ inSpan d.date.span d.span ∧
      spanWf d.account.span ∧ inSpan d.account.span d.span
  | .bal d => spanWf d.span ∧ inSpan d.span top ∧
      spanWf d.date.span ∧ inSpan d.date.span d.span ∧
      spanWf d.account.span ∧ inSpan d.account.span d.span ∧
      amountWfIn d.span d.amount
  | .txn d => spanWf d.span ∧ inSpan d.span top ∧
      spanWf d.date.span ∧ inSpan d.date.span d.span ∧
      (∀ s, d.payee = some s → spanWf s.span ∧ inSpan s.span d.span) ∧
      (∀ s, d.narration = some s → spanWf s.span ∧ inSpan s.span d.span) ∧
      (∀ t ∈ d.extra.tags, spanWf t.span ∧ inSpan t.span d.span) ∧
      (∀ t ∈ d.extra.links, spanWf t.span ∧ inSpan t.span d.span) ∧
      ∀ p ∈ d.postings, postingWfIn d.span p
  | .prc d => spanWf d.span ∧ inSpan d.span top ∧
      spanWf d.date.span ∧ inSpan d.date.span d.span ∧
      spanWf d.commodity.span ∧ inSpan d.commodity.span d.span ∧
      amountWfIn d.span d.amount
  | .evt d => spanWf d.span ∧ inSpan d.span top ∧
      spanWf d.date.span ∧ inSpan d.date.span d.span ∧
      spanWf d.typ.span ∧ inSpan d.typ.span d.span ∧
      spanWf d.description.span ∧ inSpan d.description.span d.span
  | .nte d => spanWf d.span ∧ inSpan d.span top ∧
      spanWf d.date.span ∧ inSpan d.date.span d.span ∧
      spanWf d.account.span ∧ inSpan d.account.span d.span ∧
      spanWf d.comment.span ∧ inSpan d.comment.span d.span
  | .cst d => spanWf d.span ∧ inSpan d.span top ∧
      spanWf d.date.span ∧ inSpan d.date.span d.span ∧
      spanWf d.typ.span ∧ inSpan d.typ.span d.span ∧
      ∀ v ∈ d.values, cvalWfIn d.span v
  | .opt d => spanWf d.span ∧ inSpan d.span top ∧
      spanWf d.name.span ∧ inSpan d.name.span d.span ∧
      spanWf d.value.span ∧ inSpan d.value.span d.span
  | .inc d => spanWf d.span ∧ inSpan d.span top ∧
      spanWf d.path.span ∧ inSpan d.path.span d.span
  | .plg d => spanWf d.span ∧ inSpan d.span top ∧
      spanWf d.name.span ∧ inSpan d.name.span d.span ∧
      ∀ s, d.config = some s → spanWf s.span ∧ inSpan s.span d.span
  | .tag d => spanWf d.span ∧ inSpan d.span top ∧
      spanWf d.tag.span ∧ inSpan d.tag.span d.span
  | .cmt d => spanWf d.span ∧ inSpan d.span top
  | .hdl d => spanWf d.span ∧ inSpan d.span top

/-- The directives of a successfully parsed source, or `[]` on failure. -/
def parsedDirectives (S fn : List Char) : List Directive :=
  match parse_string S fn with
  | .ok f => f.directives
  | .error _ => []

/-- The parsed `File` of a source, or an empty file on failure. -/
def parsedFile (S fn : List Char) : File :=
  match parse_string S fn with
  | .ok f => f
  | .error _ => ⟨[], []⟩

/-- Project a `Balance` directive. -/
def balOf : Directive → Option Balance
  | .bal b => some b
  | _ => none

/-- Project a `Transaction` directive. -/
def txnOf : Directive → Option Transaction
  | .txn t => some t
  | _ => none

/-- The postings of a directive (empty unless it is a transaction). -/
def dirPostings : Directive → List Posting
  | .txn t => t.postings
  | _ => []

/-- Every `Amount` node of a directive: balance and price amounts and the
amounts of postings. -/
def dirAmounts : Directive → List Amount
  | .bal b => [b.amount]
  | .prc p => [p.amount]
  | .txn t => t.postings.filterMap (fun p => p.amount)
  | _ => []

/-- Every `CostSpec` node of a directive. -/
def dirCostSpecs : Directive → List CostSpec
  | .txn t => t.postings.filterMap (fun p => p.cost_spec)
  | _ => []

/-- Every `CustomValue` node of a directive. -/
def dirCustomValues : Directive → List CustomValue
  | .cst c => c.values
  | _ => []

/-- The evaluated number of the first balance directive of a source, if any:
the probe the arithmetic scenarios use. -/
def balValue (S : List Char) : Option Rat :=
  ((parsedDirectives S (lit "num.bean")).head?.bind balOf).map
    (fun b => b.amount.number.value)

/-- Scenario 4 of section 8: the erroneous input. -/
def c5S : List Char := lit "this is not a directive\n"

/-- Scenario 5 of section 8: the arithmetic balance directive. -/
def c7S : List Char := lit "2020-01-02 balance Assets:Cash 100 + 0.5 USD"

/-- The four-space-indent file of the `test_indent` snapshot test. -/
def c6aS : List Char :=
  lit "; comment line\n2020-01-03 * \"Payee\" \"Narration\"\n    Assets:Cash  -10 USD\n    Expenses:Food        10 USD"

/-- The two-space-indent file of the `test_indent2` snapshot test. -/
def c6bS : List Char :=
  lit "; comment line\n2020-01-03 * \"Payee\" \"Narration\"\n  Assets:Cash             -10 USD\n  Expenses:Food  10 USD"

/-- The mixed-directives file of the snapshot tests (`MIXED_CONTENT`). -/
def mixedS : List Char := lit
  "; comment line\noption \"title\" \"Demo\"\n\n2020-01-01 open Assets:Cash USD\n2020-01-02 balance Assets:Cash 100 USD\n2020-01-03 * \"Payee\" \"Narration\"\n    Assets:Cash  -10 USD\n    Expenses:Food  10 USD\n\n2020-01-03 * \"Payee\" \"Narration\"\n  Assets:Cash  -10 USD\n  Expenses:Food  10 USD\n\n2020-01-04 price USD 1.23 EUR\n2020-01-05 event \"location\" \"NYC\"\n2020-01-06 note Assets:Cash \"ATM withdrawal\"\n2020-01-07 custom \"x\" \"y\"\n\nplugin \"beancount.plugins.auto_accounts\"\ninclude \"other.bean\"\n\n2020-12-31 close Assets:Cash\n"

/-- A transaction header with a duplicate tag, which the parser must reject. -/
def c8dupS : List Char := lit "2020-01-03 * \"Payee\" #foo #foo\n"

/-- One numbered line is truthful about the buffer: its text is the slice at
its offset, it fits in the buffer, and it contains no newline. -/
def lineSliceOk (S : List Char) (x : NLine) : Prop :=
  slice S x.1 (x.1 + x.2.length) = x.2 ∧ x.1 + x.2.length ≤ S.length ∧ '\n' ∉ x.2

/-- The numbered lines of a buffer, as the parser walks them: every line is
truthful, consecutive lines abut with exactly one newline between them. -/
inductive Chained (S : List Char) : List NLine → Prop where
  | nil : Chained S []
  | single (x : NLine) : lineSliceOk S x → Chained S [x]
  | cons (x y : NLine) (rest : List NLine) :
      lineSliceOk S x →
      y.1 = x.1 + x.2.length + 1 →
      S[x.1 + x.2.length]? = some '\n' →
      Chained S (y :: rest) →
      Chained S (x :: y :: rest)

/-- A token list in good order: every token's span is well-formed and lies in
`[lo, hi]`, and the tokens march left to right. -/
structure OrdToks (lo hi : Nat) (ts : List Tok) : Prop where
  bounds : ∀ t ∈ ts, lo ≤ (tokSp t).start ∧ (tokSp t).start ≤ (tokSp t).stop ∧ (tokSp t).stop ≤ hi
  chain : ts.Chain' (fun a b => (tokSp a).stop ≤ (tokSp b).start)

/-- The lines of a block, head first. -/
def blockLines (b : Block) : List NLine := b.1 :: b.2

/-- The line texts of a block. -/
def blockTexts (b : Block) : List (List Char) := (blockLines b).map Prod.snd

/-- The character offset one past the end of a numbered line. -/
def lastStop (x : NLine) : Nat := x.1 + x.2.length

/-- All postings of a parsed directive list. -/
def allPostings (ds : List Directive) : List Posting := (ds.map dirPostings).flatten

/-- Byte fidelity (spec section 8, claim C1), as one proposition over a
parsed file: the file keeps the source as its content, and dumping any
directive, posting, amount, cost spec or custom value returns exactly the
slice of the source at that node's span. -/
def byteFidelity (S : List Char) (f : File) : Prop :=
  f.content = S ∧
  (∀ d ∈ f.directives, Directive.dump f.content d = sliceSp S d.spanOf) ∧
  (∀ d ∈ f.directives, ∀ p ∈ dirPostings d, Posting.dump f.content p = sliceSp S p.span) ∧
  (∀ d ∈ f.directives, ∀ a ∈ dirAmounts d, Amount.dump f.content a = sliceSp S a.raw.span) ∧
  (∀ d ∈ f.directives, ∀ c ∈ dirCostSpecs d, CostSpec.dump f.content c = sliceSp S c.raw.span) ∧
  (∀ d ∈ f.directives, ∀ v ∈ dirCustomValues d, CustomValue.dump f.content v = sliceSp S v.raw.span)

/-- Raw anchoring (claim C10): every parsed amount, cost spec and custom
value carries a `raw` sub-node with a span, and its dump is the content slice
at exactly that raw span. -/
def rawAnchored (S : List Char) (f : File) : Prop :=
  f.content = S ∧
  (∀ d ∈ f.directives, ∀ a ∈ dirAmounts d, Amount.dump f.content a = sliceSp S a.raw.span) ∧
  (∀ d ∈ f.directives, ∀ c ∈ dirCostSpecs d, CostSpec.dump f.content c = sliceSp S c.raw.span) ∧
  (∀ d ∈ f.directives, ∀ v ∈ dirCustomValues d, CustomValue.dump f.content v = sliceSp S v.raw.span)

/-- Span containment and bounds (claim C3) over a parsed file. -/
def spanContainment (S : List Char) (f : File) : Prop :=
  ∀ d ∈ f.directives, Directive.wfIn ⟨0, S.length⟩ d

/-- Order preservation (claim C4): directives ordered by span start, and the
postings of every transaction ordered by span start (their source order). -/
def orderPreserved (f : File) : Prop :=
  f.directives.Pairwise (fun a b => a.spanOf.start < b.spanOf.start) ∧
  ∀ d ∈ f.directives, (dirPostings d).Pairwise (fun a b => a.span.start < b.span.start)

/-- Uniqueness and order of tags and links (claim C8) over a parsed file. -/
def tagsLinksUnique (f : File) : Prop :=
  ∀ d ∈ f.directives, ∀ t, txnOf d = some t →
    (t.extra.tags.map (fun x => x.name)).Nodup ∧
    (t.extra.links.map (fun x => x.name)).Nodup ∧
    t.extra.tags.Pairwise (fun a b => a.span.stop ≤ b.span.start) ∧
    t.extra.links.Pairwise (fun a b => a.span.stop ≤ b.span.start)

/-- The round-trip property (claim C2): re-parsing the joined dumps succeeds
and yields the same directives modulo spans. -/
def roundTrip (fn2 : List Char) (f : File) : Prop :=
  (parse_string f.joinDumps fn2).map (fun g => g.directives.map stripDirective) =
    .ok (f.directives.map stripDirective)

/-- The rendered diagnostic of scenario 4 (input `c5S`, filename
`bad.bean`). -/
def c5msg : List Char := renderDiag (lit "bad.bean") c5S (⟨0, 4⟩, dispatchMsg)

/-- The number expression of the balance directive of scenario 5. -/
def c7num : Option NumberExpr :=
  ((parsedDirectives c7S (lit "num.bean")).head?.bind balOf).map (fun b => b.amount.number)

/-- A small file touching balance amounts, posting amounts, cost specs and
custom values: the witness input for the byte-fidelity claims. -/
def c1wS : List Char := lit
  "2020-01-02 balance Assets:Cash 100 USD\n2020-01-03 * \"P\"\n  Assets:Cash  1 USD {2 EUR}\n2020-01-07 custom \"x\" 5\n"

theorem slice_append (S : List Char) {a b c : Nat} (h1 : a ≤ b) (h2 : b ≤ c) :
    slice S a c = slice S a b ++ slice S b c := by
  unfold slice
  have hd : S.drop b = (S.drop a).drop (b - a) := by
    rw [List.drop_drop]
    congr 1
    omega
  rw [hd]
  have := List.take_add (S.drop a) (b - a) (c - b)
  have harith : b - a + (c - b) = c - a := by omega
  rw [harith] at this
  exact this

theorem slice_singleton (S : List Char) {b : Nat} {ch : Char} (h : S[b]? = some ch) :
    slice S b (b + 1) = [ch] := by
  unfold slice
  have h0 : (S.drop b)[0]? = some ch := by
    rw [List.getElem?_drop]
    simpa using h
  cases hd : S.drop b with
  | nil => rw [hd] at h0; simp at h0
  | cons x t =>
    rw [hd] at h0
    simp at h0
    simp [h0]

theorem slice_length_le (S : List Char) (a b : Nat) : (slice S a b).length + a ≤ S.length ∨ slice S a b = [] := by
  unfold slice
  rcases Nat.lt_or_ge a S.length with h | h
  · left
    have := List.length_take (b - a) (S.drop a)
    have hd := List.length_drop a S
    omega
  · right
    have : S.drop a = [] := by
      apply List.drop_eq_nil_of_le
      exact h
    simp [this]

theorem intercalate_cons_cons (s a : List Char) (b : List Char) (l : List (List Char)) :
    List.intercalate s (a :: b :: l) = a ++ s ++ List.intercalate s (b :: l) := by
  simp [List.intercalate]

theorem intercalate_single (s a : List Char) : List.intercalate s [a] = a := by
  simp [List.intercalate]

theorem lineSliceOk_of_slice {S : List Char} {x : NLine}
    (h1 : slice S x.1 (x.1 + x.2.length) = x.2) (h2 : x.1 + x.2.length ≤ S.length)
    (h3 : '\n' ∉ x.2) : lineSliceOk S x := ⟨h1, h2, h3⟩

theorem splitAcc_head_fst (rest : List Char) :
    ∀ (o : Nat) (cur : List Char), (splitAcc o cur rest).head?.map Prod.fst = some o := by
  induction rest with
  | nil => intro o cur; simp [splitAcc]
  | cons c t ih =>
    intro o cur
    by_cases hc : c = '\n'
    · simp [splitAcc, hc]
    · simp only [splitAcc, if_neg hc]
      exact ih o (c :: cur)

theorem chained_splitAcc (S : List Char) (rest : List Char) :
    ∀ (o : Nat) (cur : List Char),
      cur.reverse = slice S o (o + cur.length) →
      '\n' ∉ cur →
      rest = S.drop (o + cur.length) →
      o + cur.length ≤ S.length →
      Chained S (splitAcc o cur rest) := by
  induction rest with
  | nil =>
    intro o cur hs hn hr hb
    refine Chained.single (o, cur.reverse) (lineSliceOk_of_slice ?_ ?_ ?_)
    · simpa using hs.symm
    · simpa using hb
    · simpa using hn
  | cons c t ih =>
    intro o cur hs hn hr hb
    have hget : S[o + cur.length]? = some c := by
      have h0 : (S.drop (o + cur.length))[0]? = some c := by
        rw [← hr]
        simp
      rw [List.getElem?_drop] at h0
      simpa using h0
    have hlt : o + cur.length < S.length := (List.getElem?_eq_some_iff.mp hget).1
    have hdt : t = S.drop (o + cur.length + 1) := by
      have h1 : List.drop 1 (c :: t) = t := by simp
      rw [← h1, hr, List.drop_drop]
    by_cases hc : c = '\n'
    · subst hc
      simp only [splitAcc, if_pos rfl]
      have hrec : Chained S (splitAcc (o + cur.length + 1) [] t) := by
        refine ih (o + cur.length + 1) [] ?_ ?_ ?_ ?_
        · simp [slice]
        · simp
        · simpa using hdt
        · simpa using hlt
      have hhead := splitAcc_head_fst t (o + cur.length + 1) []
      cases hsp : splitAcc (o + cur.length + 1) [] t with
      | nil => rw [hsp] at hhead; simp at hhead
      | cons y ys =>
        rw [hsp] at hrec hhead
        simp at hhead
        refine Chained.cons (o, cur.reverse) y ys (lineSliceOk_of_slice ?_ ?_ ?_) ?_ ?_ hrec
        · simpa using hs.symm
        · simpa using Nat.le_of_lt hlt
        · simpa using hn
        · simp [hhead]
        · simpa using hget
    · simp only [splitAcc, if_neg hc]
      have hlen : o + (c :: cur).length = o + cur.length + 1 := by
        simp only [List.length_cons]
        omega
      have hstep : slice S o (o + (c :: cur).length) = slice S o (o + cur.length) ++ [c] := by
        rw [hlen, slice_append S (b := o + cur.length) (by omega) (by omega),
          slice_singleton S hget]
      refine ih o (c :: cur) ?_ ?_ ?_ ?_
      · rw [List.reverse_cons, hstep, hs]
      · intro hmem
        rcases List.mem_cons.mp hmem with h | h
        · exact hc h.symm
        · exact hn h
      · rw [hlen, ← hdt]
      · omega

theorem numberedLines_chained (S : List Char) : Chained S (numberedLines S) := by
  refine chained_splitAcc S S 0 [] ?_ ?_ ?_ ?_
  · simp [slice]
  · simp
  · simp
  · simp

theorem Chained.head_ok {S : List Char} {x : NLine} {xs : List NLine}
    (h : Chained S (x :: xs)) : lineSliceOk S x := by
  cases h with
  | single _ hx => exact hx
  | cons _ _ _ hx _ _ _ => exact hx

theorem Chained.tail {S : List Char} {x : NLine} {xs : List NLine}
    (h : Chained S (x :: xs)) : Chained S xs := by
  cases h with
  | single _ _ => exact Chained.nil
  | cons _ _ _ _ _ _ hrest => exact hrest

theorem Chained.append_right {S : List Char} :
    ∀ {l1 l2 : List NLine}, Chained S (l1 ++ l2) → Chained S l2 := by
  intro l1
  induction l1 with
  | nil => intro l2 h; exact h
  | cons x t ih => intro l2 h; exact ih (Chained.tail h)

theorem Chained.append_left {S : List Char} :
    ∀ {l1 l2 : List NLine}, Chained S (l1 ++ l2) → Chained S l1 := by
  intro l1
  induction l1 with
  | nil => intro l2 _; exact Chained.nil
  | cons x t ih =>
    intro l2 h
    cases t with
    | nil =>
      cases l2 with
      | nil => simpa using h
      | cons y ys =>
        simp only [List.cons_append, List.nil_append] at h
        exact Chained.single x (Chained.head_ok h)
    | cons y ys =>
      simp only [List.cons_append] at h
      cases h with
      | cons _ _ _ hx hy hnl hrest =>
        exact Chained.cons x y ys hx hy hnl (ih hrest)

theorem Chained.chain_lt {S : List Char} :
    ∀ {lns : List NLine}, Chained S lns → lns.Chain' (fun a b => a.1 < b.1) := by
  intro lns h
  induction h with
  | nil => exact List.chain'_nil
  | single x _ => simp
  | cons x y rest hx hy hnl hrest ih =>
    refine List.chain'_cons.mpr ⟨?_, ih⟩
    omega

theorem Chained.pairwise_lt {S : List Char} {lns : List NLine}
    (h : Chained S lns) : lns.Pairwise (fun a b => a.1 < b.1) := by
  have : IsTrans NLine (fun a b => a.1 < b.1) := ⟨fun a b c h1 h2 => Nat.lt_trans h1 h2⟩
  exact List.chain'_iff_pairwise.mp (Chained.chain_lt h)

theorem Chained.head_le_lastStop {S : List Char} :
    ∀ {x : NLine} {xs : List NLine}, Chained S (x :: xs) →
      x.1 ≤ lastStop ((x :: xs).getLast (by simp)) := by
  intro x xs
  induction xs generalizing x with
  | nil => intro _; simp [lastStop]
  | cons y ys ih =>
    intro h
    have h2 : Chained S (y :: ys) := Chained.tail h
    have hy : y.1 = x.1 + x.2.length + 1 := by
      cases h with
      | cons _ _ _ _ hy _ _ => exact hy
    have := ih h2
    rw [List.getLast_cons (by simp)]
    omega

theorem chained_slice_intercalate {S : List Char} :
    ∀ {x : NLine} {xs : List NLine}, Chained S (x :: xs) →
      slice S x.1 (lastStop ((x :: xs).getLast (by simp))) =
        List.intercalate ['\n'] ((x :: xs).map Prod.snd) := by
  intro x xs
  induction xs generalizing x with
  | nil =>
    intro h
    have hok := Chained.head_ok h
    simp only [List.getLast_singleton, List.map_cons, List.map_nil]
    rw [intercalate_single]
    exact hok.1
  | cons y ys ih =>
    intro h
    have h2 : Chained S (y :: ys) := Chained.tail h
    have hok := Chained.head_ok h
    have hy : y.1 = x.1 + x.2.length + 1 := by
      cases h with
      | cons _ _ _ _ hy _ _ => exact hy
    have hnl : S[x.1 + x.2.length]? = some '\n' := by
      cases h with
      | cons _ _ _ _ _ hnl _ => exact hnl
    have hylast : y.1 ≤ lastStop ((y :: ys).getLast (by simp)) := Chained.head_le_lastStop h2
    have hgl : ((x :: y :: ys).getLast (by simp)) = ((y :: ys).getLast (by simp)) :=
      List.getLast_cons (by simp)
    rw [hgl]
    have hsplit1 : slice S x.1 (lastStop ((y :: ys).getLast (by simp))) =
        slice S x.1 (x.1 + x.2.length) ++
          slice S (x.1 + x.2.length) (lastStop ((y :: ys).getLast (by simp))) :=
      slice_append S (by omega) (by omega)
    have hsplit2 : slice S (x.1 + x.2.length) (lastStop ((y :: ys).getLast (by simp))) =
        slice S (x.1 + x.2.length) (x.1 + x.2.length + 1) ++
          slice S (x.1 + x.2.length + 1) (lastStop ((y :: ys).getLast (by simp))) :=
      slice_append S (by omega) (by omega)
    rw [hsplit1, hsplit2, slice_singleton S hnl, hok.1]
    have hih := ih h2
    rw [← hy, hih]
    simp [intercalate_cons_cons]

theorem munch_append (p : Char → Bool) :
    ∀ cs : List Char, (munch p cs).1 ++ (munch p cs).2 = cs := by
  intro cs
  induction cs with
  | nil => simp [munch]
  | cons c t ih =>
    by_cases hc : p c
    · simp only [munch, if_pos hc]
      simpa using ih
    · simp [munch, hc]

theorem munch_length (p : Char → Bool) (cs : List Char) :
    (munch p cs).1.length + (munch p cs).2.length = cs.length := by
  have := congrArg List.length (munch_append p cs)
  simpa using this

theorem lexStr_len :
    ∀ {cs v : List Char} {n : Nat} {r : List Char}, lexStr cs = some (v, n, r) →
      n + r.length = cs.length ∧ 1 ≤ n := by
  intro cs
  induction cs using lexStr.induct with
  | case1 => intro v n r h; simp [lexStr] at h
  | case2 r2 =>
    intro v n r h
    rw [lexStr.eq_def] at h
    simp at h
    obtain ⟨hv, hn, hr⟩ := h
    subst hn hr
    simp only [List.length_cons]
    omega
  | case3 hq =>
    intro v n r h
    rw [lexStr.eq_def] at h
    simp at h
  | case4 c2 r2 hq ih =>
    intro v n r h
    rw [lexStr.eq_def] at h
    dsimp only at h
    rw [if_neg hq] at h
    simp only [Option.bind_eq_bind] at h
    cases he : escChar c2 with
    | none => rw [he] at h; simp at h
    | some e =>
      rw [he] at h
      simp only [Option.some_bind] at h
      cases hrec : lexStr r2 with
      | none => rw [hrec] at h; simp at h
      | some tr =>
        obtain ⟨v2, n2, r3⟩ := tr
        rw [hrec] at h
        simp at h
        obtain ⟨hv, hn, hr⟩ := h
        subst hn hr
        have := ih hrec
        simp only [List.length_cons]
        omega
  | case5 c2 r2 hq hb ih =>
    intro v n r h
    rw [lexStr.eq_def] at h
    dsimp only at h
    rw [if_neg hq, if_neg hb] at h
    simp only [Option.bind_eq_bind] at h
    cases hrec : lexStr r2 with
    | none => rw [hrec] at h; simp at h
    | some tr =>
      obtain ⟨v2, n2, r3⟩ := tr
      rw [hrec] at h
      simp at h
      obtain ⟨hv, hn, hr⟩ := h
      subst hn hr
      have := ih hrec
      simp only [List.length_cons]
      omega

theorem lexDateTail_spec {i : Nat} {ds t2 : List Char} {t : Tok} {n : Nat}
    {r : List Char} (h : lexDateTail i ds t2 = .ok (t, n, r)) :
    n = 10 ∧ t2.length = r.length + 5 ∧ tokSp t = ⟨i, i + n⟩ := by
  simp only [lexDateTail] at h
  have hm2 := munch_length Char.isDigit t2
  cases h2 : (munch Char.isDigit t2).2 with
  | nil => rw [h2] at h; simp at h
  | cons c3 t3 =>
    rw [h2] at h
    rw [h2] at hm2
    dsimp only at h
    by_cases hc3 : c3 = '-'
    · rw [if_pos hc3] at h
      have hm3 := munch_length Char.isDigit t3
      by_cases h22 : (munch Char.isDigit t2).1.length = 2 ∧ (munch Char.isDigit t3).1.length = 2
      · rw [if_pos h22] at h
        by_cases hrange : 1 ≤ digitsToNat (munch Char.isDigit t2).1 ∧
            digitsToNat (munch Char.isDigit t2).1 ≤ 12 ∧
            1 ≤ digitsToNat (munch Char.isDigit t3).1 ∧
            digitsToNat (munch Char.isDigit t3).1 ≤ 31
        · rw [if_pos hrange] at h
          simp only [Except.ok.injEq, Prod.mk.injEq] at h
          obtain ⟨h1, hn, hr⟩ := h
          subst hn hr h1
          refine ⟨rfl, ?_, rfl⟩
          simp only [List.length_cons] at hm2
          omega
        · rw [if_neg hrange] at h; simp at h
      · rw [if_neg h22] at h; simp at h
    · rw [if_neg hc3] at h; simp at h

theorem lexNumTok_len {i : Nat} {c : Char} {cs : List Char} {t : Tok} {n : Nat}
    {r : List Char} (h : lexNumTok i c cs = .ok (t, n, r)) :
    n + r.length = cs.length + 1 ∧ 1 ≤ n ∧ tokSp t = ⟨i, i + n⟩ := by
  simp only [lexNumTok] at h
  have hm := munch_length Char.isDigit cs
  cases hm2 : (munch Char.isDigit cs).2 with
  | nil =>
    rw [hm2] at h
    rw [hm2] at hm
    dsimp only at h
    simp only [Except.ok.injEq, Prod.mk.injEq] at h
    obtain ⟨h1, hn, hr⟩ := h
    subst hn hr h1
    refine ⟨?_, ?_, rfl⟩ <;> simp only [List.length_cons, List.length_nil] at hm ⊢ <;> omega
  | cons c2 t2 =>
    rw [hm2] at h
    rw [hm2] at hm
    dsimp only at h
    by_cases hdate : c2 = '-' ∧ (c :: (munch Char.isDigit cs).1).length = 4
    · rw [if_pos hdate] at h
      obtain ⟨hn10, hlen, hsp⟩ := lexDateTail_spec h
      refine ⟨?_, ?_, hsp⟩ <;> simp only [List.length_cons] at hm hdate ⊢ <;> omega
    · rw [if_neg hdate] at h
      by_cases hdot : c2 = '.'
      · rw [if_pos hdot] at h
        have hfr := munch_length Char.isDigit t2
        by_cases hz : (munch Char.isDigit t2).1.length = 0
        · rw [if_pos hz] at h; simp at h
        · rw [if_neg hz] at h
          simp only [Except.ok.injEq, Prod.mk.injEq] at h
          obtain ⟨h1, hn, hr⟩ := h
          subst hn hr h1
          refine ⟨?_, ?_, rfl⟩ <;> simp only [List.length_cons] at hm hfr ⊢ <;> omega
      · rw [if_neg hdot] at h
        simp only [Except.ok.injEq, Prod.mk.injEq] at h
        obtain ⟨h1, hn, hr⟩ := h
        subst hn hr h1
        refine ⟨?_, ?_, rfl⟩ <;> simp only [List.length_cons] at hm ⊢ <;> omega

theorem OrdToks.empty (lo hi : Nat) : OrdToks lo hi [] := ⟨by simp, by simp⟩

theorem OrdToks.consTok {lo hi : Nat} {t : Tok} {ts : List Tok}
    (h1 : lo ≤ (tokSp t).start) (h2 : (tokSp t).start ≤ (tokSp t).stop)
    (h3 : (tokSp t).stop ≤ hi) (h4 : OrdToks (tokSp t).stop hi ts) :
    OrdToks lo hi (t :: ts) := by
  constructor
  · intro u hu
    rcases List.mem_cons.mp hu with h | h
    · subst h
      exact ⟨h1, h2, h3⟩
    · have hb := h4.bounds u h
      exact ⟨le_trans (le_trans h1 h2) hb.1, hb.2.1, hb.2.2⟩
  · cases ts with
    | nil => simp
    | cons u us =>
      refine List.chain'_cons.mpr ⟨?_, h4.chain⟩
      exact (h4.bounds u (by simp)).1

theorem OrdToks.weaken {lo hi lo2 hi2 : Nat} {ts : List Tok} (h : OrdToks lo hi ts)
    (h1 : lo2 ≤ lo) (h2 : hi ≤ hi2) : OrdToks lo2 hi2 ts := by
  constructor
  · intro u hu
    have hb := h.bounds u hu
    exact ⟨le_trans h1 hb.1, hb.2.1, le_trans hb.2.2 h2⟩
  · exact h.chain

theorem exceptMap_ok {ε α β : Type} {e : Except ε α} {g : α → β} {x : β}
    (h : e.map g = .ok x) : ∃ y, e = .ok y ∧ x = g y := by
  cases e with
  | error err => simp [Except.map] at h
  | ok y =>
    refine ⟨y, rfl, ?_⟩
    simp [Except.map] at h
    exact h.symm

theorem classifyUpper_span {i : Nat} {w : List Char} {t : Tok}
    (h : classifyUpper i w = .ok t) : tokSp t = ⟨i, i + w.length⟩ := by
  unfold classifyUpper at h
  by_cases hc : w.contains ':'
  · rw [if_pos hc] at h
    simp only [Except.ok.injEq] at h
    subst h
    rfl
  · rw [if_neg hc] at h
    by_cases hu : w.all (fun c => c.isUpper || c.isDigit)
    · rw [if_pos hu] at h
      simp only [Except.ok.injEq] at h
      subst h
      rfl
    · rw [if_neg hu] at h
      simp at h

theorem lexAux_ord :
    ∀ (f i : Nat) (cs : List Char) (ts : List Tok),
      lexAux f i cs = .ok ts → OrdToks i (i + cs.length) ts := by
  intro f
  induction f with
  | zero => intro i cs ts h; simp [lexAux] at h
  | succ f ih =>
    intro i cs ts h
    cases cs with
    | nil =>
      simp only [lexAux, Except.ok.injEq] at h
      subst h
      exact OrdToks.empty _ _
    | cons c cs =>
      rw [lexAux] at h
      by_cases hws : isWs c = true
      · rw [if_pos hws] at h
        have := ih (i + 1) cs ts h
        refine this.weaken (by omega) (by simp only [List.length_cons]; omega)
      · rw [if_neg hws] at h
        by_cases hq : (c == '"') = true
        · rw [if_pos hq] at h
          cases hls : lexStr cs with
          | none => rw [hls] at h; simp at h
          | some tr =>
            obtain ⟨v, n, r⟩ := tr
            rw [hls] at h
            obtain ⟨ts2, hts2, hcons⟩ := exceptMap_ok h
            subst hcons
            have hlen := lexStr_len hls
            have hrec := ih (i + 1 + n) r ts2 hts2
            refine OrdToks.consTok (by simp only [tokSp]; omega) (by simp only [tokSp]; omega)
              (by simp only [tokSp, List.length_cons]; omega) ?_
            have harith : i + 1 + n + r.length = i + (c :: cs).length := by
              simp only [List.length_cons]
              omega
            rw [harith] at hrec
            exact hrec
        · rw [if_neg hq] at h
          by_cases htg : (c == '#') = true
          · rw [if_pos htg] at h
            by_cases hz : (munch labelChar cs).1.length = 0
            · rw [if_pos hz] at h; simp at h
            · rw [if_neg hz] at h
              obtain ⟨ts2, hts2, hcons⟩ := exceptMap_ok h
              subst hcons
              have hlen := munch_length labelChar cs
              have hrec := ih (i + 1 + (munch labelChar cs).1.length) (munch labelChar cs).2 ts2 hts2
              refine OrdToks.consTok (by simp only [tokSp]; omega) (by simp only [tokSp]; omega) ?_ ?_
              · simp only [tokSp, List.length_cons]
                omega
              · have harith : i + 1 + (munch labelChar cs).1.length + (munch labelChar cs).2.length =
                    i + (c :: cs).length := by
                  simp only [List.length_cons]
                  omega
                rw [harith] at hrec
                exact hrec
          · rw [if_neg htg] at h
            by_cases hlk : (c == '^') = true
            · rw [if_pos hlk] at h
              by_cases hz : (munch labelChar cs).1.length = 0
              · rw [if_pos hz] at h; simp at h
              · rw [if_neg hz] at h
                obtain ⟨ts2, hts2, hcons⟩ := exceptMap_ok h
                subst hcons
                have hlen := munch_length labelChar cs
                have hrec := ih (i + 1 + (munch labelChar cs).1.length) (munch labelChar cs).2 ts2 hts2
                refine OrdToks.consTok (by simp only [tokSp]; omega) (by simp only [tokSp]; omega) ?_ ?_
                · simp only [tokSp, List.length_cons]
                  omega
                · have harith : i + 1 + (munch labelChar cs).1.length + (munch labelChar cs).2.length =
                      i + (c :: cs).length := by
                    simp only [List.length_cons]
                    omega
                  rw [harith] at hrec
                  exact hrec
            · rw [if_neg hlk] at h
              by_cases hdg : c.isDigit = true
              · rw [if_pos hdg] at h
                cases hnt : lexNumTok i c cs with
                | error e => rw [hnt] at h; simp at h
                | ok tr =>
                  obtain ⟨t, n, r⟩ := tr
                  rw [hnt] at h
                  obtain ⟨ts2, hts2, hcons⟩ := exceptMap_ok h
                  subst hcons
                  obtain ⟨hlen, hn1, hsp⟩ := lexNumTok_len hnt
                  have hrec := ih (i + n) r ts2 hts2
                  refine OrdToks.consTok (by rw [hsp]) (by rw [hsp]; simp only []; omega) ?_ ?_
                  · rw [hsp]
                    simp only [List.length_cons]
                    omega
                  · rw [hsp]
                    have harith : i + n + r.length = i + (c :: cs).length := by
                      simp only [List.length_cons]
                      omega
                    rw [harith] at hrec
                    exact hrec
              · rw [if_neg hdg] at h
                by_cases hlo : c.isLower = true
                · rw [if_pos hlo] at h
                  obtain ⟨ts2, hts2, hcons⟩ := exceptMap_ok h
                  subst hcons
                  have hlen := munch_length Char.isLower cs
                  have hrec := ih (i + (c :: (munch Char.isLower cs).1).length)
                    (munch Char.isLower cs).2 ts2 hts2
                  have hsp : tokSp (match kwOfWord (c :: (munch Char.isLower cs).1) with
                      | some k => Tok.kw ⟨i, i + (c :: (munch Char.isLower cs).1).length⟩ k
                      | none => Tok.word ⟨i, i + (c :: (munch Char.isLower cs).1).length⟩
                          (c :: (munch Char.isLower cs).1)) =
                      ⟨i, i + (c :: (munch Char.isLower cs).1).length⟩ := by
                    cases kwOfWord (c :: (munch Char.isLower cs).1) with
                    | none => rfl
                    | some k => rfl
                  refine OrdToks.consTok (by rw [hsp]) (by rw [hsp]; simp only []; omega) ?_ ?_
                  · rw [hsp]
                    simp only [List.length_cons]
                    omega
                  · rw [hsp]
                    have harith : i + (c :: (munch Char.isLower cs).1).length +
                        (munch Char.isLower cs).2.length = i + (c :: cs).length := by
                      simp only [List.length_cons]
                      omega
                    rw [harith] at hrec
                    exact hrec
                · rw [if_neg hlo] at h
                  by_cases hup : c.isUpper = true
                  · rw [if_pos hup] at h
                    dsimp only at h
                    cases hcl : classifyUpper i (c :: (munch acctChar cs).1) with
                    | error e => rw [hcl] at h; simp at h
                    | ok t =>
                      rw [hcl] at h
                      simp only [] at h
                      obtain ⟨ts2, hts2, hcons⟩ := exceptMap_ok h
                      subst hcons
                      have hlen := munch_length acctChar cs
                      have hsp := classifyUpper_span hcl
                      have hrec := ih (i + (c :: (munch acctChar cs).1).length)
                        (munch acctChar cs).2 ts2 hts2
                      refine OrdToks.consTok (by rw [hsp]) (by rw [hsp]; simp only []; omega) ?_ ?_
                      · rw [hsp]
                        simp only [List.length_cons]
                        omega
                      · rw [hsp]
                        have harith : i + (c :: (munch acctChar cs).1).length +
                            (munch acctChar cs).2.length = i + (c :: cs).length := by
                          simp only [List.length_cons]
                          omega
                        rw [harith] at hrec
                        exact hrec
                  · rw [if_neg hup] at h
                    by_cases hsy : (c == '+' || c == '-' || c == '*' || c == '/' || c == '('
                        || c == ')' || c == '{' || c == '}') = true
                    · rw [if_pos hsy] at h
                      obtain ⟨ts2, hts2, hcons⟩ := exceptMap_ok h
                      subst hcons
                      have hrec := ih (i + 1) cs ts2 hts2
                      refine OrdToks.consTok (by simp only [tokSp]; omega) (by simp only [tokSp]; omega) ?_ ?_
                      · simp only [tokSp, List.length_cons]
                        omega
                      · have harith : i + 1 + cs.length = i + (c :: cs).length := by
                          simp only [List.length_cons]
                          omega
                        rw [harith] at hrec
                        exact hrec
                    · rw [if_neg hsy] at h
                      simp at h

theorem chain_propagate :
    ∀ {ts : List Tok} {t : Tok},
      (t :: ts).Chain' (fun a b => (tokSp a).stop ≤ (tokSp b).start) →
      (∀ u ∈ ts, (tokSp u).start ≤ (tokSp u).stop) →
      ∀ u ∈ ts, (tokSp t).stop ≤ (tokSp u).start := by
  intro ts
  induction ts with
  | nil => simp
  | cons u us ih =>
    intro t hch hwf w hw
    have h1 : (tokSp t).stop ≤ (tokSp u).start := (List.chain'_cons.mp hch).1
    rcases List.mem_cons.mp hw with heq | hmem
    · subst heq
      exact h1
    · have hch2 := (List.chain'_cons.mp hch).2
      have h2 := ih hch2 (fun x hx => hwf x (by simp [hx])) w hmem
      have hu := hwf u (by simp)
      omega

theorem OrdToks.rest {lo hi : Nat} {t : Tok} {ts : List Tok}
    (h : OrdToks lo hi (t :: ts)) : OrdToks (tokSp t).stop hi ts := by
  constructor
  · intro u hu
    have hb := h.bounds u (by simp [hu])
    refine ⟨?_, hb.2.1, hb.2.2⟩
    exact chain_propagate h.chain (fun x hx => (h.bounds x (by simp [hx])).2.1) u hu
  · cases ts with
    | nil => simp
    | cons u us => exact (List.chain'_cons.mp h.chain).2

theorem symHead?_some {ts : List Tok} {sp : Span} {c : Char} {r : List Tok}
    (h : symHead? ts = some (sp, c, r)) : ts = .sym sp c :: r := by
  cases ts with
  | nil => simp [symHead?] at h
  | cons t r0 =>
    cases t with
    | sym sp0 c0 =>
      simp only [symHead?, Option.some.injEq, Prod.mk.injEq] at h
      obtain ⟨h1, h2, h3⟩ := h
      subst h1 h2 h3
      rfl
    | date sp0 y m d => simp [symHead?] at h
    | acct sp0 n => simp [symHead?] at h
    | cur sp0 n => simp [symHead?] at h
    | str sp0 v => simp [symHead?] at h
    | tag sp0 n => simp [symHead?] at h
    | link sp0 n => simp [symHead?] at h
    | num sp0 v => simp [symHead?] at h
    | kw sp0 k => simp [symHead?] at h
    | word sp0 w => simp [symHead?] at h

theorem exceptBind_ok {ε α β : Type} {e : Except ε α} {k : α → Except ε β} {x : β}
    (h : e.bind k = .ok x) : ∃ y, e = .ok y ∧ k y = .ok x := by
  cases e with
  | error err => simp [Except.bind] at h
  | ok y => exact ⟨y, rfl, by simpa [Except.bind] using h⟩

theorem parseX_ord :
    ∀ (f : Nat) (mode : EMode) (acc : Option NumberExpr) (ts : List Tok) (lo hi : Nat)
      (e : NumberExpr) (r : List Tok),
      (match acc with
       | none => OrdToks lo hi ts
       | some a => lo ≤ a.span.start ∧ a.span.start ≤ a.span.stop ∧ a.span.stop ≤ hi ∧
           OrdToks a.span.stop hi ts) →
      parseX f mode acc ts = .ok (e, r) →
      lo ≤ e.span.start ∧ e.span.start ≤ e.span.stop ∧ e.span.stop ≤ hi ∧
        OrdToks e.span.stop hi r := by
  intro f
  induction f with
  | zero =>
    intro mode acc ts lo hi e r hord h
    simp [parseX] at h
  | succ f ih =>
    intro mode acc ts lo hi e r hord h
    have hOrd : OrdToks lo hi ts := by
      cases acc with
      | none => exact hord
      | some a =>
        obtain ⟨h1, h2, h2b, h3⟩ := hord
        exact h3.weaken (le_trans h1 h2) le_rfl
    cases mode with
    | factor =>
      rw [parseX] at h
      cases hsh : symHead? ts with
      | some v =>
        obtain ⟨sp, c, r0⟩ := v
        have hts := symHead?_some hsh
        subst hts
        rw [hsh] at h
        simp only [Option.elim] at h
        have hhead := hOrd.bounds (.sym sp c) (by simp)
        simp only [tokSp] at hhead
        have htail := hOrd.rest
        simp only [tokSp] at htail
        by_cases hminus : c = '-'
        · rw [if_pos hminus] at h
          obtain ⟨p, hp, hcons⟩ := exceptMap_ok h
          obtain ⟨e0, r2⟩ := p
          obtain ⟨hr1, hr2, hr2b, hr3⟩ := ih .factor none r0 sp.stop hi e0 r2 htail hp
          simp only [negWrap, Prod.mk.injEq] at hcons
          obtain ⟨he, hr⟩ := hcons
          subst he hr
          refine ⟨?_, ?_, ?_, hr3⟩
          · show lo ≤ sp.start
            omega
          · show sp.start ≤ e0.span.stop
            omega
          · show e0.span.stop ≤ hi
            omega
        · rw [if_neg hminus] at h
          by_cases hpar : c = '('
          · rw [if_pos hpar] at h
            obtain ⟨p, hrec0, hk⟩ := exceptBind_ok h
            obtain ⟨e0, r2⟩ := p
            obtain ⟨hr1, hr2, hr2b, hr3⟩ := ih .expr none r0 sp.stop hi e0 r2 htail hrec0
            rw [parenTail] at hk
            cases hsh2 : symHead? (e0, r2).2 with
            | none => rw [hsh2] at hk; simp at hk
            | some v2 =>
              obtain ⟨sp2, c2, r3⟩ := v2
              have hr2eq := symHead?_some hsh2
              rw [hsh2] at hk
              dsimp only at hk
              by_cases hcl : c2 = ')'
              · rw [if_pos hcl] at hk
                simp only [Except.ok.injEq, Prod.mk.injEq] at hk
                obtain ⟨he, hr⟩ := hk
                subst he hr
                simp only at hr2eq
                rw [hr2eq] at hr3
                have hb2 := hr3.bounds (.sym sp2 c2) (by simp)
                simp only [tokSp] at hb2
                have ht2 := hr3.rest
                simp only [tokSp] at ht2
                refine ⟨?_, ?_, ?_, ht2⟩
                · show lo ≤ sp.start
                  omega
                · show sp.start ≤ sp2.stop
                  omega
                · show sp2.stop ≤ hi
                  omega
              · rw [if_neg hcl] at hk
                simp at hk
          · rw [if_neg hpar] at h
            simp at h
      | none =>
        rw [hsh] at h
        simp only [Option.elim] at h
        rw [numFactor.eq_def] at h
        cases ts with
        | nil => simp at h
        | cons t r0 =>
          cases t with
          | num sp v =>
            simp only [Except.ok.injEq, Prod.mk.injEq] at h
            obtain ⟨he, hr⟩ := h
            subst he hr
            have hhead := hOrd.bounds (.num sp v) (by simp)
            simp only [tokSp] at hhead
            have htail := hOrd.rest
            simp only [tokSp] at htail
            exact ⟨hhead.1, hhead.2.1, hhead.2.2, htail⟩
          | date sp y m d => simp at h
          | acct sp n => simp at h
          | cur sp n => simp at h
          | str sp v => simp at h
          | tag sp n => simp at h
          | link sp n => simp at h
          | kw sp k => simp at h
          | word sp w => simp at h
          | sym sp c => simp [symHead?] at hsh
    | term =>
      rw [parseX] at h
      obtain ⟨p, hrec0, hk⟩ := exceptBind_ok h
      obtain ⟨a, r1⟩ := p
      have ha := ih .factor none ts lo hi a r1 hOrd hrec0
      exact ih .termLoop (some a) r1 lo hi e r ⟨ha.1, ha.2.1, ha.2.2.1, ha.2.2.2⟩ hk
    | termLoop =>
      cases acc with
      | none => rw [parseX] at h; simp at h
      | some a =>
        rw [parseX] at h
        obtain ⟨ha1, ha2, ha2b, hord2⟩ := hord
        cases hsh : symHead? ts with
        | none =>
          rw [hsh] at h
          simp only [Option.elim, Except.ok.injEq, Prod.mk.injEq] at h
          obtain ⟨he, hr⟩ := h
          subst he hr
          exact ⟨ha1, ha2, ha2b, hord2⟩
        | some v =>
          obtain ⟨sp, c, r0⟩ := v
          have hts := symHead?_some hsh
          subst hts
          rw [hsh] at h
          simp only [Option.elim] at h
          have hhead := hord2.bounds (.sym sp c) (by simp)
          simp only [tokSp] at hhead
          have htail := hord2.rest
          simp only [tokSp] at htail
          by_cases hmul : c = '*'
          · rw [if_pos hmul] at h
            obtain ⟨p, hrec0, hk⟩ := exceptBind_ok h
            obtain ⟨b, r2⟩ := p
            obtain ⟨hb1, hb2, hb2b, hb3⟩ := ih .factor none r0 sp.stop hi b r2 htail hrec0
            refine ih .termLoop (some (mulNE a b)) r2 lo hi e r ⟨?_, ?_, ?_, ?_⟩ hk
            · show lo ≤ a.span.start
              omega
            · show a.span.start ≤ b.span.stop
              omega
            · show b.span.stop ≤ hi
              omega
            · exact hb3
          · rw [if_neg hmul] at h
            by_cases hdiv : c = '/'
            · rw [if_pos hdiv] at h
              obtain ⟨p, hrec0, hk⟩ := exceptBind_ok h
              obtain ⟨b, r2⟩ := p
              obtain ⟨hb1, hb2, hb2b, hb3⟩ := ih .factor none r0 sp.stop hi b r2 htail hrec0
              refine ih .termLoop (some (divNE a b)) r2 lo hi e r ⟨?_, ?_, ?_, ?_⟩ hk
              · show lo ≤ a.span.start
                omega
              · show a.span.start ≤ b.span.stop
                omega
              · show b.span.stop ≤ hi
                omega
              · exact hb3
            · rw [if_neg hdiv] at h
              simp only [Except.ok.injEq, Prod.mk.injEq] at h
              obtain ⟨he, hr⟩ := h
              subst he hr
              exact ⟨ha1, ha2, ha2b, hord2⟩
    | expr =>
      rw [parseX] at h
      obtain ⟨p, hrec0, hk⟩ := exceptBind_ok h
      obtain ⟨a, r1⟩ := p
      have ha := ih .term none ts lo hi a r1 hOrd hrec0
      exact ih .exprLoop (some a) r1 lo hi e r ⟨ha.1, ha.2.1, ha.2.2.1, ha.2.2.2⟩ hk
    | exprLoop =>
      cases acc with
      | none => rw [parseX] at h; simp at h
      | some a =>
        rw [parseX] at h
        obtain ⟨ha1, ha2, ha2b, hord2⟩ := hord
        cases hsh : symHead? ts with
        | none =>
          rw [hsh] at h
          simp only [Option.elim, Except.ok.injEq, Prod.mk.injEq] at h
          obtain ⟨he, hr⟩ := h
          subst he hr
          exact ⟨ha1, ha2, ha2b, hord2⟩
        | some v =>
          obtain ⟨sp, c, r0⟩ := v
          have hts := symHead?_some hsh
          subst hts
          rw [hsh] at h
          simp only [Option.elim] at h
          have hhead := hord2.bounds (.sym sp c) (by simp)
          simp only [tokSp] at hhead
          have htail := hord2.rest
          simp only [tokSp] at htail
          by_cases hadd : c = '+'
          · rw [if_pos hadd] at h
            obtain ⟨p, hrec0, hk⟩ := exceptBind_ok h
            obtain ⟨b, r2⟩ := p
            obtain ⟨hb1, hb2, hb2b, hb3⟩ := ih .term none r0 sp.stop hi b r2 htail hrec0
            refine ih .exprLoop (some (addNE a b)) r2 lo hi e r ⟨?_, ?_, ?_, ?_⟩ hk
            · show lo ≤ a.span.start
              omega
            · show a.span.start ≤ b.span.stop
              omega
            · show b.span.stop ≤ hi
              omega
            · exact hb3
          · rw [if_neg hadd] at h
            by_cases hsub : c = '-'
            · rw [if_pos hsub] at h
              obtain ⟨p, hrec0, hk⟩ := exceptBind_ok h
              obtain ⟨b, r2⟩ := p
              obtain ⟨hb1, hb2, hb2b, hb3⟩ := ih .term none r0 sp.stop hi b r2 htail hrec0
              refine ih .exprLoop (some (subNE a b)) r2 lo hi e r ⟨?_, ?_, ?_, ?_⟩ hk
              · show lo ≤ a.span.start
                omega
              · show a.span.start ≤ b.span.stop
                omega
              · show b.span.stop ≤ hi
                omega
              · exact hb3
            · rw [if_neg hsub] at h
              simp only [Except.ok.injEq, Prod.mk.injEq] at h
              obtain ⟨he, hr⟩ := h
              subst he hr
              exact ⟨ha1, ha2, ha2b, hord2⟩

theorem parseNumberExpr_ord {ts : List Tok} {lo hi : Nat} {e : NumberExpr} {r : List Tok}
    (hord : OrdToks lo hi ts) (h : parseNumberExpr ts = .ok (e, r)) :
    lo ≤ e.span.start ∧ e.span.start ≤ e.span.stop ∧ e.span.stop ≤ hi ∧
      OrdToks e.span.stop hi r :=
  parseX_ord (4 * ts.length + 8) .expr none ts lo hi e r hord h

theorem expectEnd_ok {ts : List Tok} (h : expectEnd ts = .ok ()) : ts = [] := by
  cases ts with
  | nil => rfl
  | cons t r => simp [expectEnd] at h

theorem parseAmount_ord {ts : List Tok} {lo hi : Nat} {a : Amount} {r : List Tok}
    (hord : OrdToks lo hi ts) (h : parseAmount ts = .ok (a, r)) :
    amountWfIn ⟨lo, hi⟩ a ∧ OrdToks a.raw.span.stop hi r := by
  unfold parseAmount at h
  cases hne : parseNumberExpr ts with
  | error err => rw [hne] at h; simp at h
  | ok p =>
    obtain ⟨e, r1⟩ := p
    rw [hne] at h
    obtain ⟨he1, he2, he2b, he3⟩ := parseNumberExpr_ord hord hne
    cases r1 with
    | nil => simp at h
    | cons t r2 =>
      cases t with
      | cur sp name =>
        simp only [Except.ok.injEq, Prod.mk.injEq] at h
        obtain ⟨ha, hr⟩ := h
        subst ha hr
        have hcb := he3.bounds (.cur sp name) (by simp)
        simp only [tokSp] at hcb
        have hct := he3.rest
        simp only [tokSp] at hct
        refine ⟨⟨?_, ?_, ?_, ?_, ?_, ?_⟩, ?_⟩
        · show e.span.start ≤ sp.stop
          omega
        · show lo ≤ e.span.start ∧ sp.stop ≤ hi
          omega
        · exact he2
        · show e.span.start ≤ e.span.start ∧ e.span.stop ≤ sp.stop
          omega
        · exact hcb.2.1
        · show e.span.start ≤ sp.start ∧ sp.stop ≤ sp.stop
          omega
        · exact hct
      | date sp y m d => simp at h
      | acct sp n => simp at h
      | str sp v => simp at h
      | tag sp n => simp at h
      | link sp n => simp at h
      | num sp v => simp at h
      | kw sp k => simp at h
      | word sp w => simp at h
      | sym sp c => simp at h

theorem parseCostOpt_none {ts : List Tok} {r : List Tok}
    (h : parseCostOpt ts = .ok (none, r)) : r = ts := by
  unfold parseCostOpt at h
  cases hsh : symHead? ts with
  | none =>
    rw [hsh] at h
    simp only [Option.elim, Except.ok.injEq, Prod.mk.injEq] at h
    exact h.2.symm
  | some v =>
    obtain ⟨sp, c, r0⟩ := v
    rw [hsh] at h
    simp only [Option.elim] at h
    by_cases hb : c = '{'
    · rw [if_pos hb] at h
      obtain ⟨p, hp, hk⟩ := exceptBind_ok h
      obtain ⟨e, r2⟩ := p
      cases r2 with
      | nil => simp at hk
      | cons t r3 =>
        cases t with
        | cur csp name =>
          simp only at hk
          cases hsh2 : symHead? r3 with
          | none => rw [hsh2] at hk; simp at hk
          | some v2 =>
            obtain ⟨sp2, c2, r4⟩ := v2
            rw [hsh2] at hk
            dsimp only at hk
            by_cases hcl : c2 = '}'
            · rw [if_pos hcl] at hk; simp at hk
            · rw [if_neg hcl] at hk; simp at hk
        | date sp2 y m d => simp at hk
        | acct sp2 n => simp at hk
        | str sp2 v => simp at hk
        | tag sp2 n => simp at hk
        | link sp2 n => simp at hk
        | num sp2 v => simp at hk
        | kw sp2 k => simp at hk
        | word sp2 w => simp at hk
        | sym sp2 c2 => simp at hk
    · rw [if_neg hb] at h
      simp only [Except.ok.injEq, Prod.mk.injEq] at h
      exact h.2.symm

theorem parseCostOpt_some {ts : List Tok} {lo hi : Nat} {c : CostSpec} {r : List Tok}
    (hord : OrdToks lo hi ts) (h : parseCostOpt ts = .ok (some c, r)) :
    costWfIn ⟨lo, hi⟩ c ∧ OrdToks c.raw.span.stop hi r := by
  unfold parseCostOpt at h
  cases hsh : symHead? ts with
  | none =>
    rw [hsh] at h
    simp only [Option.elim, Except.ok.injEq, Prod.mk.injEq] at h
    exact absurd h.1 (by simp)
  | some v =>
    obtain ⟨sp, ch, r0⟩ := v
    have hts := symHead?_some hsh
    subst hts
    rw [hsh] at h
    simp only [Option.elim] at h
    have hhead := hord.bounds (.sym sp ch) (by simp)
    simp only [tokSp] at hhead
    have htail := hord.rest
    simp only [tokSp] at htail
    by_cases hb : ch = '{'
    · rw [if_pos hb] at h
      obtain ⟨p, hp, hk⟩ := exceptBind_ok h
      obtain ⟨e, r2⟩ := p
      obtain ⟨he1, he2, he2b, he3⟩ := parseNumberExpr_ord htail hp
      cases r2 with
      | nil => simp at hk
      | cons t r3 =>
        cases t with
        | cur csp name =>
          simp only at hk
          have hcb := he3.bounds (.cur csp name) (by simp)
          simp only [tokSp] at hcb
          have hct := he3.rest
          simp only [tokSp] at hct
          cases hsh2 : symHead? r3 with
          | none => rw [hsh2] at hk; simp at hk
          | some v2 =>
            obtain ⟨sp2, c2, r4⟩ := v2
            have hr3 := symHead?_some hsh2
            subst hr3
            rw [hsh2] at hk
            dsimp only at hk
            by_cases hcl : c2 = '}'
            · rw [if_pos hcl] at hk
              simp only [Except.ok.injEq, Prod.mk.injEq, Option.some.injEq] at hk
              obtain ⟨hc, hr⟩ := hk
              subst hc hr
              have hcb2 := hct.bounds (.sym sp2 c2) (by simp)
              simp only [tokSp] at hcb2
              have hct2 := hct.rest
              simp only [tokSp] at hct2
              refine ⟨⟨?_, ?_, ?_, ?_, ?_, ?_⟩, ?_⟩
              · show sp.start ≤ sp2.stop
                omega
              · show lo ≤ sp.start ∧ sp2.stop ≤ hi
                omega
              · exact he2
              · show sp.start ≤ e.span.start ∧ e.span.stop ≤ sp2.stop
                omega
              · exact hcb.2.1
              · show sp.start ≤ csp.start ∧ csp.stop ≤ sp2.stop
                omega
              · exact hct2
            · rw [if_neg hcl] at hk
              simp at hk
        | date sp2 y m d => simp at hk
        | acct sp2 n => simp at hk
        | str sp2 v => simp at hk
        | tag sp2 n => simp at hk
        | link sp2 n => simp at hk
        | num sp2 v => simp at hk
        | kw sp2 k => simp at hk
        | word sp2 w => simp at hk
        | sym sp2 c2 => simp at hk
    · rw [if_neg hb] at h
      simp only [Except.ok.injEq, Prod.mk.injEq] at h
      exact absurd h.1 (by simp)

theorem takeCurs_facts :
    ∀ {ts : List Tok} {lo hi : Nat}, OrdToks lo hi ts →
      (∀ c ∈ (takeCurs ts).1, spanWf c.span ∧ c.span.stop ≤ hi) ∧
        OrdToks lo hi (takeCurs ts).2 := by
  intro ts
  induction ts with
  | nil =>
    intro lo hi hord
    constructor
    · intro c hc
      simp [takeCurs] at hc
    · simpa [takeCurs] using hord
  | cons t r ih =>
    intro lo hi hord
    cases t with
    | cur sp name =>
      have hb := hord.bounds (.cur sp name) (by simp)
      simp only [tokSp] at hb
      have ht := hord.rest
      simp only [tokSp] at ht
      have := ih ht
      simp only [takeCurs]
      constructor
      · intro c hc
        rcases List.mem_cons.mp hc with heq | hmem
        · subst heq
          exact ⟨hb.2.1, hb.2.2⟩
        · exact this.1 c hmem
      · exact this.2.weaken (le_trans hb.1 hb.2.1) le_rfl
    | date sp y m d =>
      constructor
      · intro c2 hc2
        simp [takeCurs] at hc2
      · simpa [takeCurs] using hord
    | acct sp n =>
      constructor
      · intro c2 hc2
        simp [takeCurs] at hc2
      · simpa [takeCurs] using hord
    | str sp v =>
      constructor
      · intro c2 hc2
        simp [takeCurs] at hc2
      · simpa [takeCurs] using hord
    | tag sp n =>
      constructor
      · intro c2 hc2
        simp [takeCurs] at hc2
      · simpa [takeCurs] using hord
    | link sp n =>
      constructor
      · intro c2 hc2
        simp [takeCurs] at hc2
      · simpa [takeCurs] using hord
    | num sp v =>
      constructor
      · intro c2 hc2
        simp [takeCurs] at hc2
      · simpa [takeCurs] using hord
    | kw sp k =>
      constructor
      · intro c2 hc2
        simp [takeCurs] at hc2
      · simpa [takeCurs] using hord
    | word sp w =>
      constructor
      · intro c2 hc2
        simp [takeCurs] at hc2
      · simpa [takeCurs] using hord
    | sym sp c =>
      constructor
      · intro c2 hc2
        simp [takeCurs] at hc2
      · simpa [takeCurs] using hord

theorem takeStrs_facts :
    ∀ {ts : List Tok} {lo hi : Nat}, OrdToks lo hi ts →
      (∀ s ∈ (takeStrs ts).1, spanWf s.span ∧ s.span.stop ≤ hi) ∧
        OrdToks lo hi (takeStrs ts).2 := by
  intro ts
  induction ts with
  | nil =>
    intro lo hi hord
    constructor
    · intro c hc
      simp [takeStrs] at hc
    · simpa [takeStrs] using hord
  | cons t r ih =>
    intro lo hi hord
    cases t with
    | str sp v =>
      have hb := hord.bounds (.str sp v) (by simp)
      simp only [tokSp] at hb
      have ht := hord.rest
      simp only [tokSp] at ht
      have := ih ht
      simp only [takeStrs]
      constructor
      · intro c hc
        rcases List.mem_cons.mp hc with heq | hmem
        · subst heq
          exact ⟨hb.2.1, hb.2.2⟩
        · exact this.1 c hmem
      · exact this.2.weaken (le_trans hb.1 hb.2.1) le_rfl
    | date sp y m d =>
      constructor
      · intro c2 hc2
        simp [takeStrs] at hc2
      · simpa [takeStrs] using hord
    | acct sp n =>
      constructor
      · intro c2 hc2
        simp [takeStrs] at hc2
      · simpa [takeStrs] using hord
    | cur sp n =>
      constructor
      · intro c2 hc2
        simp [takeStrs] at hc2
      · simpa [takeStrs] using hord
    | tag sp n =>
      constructor
      · intro c2 hc2
        simp [takeStrs] at hc2
      · simpa [takeStrs] using hord
    | link sp n =>
      constructor
      · intro c2 hc2
        simp [takeStrs] at hc2
      · simpa [takeStrs] using hord
    | num sp v =>
      constructor
      · intro c2 hc2
        simp [takeStrs] at hc2
      · simpa [takeStrs] using hord
    | kw sp k =>
      constructor
      · intro c2 hc2
        simp [takeStrs] at hc2
      · simpa [takeStrs] using hord
    | word sp w =>
      constructor
      · intro c2 hc2
        simp [takeStrs] at hc2
      · simpa [takeStrs] using hord
    | sym sp c =>
      constructor
      · intro c2 hc2
        simp [takeStrs] at hc2
      · simpa [takeStrs] using hord

theorem takeCVals_facts :
    ∀ (f : Nat) {ts : List Tok} {lo hi : Nat} {vs : List CustomValue},
      OrdToks lo hi ts → takeCVals f ts = .ok vs →
      ∀ v ∈ vs, cvalWfIn ⟨lo, hi⟩ v := by
  intro f
  induction f with
  | zero => intro ts lo hi vs hord h; simp [takeCVals] at h
  | succ f ih =>
    intro ts lo hi vs hord h
    cases ts with
    | nil =>
      simp only [takeCVals, Except.ok.injEq] at h
      subst h
      simp
    | cons t r =>
      by_cases hstr : ∃ sp v, t = Tok.str sp v
      · obtain ⟨sp, v0, rfl⟩ := hstr
        rw [takeCVals] at h
        obtain ⟨vs2, hvs2, hcons⟩ := exceptMap_ok h
        subst hcons
        have hb := hord.bounds (.str sp v0) (by simp)
        simp only [tokSp] at hb
        have ht := hord.rest
        simp only [tokSp] at ht
        have hrec := ih (ht.weaken (le_trans hb.1 hb.2.1) le_rfl) hvs2
        intro v hv
        rcases List.mem_cons.mp hv with heq | hmem
        · subst heq
          refine ⟨hb.2.1, ⟨hb.1, hb.2.2⟩, hb.2.1, ?_⟩
          show sp.start ≤ sp.start ∧ sp.stop ≤ sp.stop
          omega
        · exact hrec v hmem
      · have hne : takeCVals (f + 1) (t :: r) =
            (parseNumberExpr (t :: r)).bind (fun p =>
              (takeCVals f p.2).map (fun vs => ⟨⟨p.1.span⟩, .num p.1⟩ :: vs)) := by
          cases t with
          | str sp v => exact absurd ⟨sp, v, rfl⟩ hstr
          | date sp y m d => rfl
          | acct sp n => rfl
          | cur sp n => rfl
          | tag sp n => rfl
          | link sp n => rfl
          | num sp v => rfl
          | kw sp k => rfl
          | word sp w => rfl
          | sym sp c => rfl
        rw [hne] at h
        obtain ⟨p, hp, hk⟩ := exceptBind_ok h
        obtain ⟨e, r2⟩ := p
        obtain ⟨he1, he2, he2b, he3⟩ := parseNumberExpr_ord hord hp
        obtain ⟨vs2, hvs2, hcons⟩ := exceptMap_ok hk
        subst hcons
        have hrec := ih (he3.weaken (le_trans he1 he2) le_rfl) hvs2
        intro v hv
        rcases List.mem_cons.mp hv with heq | hmem
        · subst heq
          refine ⟨he2, ⟨he1, he2b⟩, he2, ?_⟩
          show e.span.start ≤ e.span.start ∧ e.span.stop ≤ e.span.stop
          omega
        · exact hrec v hmem

theorem parseTagsLinks_facts :
    ∀ {ts : List Tok} {tags links : List SpannedLabel} {extra : TransactionExtra} {lo hi : Nat},
      OrdToks lo hi ts →
      (∀ t ∈ tags, t.span.stop ≤ lo) →
      (∀ t ∈ links, t.span.stop ≤ lo) →
      (∀ t ∈ tags, spanWf t.span ∧ t.span.stop ≤ hi) →
      (∀ t ∈ links, spanWf t.span ∧ t.span.stop ≤ hi) →
      (tags.map (fun x => x.name)).Nodup →
      (links.map (fun x => x.name)).Nodup →
      tags.Pairwise (fun a b => a.span.stop ≤ b.span.start) →
      links.Pairwise (fun a b => a.span.stop ≤ b.span.start) →
      parseTagsLinks ts tags links = .ok extra →
      (∀ t ∈ extra.tags, spanWf t.span ∧ t.span.stop ≤ hi) ∧
      (∀ t ∈ extra.links, spanWf t.span ∧ t.span.stop ≤ hi) ∧
      (extra.tags.map (fun x => x.name)).Nodup ∧
      (extra.links.map (fun x => x.name)).Nodup ∧
      extra.tags.Pairwise (fun a b => a.span.stop ≤ b.span.start) ∧
      extra.links.Pairwise (fun a b => a.span.stop ≤ b.span.start) := by
  intro ts
  induction ts with
  | nil =>
    intro tags links extra lo hi hord hst hsl hwt hwl hnt hnl hpt hpl h
    simp only [parseTagsLinks, Except.ok.injEq] at h
    subst h
    exact ⟨hwt, hwl, hnt, hnl, hpt, hpl⟩
  | cons t r ih =>
    intro tags links extra lo hi hord hst hsl hwt hwl hnt hnl hpt hpl h
    cases t with
    | tag sp name =>
      rw [parseTagsLinks] at h
      by_cases hdup : tags.any (fun t => t.name = name) = true
      · rw [if_pos hdup] at h
        simp at h
      · rw [if_neg hdup] at h
        have hb := hord.bounds (.tag sp name) (by simp)
        simp only [tokSp] at hb
        have ht := hord.rest
        simp only [tokSp] at ht
        have hnotmem : name ∉ tags.map (fun x => x.name) := by
          intro hmem
          apply hdup
          rw [List.any_eq_true]
          obtain ⟨x, hx, hxe⟩ := List.mem_map.mp hmem
          exact ⟨x, hx, by simp [hxe]⟩
        refine ih ht ?_ ?_ ?_ hwl ?_ hnl ?_ hpl h
        · intro u hu
          rcases List.mem_append.mp hu with hm | hm
          · have := hst u hm
            omega
          · simp at hm
            subst hm
            exact le_rfl
        · intro u hu
          have := hsl u hu
          omega
        · intro u hu
          rcases List.mem_append.mp hu with hm | hm
          · exact hwt u hm
          · simp at hm
            subst hm
            exact ⟨hb.2.1, hb.2.2⟩
        · rw [List.map_append]
          rw [List.nodup_append]
          refine ⟨hnt, by simp, ?_⟩
          intro x hx
          simp only [List.map_cons, List.map_nil, List.mem_cons, List.not_mem_nil, or_false]
          intro hxe
          subst hxe
          exact hnotmem hx
        · rw [List.pairwise_append]
          refine ⟨hpt, by simp, ?_⟩
          intro a ha b hb2
          simp at hb2
          subst hb2
          have h2 := hb.1
          show a.span.stop ≤ sp.start
          have := hst a ha
          omega
    | link sp name =>
      rw [parseTagsLinks] at h
      by_cases hdup : links.any (fun t => t.name = name) = true
      · rw [if_pos hdup] at h
        simp at h
      · rw [if_neg hdup] at h
        have hb := hord.bounds (.link sp name) (by simp)
        simp only [tokSp] at hb
        have ht := hord.rest
        simp only [tokSp] at ht
        have hnotmem : name ∉ links.map (fun x => x.name) := by
          intro hmem
          apply hdup
          rw [List.any_eq_true]
          obtain ⟨x, hx, hxe⟩ := List.mem_map.mp hmem
          exact ⟨x, hx, by simp [hxe]⟩
        refine ih ht ?_ ?_ hwt ?_ hnt ?_ hpt ?_ h
        · intro u hu
          have := hst u hu
          omega
        · intro u hu
          rcases List.mem_append.mp hu with hm | hm
          · have := hsl u hm
            omega
          · simp at hm
            subst hm
            exact le_rfl
        · intro u hu
          rcases List.mem_append.mp hu with hm | hm
          · exact hwl u hm
          · simp at hm
            subst hm
            exact ⟨hb.2.1, hb.2.2⟩
        · rw [List.map_append]
          rw [List.nodup_append]
          refine ⟨hnl, by simp, ?_⟩
          intro x hx
          simp only [List.map_cons, List.map_nil, List.mem_cons, List.not_mem_nil, or_false]
          intro hxe
          subst hxe
          exact hnotmem hx
        · rw [List.pairwise_append]
          refine ⟨hpl, by simp, ?_⟩
          intro a ha b hb2
          simp at hb2
          subst hb2
          have h2 := hb.1
          show a.span.stop ≤ sp.start
          have := hsl a ha
          omega
    | date sp y m d => simp [parseTagsLinks] at h
    | acct sp n => simp [parseTagsLinks] at h
    | cur sp n => simp [parseTagsLinks] at h
    | str sp v => simp [parseTagsLinks] at h
    | num sp v => simp [parseTagsLinks] at h
    | kw sp k => simp [parseTagsLinks] at h
    | word sp w => simp [parseTagsLinks] at h
    | sym sp c => simp [parseTagsLinks] at h

theorem inSpan_mono {c t t2 : Span} (h1 : inSpan c t) (h2 : inSpan t t2) : inSpan c t2 := by
  obtain ⟨a1, a2⟩ := h1
  obtain ⟨b1, b2⟩ := h2
  exact ⟨le_trans b1 a1, le_trans a2 b2⟩

/-- A date hypothesis: the date token is well formed and lies within the
line. -/
def dateOkIn (n : Nat) (d : SpannedDate) : Prop := spanWf d.span ∧ d.span.stop ≤ n

theorem parseOpen_facts {n : Nat} {d : SpannedDate} {ts : List Tok} {dir : Directive} {lo : Nat}
    (hord : OrdToks lo n ts) (hd : dateOkIn n d)
    (h : parseOpen n d ts = .ok dir) :
    dir.spanOf = ⟨0, n⟩ ∧ Directive.wfIn ⟨0, n⟩ dir := by
  unfold parseOpen at h
  cases ts with
  | nil => simp at h
  | cons t r =>
    cases t with
    | acct sp name =>
      simp only at h
      cases hee : expectEnd (takeCurs r).2 with
      | error e => rw [hee] at h; simp at h
      | ok u =>
        rw [hee] at h
        simp only [Except.ok.injEq] at h
        subst h
        have hb := hord.bounds (.acct sp name) (by simp)
        simp only [tokSp] at hb
        have htc := takeCurs_facts (hord.rest)
        simp only [tokSp] at htc
        refine ⟨rfl, ?_⟩
        refine ⟨by simp [spanWf], by simp [inSpan], hd.1, ⟨by simp, by simpa using hd.2⟩,
          hb.2.1, ⟨by simp, by simpa using hb.2.2⟩, ?_⟩
        intro c hc
        have := htc.1 c hc
        exact ⟨this.1, by simp, by simpa using this.2⟩
    | date sp y m dd => simp at h
    | cur sp nm => simp at h
    | str sp v => simp at h
    | tag sp nm => simp at h
    | link sp nm => simp at h
    | num sp v => simp at h
    | kw sp k => simp at h
    | word sp w => simp at h
    | sym sp c => simp at h

theorem parseClose_facts {n : Nat} {d : SpannedDate} {ts : List Tok} {dir : Directive} {lo : Nat}
    (hord : OrdToks lo n ts) (hd : dateOkIn n d)
    (h : parseClose n d ts = .ok dir) :
    dir.spanOf = ⟨0, n⟩ ∧ Directive.wfIn ⟨0, n⟩ dir := by
  unfold parseClose at h
  cases ts with
  | nil => simp at h
  | cons t r =>
    cases t with
    | acct sp name =>
      cases r with
      | cons t2 r2 => simp at h
      | nil =>
        simp only [Except.ok.injEq] at h
        subst h
        have hb := hord.bounds (.acct sp name) (by simp)
        simp only [tokSp] at hb
        exact ⟨rfl, by simp [spanWf], by simp [inSpan], hd.1,
          ⟨by simp, by simpa using hd.2⟩, hb.2.1, by simp, by simpa using hb.2.2⟩
    | date sp y m dd => simp at h
    | cur sp nm => simp at h
    | str sp v => simp at h
    | tag sp nm => simp at h
    | link sp nm => simp at h
    | num sp v => simp at h
    | kw sp k => simp at h
    | word sp w => simp at h
    | sym sp c => simp at h

theorem parseBalance_facts {n : Nat} {d : SpannedDate} {ts : List Tok} {dir : Directive} {lo : Nat}
    (hord : OrdToks lo n ts) (hd : dateOkIn n d)
    (h : parseBalance n d ts = .ok dir) :
    dir.spanOf = ⟨0, n⟩ ∧ Directive.wfIn ⟨0, n⟩ dir := by
  unfold parseBalance at h
  cases ts with
  | nil => simp at h
  | cons t r =>
    cases t with
    | acct sp name =>
      simp only at h
      cases hpa : parseAmount r with
      | error e => rw [hpa] at h; simp at h
      | ok p =>
        obtain ⟨a, r2⟩ := p
        rw [hpa] at h
        dsimp only at h
        cases hee : expectEnd r2 with
        | error e => rw [hee] at h; simp at h
        | ok u =>
          rw [hee] at h
          simp only [Except.ok.injEq] at h
          subst h
          have hb := hord.bounds (.acct sp name) (by simp)
          simp only [tokSp] at hb
          obtain ⟨haw, har⟩ := parseAmount_ord (hord.rest) hpa
          refine ⟨rfl, ?_⟩
          refine ⟨by simp [spanWf], by simp [inSpan], hd.1, ⟨by simp, by simpa using hd.2⟩,
            hb.2.1, ⟨by simp, by simpa using hb.2.2⟩, ?_⟩
          obtain ⟨w1, w2, w3, w4, w5, w6⟩ := haw
          exact ⟨w1, ⟨by simp, by simpa using w2.2⟩, w3, w4, w5, w6⟩
    | date sp y m dd => simp at h
    | cur sp nm => simp at h
    | str sp v => simp at h
    | tag sp nm => simp at h
    | link sp nm => simp at h
    | num sp v => simp at h
    | kw sp k => simp at h
    | word sp w => simp at h
    | sym sp c => simp at h

theorem parsePrice_facts {n : Nat} {d : SpannedDate} {ts : List Tok} {dir : Directive} {lo : Nat}
    (hord : OrdToks lo n ts) (hd : dateOkIn n d)
    (h : parsePrice n d ts = .ok dir) :
    dir.spanOf = ⟨0, n⟩ ∧ Directive.wfIn ⟨0, n⟩ dir := by
  unfold parsePrice at h
  cases ts with
  | nil => simp at h
  | cons t r =>
    cases t with
    | cur sp name =>
      simp only at h
      cases hpa : parseAmount r with
      | error e => rw [hpa] at h; simp at h
      | ok p =>
        obtain ⟨a, r2⟩ := p
        rw [hpa] at h
        dsimp only at h
        cases hee : expectEnd r2 with
        | error e => rw [hee] at h; simp at h
        | ok u =>
          rw [hee] at h
          simp only [Except.ok.injEq] at h
          subst h
          have hb := hord.bounds (.cur sp name) (by simp)
          simp only [tokSp] at hb
          obtain ⟨haw, har⟩ := parseAmount_ord (hord.rest) hpa
          refine ⟨rfl, ?_⟩
          refine ⟨by simp [spanWf], by simp [inSpan], hd.1, ⟨by simp, by simpa using hd.2⟩,
            hb.2.1, ⟨by simp, by simpa using hb.2.2⟩, ?_⟩
          obtain ⟨w1, w2, w3, w4, w5, w6⟩ := haw
          exact ⟨w1, ⟨by simp, by simpa using w2.2⟩, w3, w4, w5, w6⟩
    | date sp y m dd => simp at h
    | acct sp nm => simp at h
    | str sp v => simp at h
    | tag sp nm => simp at h
    | link sp nm => simp at h
    | num sp v => simp at h
    | kw sp k => simp at h
    | word sp w => simp at h
    | sym sp c => simp at h

theorem parseEvent_facts {n : Nat} {d : SpannedDate} {ts : List Tok} {dir : Directive} {lo : Nat}
    (hord : OrdToks lo n ts) (hd : dateOkIn n d)
    (h : parseEvent n d ts = .ok dir) :
    dir.spanOf = ⟨0, n⟩ ∧ Directive.wfIn ⟨0, n⟩ dir := by
  unfold parseEvent at h
  cases ts with
  | nil => simp at h
  | cons t r =>
    cases t with
    | str sp1 v1 =>
      cases r with
      | nil => simp at h
      | cons t2 r2 =>
        cases t2 with
        | str sp2 v2 =>
          cases r2 with
          | cons t3 r3 => simp at h
          | nil =>
            simp only [Except.ok.injEq] at h
            subst h
            have hb1 := hord.bounds (.str sp1 v1) (by simp)
            have hb2 := hord.bounds (.str sp2 v2) (by simp)
            simp only [tokSp] at hb1 hb2
            exact ⟨rfl, by simp [spanWf], by simp [inSpan], hd.1,
              ⟨by simp, by simpa using hd.2⟩, hb1.2.1, ⟨by simp, by simpa using hb1.2.2⟩,
              hb2.2.1, by simp, by simpa using hb2.2.2⟩
        | date sp y m dd => simp at h
        | acct sp nm => simp at h
        | cur sp nm => simp at h
        | tag sp nm => simp at h
        | link sp nm => simp at h
        | num sp v => simp at h
        | kw sp k => simp at h
        | word sp w => simp at h
        | sym sp c => simp at h
    | date sp y m dd => simp at h
    | acct sp nm => simp at h
    | cur sp nm => simp at h
    | tag sp nm => simp at h
    | link sp nm => simp at h
    | num sp v => simp at h
    | kw sp k => simp at h
    | word sp w => simp at h
    | sym sp c => simp at h

theorem parseNote_facts {n : Nat} {d : SpannedDate} {ts : List Tok} {dir : Directive} {lo : Nat}
    (hord : OrdToks lo n ts) (hd : dateOkIn n d)
    (h : parseNote n d ts = .ok dir) :
    dir.spanOf = ⟨0, n⟩ ∧ Directive.wfIn ⟨0, n⟩ dir := by
  unfold parseNote at h
  cases ts with
  | nil => simp at h
  | cons t r =>
    cases t with
    | acct sp1 v1 =>
      cases r with
      | nil => simp at h
      | cons t2 r2 =>
        cases t2 with
        | str sp2 v2 =>
          cases r2 with
          | cons t3 r3 => simp at h
          | nil =>
            simp only [Except.ok.injEq] at h
            subst h
            have hb1 := hord.bounds (.acct sp1 v1) (by simp)
            have hb2 := hord.bounds (.str sp2 v2) (by simp)
            simp only [tokSp] at hb1 hb2
            exact ⟨rfl, by simp [spanWf], by simp [inSpan], hd.1,
              ⟨by simp, by simpa using hd.2⟩, hb1.2.1, ⟨by simp, by simpa using hb1.2.2⟩,
              hb2.2.1, by simp, by simpa using hb2.2.2⟩
        | date sp y m dd => simp at h
        | acct sp nm => simp at h
        | cur sp nm => simp at h
        | tag sp nm => simp at h
        | link sp nm => simp at h
        | num sp v => simp at h
        | kw sp k => simp at h
        | word sp w => simp at h
        | sym sp c => simp at h
    | date sp y m dd => simp at h
    | cur sp nm => simp at h
    | str sp v => simp at h
    | tag sp nm => simp at h
    | link sp nm => simp at h
    | num sp v => simp at h
    | kw sp k => simp at h
    | word sp w => simp at h
    | sym sp c => simp at h

theorem parseCustom_facts {n : Nat} {d : SpannedDate} {ts : List Tok} {dir : Directive} {lo : Nat}
    (hord : OrdToks lo n ts) (hd : dateOkIn n d)
    (h : parseCustom n d ts = .ok dir) :
    dir.spanOf = ⟨0, n⟩ ∧ Directive.wfIn ⟨0, n⟩ dir := by
  unfold parseCustom at h
  cases ts with
  | nil => simp at h
  | cons t r =>
    cases t with
    | str sp v =>
      simp only at h
      cases hcv : takeCVals (r.length + 1) r with
      | error e => rw [hcv] at h; simp at h
      | ok vs =>
        rw [hcv] at h
        simp only [Except.ok.injEq] at h
        subst h
        have hb := hord.bounds (.str sp v) (by simp)
        simp only [tokSp] at hb
        have hvf := takeCVals_facts (r.length + 1) (hord.rest) hcv
        simp only [tokSp] at hvf
        refine ⟨rfl, ?_⟩
        refine ⟨by simp [spanWf], by simp [inSpan], hd.1, ⟨by simp, by simpa using hd.2⟩,
          hb.2.1, ⟨by simp, by simpa using hb.2.2⟩, ?_⟩
        intro cv hcv2
        have hw := hvf cv hcv2
        obtain ⟨w1, w2, w3⟩ := hw
        refine ⟨w1, ⟨by simp, ?_⟩, ?_⟩
        · simp only [inSpan] at w2
          simpa using w2.2
        · exact w3
    | date sp2 y m dd => simp at h
    | acct sp2 nm => simp at h
    | cur sp2 nm => simp at h
    | tag sp2 nm => simp at h
    | link sp2 nm => simp at h
    | num sp2 v => simp at h
    | kw sp2 k => simp at h
    | word sp2 w => simp at h
    | sym sp2 c => simp at h

theorem parseBare_facts {n : Nat} {kwSpan : Span} {k : Kw} {ts : List Tok} {dir : Directive}
    {lo : Nat} (hord : OrdToks lo n ts)
    (h : parseBare n kwSpan k ts = .ok dir) :
    dir.spanOf = ⟨0, n⟩ ∧ Directive.wfIn ⟨0, n⟩ dir := by
  have hstr2 : ∀ sp1 (v1 : List Char) sp2 (v2 : List Char),
      ts = [.str sp1 v1, .str sp2 v2] →
      (spanWf sp1 ∧ sp1.stop ≤ n) ∧ (spanWf sp2 ∧ sp2.stop ≤ n) := by
    intro sp1 v1 sp2 v2 hts
    subst hts
    have h1 := hord.bounds (.str sp1 v1) (by simp)
    have h2 := hord.bounds (.str sp2 v2) (by simp)
    simp only [tokSp] at h1 h2
    exact ⟨⟨h1.2.1, h1.2.2⟩, ⟨h2.2.1, h2.2.2⟩⟩
  unfold parseBare at h
  cases k with
  | opt =>
    cases hts : ts with
    | nil => rw [hts] at h; simp at h
    | cons t r =>
      rw [hts] at h
      match t, r, h with
      | .str sp1 v1, [.str sp2 v2], h =>
        simp only [Except.ok.injEq] at h
        subst h
        obtain ⟨hw1, hw2⟩ := hstr2 sp1 v1 sp2 v2 hts
        exact ⟨rfl, by simp [spanWf], by simp [inSpan], hw1.1,
          ⟨by simp, by simpa using hw1.2⟩, hw2.1, by simp, by simpa using hw2.2⟩
  | inc =>
    cases hts : ts with
    | nil => rw [hts] at h; simp at h
    | cons t r =>
      rw [hts] at h
      match t, r, h with
      | .str sp1 v1, [], h =>
        simp only [Except.ok.injEq] at h
        subst h
        have h1 := hord.bounds (.str sp1 v1) (by rw [hts]; simp)
        simp only [tokSp] at h1
        exact ⟨rfl, by simp [spanWf], by simp [inSpan], h1.2.1, by simp,
          by simpa using h1.2.2⟩
  | plg =>
    cases hts : ts with
    | nil => rw [hts] at h; simp at h
    | cons t r =>
      rw [hts] at h
      match t, r, h with
      | .str sp1 v1, [], h =>
        simp only [Except.ok.injEq] at h
        subst h
        have h1 := hord.bounds (.str sp1 v1) (by rw [hts]; simp)
        simp only [tokSp] at h1
        refine ⟨rfl, by simp [spanWf], by simp [inSpan], h1.2.1,
          ⟨by simp, by simpa using h1.2.2⟩, ?_⟩
        intro s hs
        simp at hs
      | .str sp1 v1, [.str sp2 v2], h =>
        simp only [Except.ok.injEq] at h
        subst h
        obtain ⟨hw1, hw2⟩ := hstr2 sp1 v1 sp2 v2 hts
        refine ⟨rfl, by simp [spanWf], by simp [inSpan], hw1.1,
          ⟨by simp, by simpa using hw1.2⟩, ?_⟩
        intro s hs
        simp only [Option.some.injEq] at hs
        subst hs
        exact ⟨hw2.1, by simp, by simpa using hw2.2⟩
  | pushtag =>
    cases hts : ts with
    | nil => rw [hts] at h; simp at h
    | cons t r =>
      rw [hts] at h
      match t, r, h with
      | .tag sp1 v1, [], h =>
        simp only [Except.ok.injEq] at h
        subst h
        have h1 := hord.bounds (.tag sp1 v1) (by rw [hts]; simp)
        simp only [tokSp] at h1
        exact ⟨rfl, by simp [spanWf], by simp [inSpan], h1.2.1, by simp,
          by simpa using h1.2.2⟩
  | poptag =>
    cases hts : ts with
    | nil => rw [hts] at h; simp at h
    | cons t r =>
      rw [hts] at h
      match t, r, h with
      | .tag sp1 v1, [], h =>
        simp only [Except.ok.injEq] at h
        subst h
        have h1 := hord.bounds (.tag sp1 v1) (by rw [hts]; simp)
        simp only [tokSp] at h1
        exact ⟨rfl, by simp [spanWf], by simp [inSpan], h1.2.1, by simp,
          by simpa using h1.2.2⟩
  | opn => simp at h
  | cls => simp at h
  | bal => simp at h
  | prc => simp at h
  | evt => simp at h
  | nte => simp at h
  | cst => simp at h
  | txn => simp at h

theorem parsePostingLine_facts {L : List Char} {p : Posting}
    (h : parsePostingLine L = .ok p) :
    p.span = ⟨0, L.length⟩ ∧ postingWfIn ⟨0, L.length⟩ p := by
  unfold parsePostingLine at h
  cases hlx : lexLine L with
  | error e => rw [hlx] at h; simp at h
  | ok ts =>
    rw [hlx] at h
    have hord : OrdToks 0 L.length ts := by
      have := lexAux_ord (L.length + 1) 0 L ts hlx
      simpa using this
    cases ts with
    | nil => simp at h
    | cons t r =>
      cases t with
      | acct sp name =>
        simp only at h
        have hb := hord.bounds (.acct sp name) (by simp)
        simp only [tokSp] at hb
        have ht := hord.rest
        simp only [tokSp] at ht
        cases r with
        | nil =>
          simp only [Except.ok.injEq] at h
          subst h
          refine ⟨rfl, by simp [spanWf], by simp [inSpan], hb.2.1,
            ⟨by simp, by simpa using hb.2.2⟩, by simp, by simp⟩
        | cons t2 r2 =>
          simp only at h
          cases hpa : parseAmount (t2 :: r2) with
          | error e => rw [hpa] at h; simp at h
          | ok pa =>
            obtain ⟨a, r3⟩ := pa
            rw [hpa] at h
            dsimp only at h
            cases hpc : parseCostOpt r3 with
            | error e => rw [hpc] at h; simp at h
            | ok pc =>
              obtain ⟨c, r4⟩ := pc
              rw [hpc] at h
              dsimp only at h
              cases hee : expectEnd r4 with
              | error e => rw [hee] at h; simp at h
              | ok u =>
                rw [hee] at h
                simp only [Except.ok.injEq] at h
                subst h
                obtain ⟨haw, har⟩ := parseAmount_ord ht hpa
                refine ⟨rfl, by simp [spanWf], by simp [inSpan], hb.2.1,
                  ⟨by simp, by simpa using hb.2.2⟩, ?_, ?_⟩
                · simp only
                  obtain ⟨w1, w2, w3, w4, w5, w6⟩ := haw
                  exact ⟨w1, ⟨by simp, by simpa using w2.2⟩, w3, w4, w5, w6⟩
                · simp only
                  cases c with
                  | none => simp
                  | some cs =>
                    obtain ⟨hcw, hcr⟩ := parseCostOpt_some har hpc
                    simp only
                    obtain ⟨w1, w2, w3, w4, w5, w6⟩ := hcw
                    exact ⟨w1, ⟨by simp, by simpa using w2.2⟩, w3, w4, w5, w6⟩
      | date sp y m dd => simp at h
      | cur sp nm => simp at h
      | str sp v => simp at h
      | tag sp nm => simp at h
      | link sp nm => simp at h
      | num sp v => simp at h
      | kw sp k => simp at h
      | word sp w => simp at h
      | sym sp c => simp at h

theorem spanWf_shift {o : Nat} {s : Span} (h : spanWf s) : spanWf (shiftSpan o s) := by
  simp only [spanWf, shiftSpan] at *
  omega

theorem inSpan_shift {o : Nat} {c p : Span} (h : inSpan c p) :
    inSpan (shiftSpan o c) (shiftSpan o p) := by
  simp only [inSpan, shiftSpan] at *
  omega

theorem amountWfIn_shift {o : Nat} {p : Span} {a : Amount} (h : amountWfIn p a) :
    amountWfIn (shiftSpan o p) (shiftAmount o a) := by
  obtain ⟨w1, w2, w3, w4, w5, w6⟩ := h
  exact ⟨spanWf_shift w1, inSpan_shift w2, spanWf_shift w3, inSpan_shift w4,
    spanWf_shift w5, inSpan_shift w6⟩

theorem costWfIn_shift {o : Nat} {p : Span} {c : CostSpec} (h : costWfIn p c) :
    costWfIn (shiftSpan o p) (shiftCostSpec o c) := by
  obtain ⟨w1, w2, w3, w4, w5, w6⟩ := h
  exact ⟨spanWf_shift w1, inSpan_shift w2, spanWf_shift w3, inSpan_shift w4,
    spanWf_shift w5, inSpan_shift w6⟩

theorem cvalWfIn_shift {o : Nat} {p : Span} {v : CustomValue} (h : cvalWfIn p v) :
    cvalWfIn (shiftSpan o p) (shiftCustomValue o v) := by
  obtain ⟨w1, w2, w3⟩ := h
  refine ⟨spanWf_shift w1, inSpan_shift w2, ?_⟩
  cases hv : v.value with
  | str s =>
    rw [hv] at w3
    simp only [shiftCustomValue, hv]
    exact ⟨spanWf_shift w3.1, inSpan_shift w3.2⟩
  | num e =>
    rw [hv] at w3
    simp only [shiftCustomValue, hv]
    exact ⟨spanWf_shift w3.1, inSpan_shift w3.2⟩

theorem postingWfIn_shift {o : Nat} {p : Span} {q : Posting} (h : postingWfIn p q) :
    postingWfIn (shiftSpan o p) (shiftPosting o q) := by
  obtain ⟨w1, w2, w3, w4, w5, w6⟩ := h
  refine ⟨spanWf_shift w1, inSpan_shift w2, spanWf_shift w3, inSpan_shift w4, ?_, ?_⟩
  · cases ha : q.amount with
    | none => simp [shiftPosting, ha]
    | some a =>
      rw [ha] at w5
      simp only [shiftPosting, ha, Option.map_some]
      exact amountWfIn_shift w5
  · cases hc : q.cost_spec with
    | none => simp [shiftPosting, hc]
    | some c =>
      rw [hc] at w6
      simp only [shiftPosting, hc, Option.map_some]
      exact costWfIn_shift w6

theorem spanOf_shift (o : Nat) (dir : Directive) :
    (shiftDirective o dir).spanOf = shiftSpan o dir.spanOf := by
  cases dir <;> rfl

theorem wfIn_shift {o : Nat} {a b : Nat} {dir : Directive}
    (h : Directive.wfIn ⟨a, b⟩ dir) :
    Directive.wfIn ⟨o + a, o + b⟩ (shiftDirective o dir) := by
  have htop : (⟨o + a, o + b⟩ : Span) = shiftSpan o ⟨a, b⟩ := rfl
  rw [htop]
  cases dir with
  | opn d =>
    obtain ⟨w1, w2, w3, w4, w5, w6, w7⟩ := h
    refine ⟨spanWf_shift w1, inSpan_shift w2, spanWf_shift w3, inSpan_shift w4,
      spanWf_shift w5, inSpan_shift w6, ?_⟩
    intro c hc
    simp only [shiftDirective] at hc
    obtain ⟨c0, hc0, hceq⟩ := List.mem_map.mp hc
    subst hceq
    have := w7 c0 hc0
    exact ⟨spanWf_shift this.1, inSpan_shift this.2⟩
  | cls d =>
    obtain ⟨w1, w2, w3, w4, w5, w6⟩ := h
    exact ⟨spanWf_shift w1, inSpan_shift w2, spanWf_shift w3, inSpan_shift w4,
      spanWf_shift w5, inSpan_shift w6⟩
  | bal d =>
    obtain ⟨w1, w2, w3, w4, w5, w6, w7⟩ := h
    exact ⟨spanWf_shift w1, inSpan_shift w2, spanWf_shift w3, inSpan_shift w4,
      spanWf_shift w5, inSpan_shift w6, amountWfIn_shift w7⟩
  | txn d =>
    obtain ⟨w1, w2, w3, w4, w5, w6, w7, w8, w9⟩ := h
    refine ⟨spanWf_shift w1, inSpan_shift w2, spanWf_shift w3, inSpan_shift w4,
      ?_, ?_, ?_, ?_, ?_⟩
    · intro s hs
      simp only [shiftDirective] at hs
      cases hp : d.payee with
      | none => rw [hp] at hs; simp at hs
      | some s0 =>
        rw [hp] at hs
        simp at hs
        subst hs
        have := w5 s0 hp
        exact ⟨spanWf_shift this.1, inSpan_shift this.2⟩
    · intro s hs
      simp only [shiftDirective] at hs
      cases hp : d.narration with
      | none => rw [hp] at hs; simp at hs
      | some s0 =>
        rw [hp] at hs
        simp at hs
        subst hs
        have := w6 s0 hp
        exact ⟨spanWf_shift this.1, inSpan_shift this.2⟩
    · intro t ht
      simp only [shiftDirective] at ht
      obtain ⟨t0, ht0, hteq⟩ := List.mem_map.mp ht
      subst hteq
      have := w7 t0 ht0
      exact ⟨spanWf_shift this.1, inSpan_shift this.2⟩
    · intro t ht
      simp only [shiftDirective] at ht
      obtain ⟨t0, ht0, hteq⟩ := List.mem_map.mp ht
      subst hteq
      have := w8 t0 ht0
      exact ⟨spanWf_shift this.1, inSpan_shift this.2⟩
    · intro q hq
      simp only [shiftDirective] at hq
      obtain ⟨q0, hq0, hqeq⟩ := List.mem_map.mp hq
      subst hqeq
      exact postingWfIn_shift (w9 q0 hq0)
  | prc d =>
    obtain ⟨w1, w2, w3, w4, w5, w6, w7⟩ := h
    exact ⟨spanWf_shift w1, inSpan_shift w2, spanWf_shift w3, inSpan_shift w4,
      spanWf_shift w5, inSpan_shift w6, amountWfIn_shift w7⟩
  | evt d =>
    obtain ⟨w1, w2, w3, w4, w5, w6, w7, w8⟩ := h
    exact ⟨spanWf_shift w1, inSpan_shift w2, spanWf_shift w3, inSpan_shift w4,
      spanWf_shift w5, inSpan_shift w6, spanWf_shift w7, inSpan_shift w8⟩
  | nte d =>
    obtain ⟨w1, w2, w3, w4, w5, w6, w7, w8⟩ := h
    exact ⟨spanWf_shift w1, inSpan_shift w2, spanWf_shift w3, inSpan_shift w4,
      spanWf_shift w5, inSpan_shift w6, spanWf_shift w7, inSpan_shift w8⟩
  | cst d =>
    obtain ⟨w1, w2, w3, w4, w5, w6, w7⟩ := h
    refine ⟨spanWf_shift w1, inSpan_shift w2, spanWf_shift w3, inSpan_shift w4,
      spanWf_shift w5, inSpan_shift w6, ?_⟩
    intro v hv
    simp only [shiftDirective] at hv
    obtain ⟨v0, hv0, hveq⟩ := List.mem_map.mp hv
    subst hveq
    exact cvalWfIn_shift (w7 v0 hv0)
  | opt d =>
    obtain ⟨w1, w2, w3, w4, w5, w6⟩ := h
    exact ⟨spanWf_shift w1, inSpan_shift w2, spanWf_shift w3, inSpan_shift w4,
      spanWf_shift w5, inSpan_shift w6⟩
  | inc d =>
    obtain ⟨w1, w2, w3, w4⟩ := h
    exact ⟨spanWf_shift w1, inSpan_shift w2, spanWf_shift w3, inSpan_shift w4⟩
  | plg d =>
    obtain ⟨w1, w2, w3, w4, w5⟩ := h
    refine ⟨spanWf_shift w1, inSpan_shift w2, spanWf_shift w3, inSpan_shift w4, ?_⟩
    intro s hs
    simp only [shiftDirective] at hs
    cases hp : d.config with
    | none => rw [hp] at hs; simp at hs
    | some s0 =>
      rw [hp] at hs
      simp at hs
      subst hs
      have := w5 s0 hp
      exact ⟨spanWf_shift this.1, inSpan_shift this.2⟩
  | tag d =>
    obtain ⟨w1, w2, w3, w4⟩ := h
    exact ⟨spanWf_shift w1, inSpan_shift w2, spanWf_shift w3, inSpan_shift w4⟩
  | cmt d =>
    obtain ⟨w1, w2⟩ := h
    exact ⟨spanWf_shift w1, inSpan_shift w2⟩
  | hdl d =>
    obtain ⟨w1, w2⟩ := h
    exact ⟨spanWf_shift w1, inSpan_shift w2⟩

theorem wfIn_mono {t t2 : Span} {dir : Directive}
    (h : Directive.wfIn t dir) (hm : inSpan t t2) : Directive.wfIn t2 dir := by
  cases dir with
  | opn d => exact ⟨h.1, inSpan_mono h.2.1 hm, h.2.2⟩
  | cls d => exact ⟨h.1, inSpan_mono h.2.1 hm, h.2.2⟩
  | bal d => exact ⟨h.1, inSpan_mono h.2.1 hm, h.2.2⟩
  | txn d => exact ⟨h.1, inSpan_mono h.2.1 hm, h.2.2⟩
  | prc d => exact ⟨h.1, inSpan_mono h.2.1 hm, h.2.2⟩
  | evt d => exact ⟨h.1, inSpan_mono h.2.1 hm, h.2.2⟩
  | nte d => exact ⟨h.1, inSpan_mono h.2.1 hm, h.2.2⟩
  | cst d => exact ⟨h.1, inSpan_mono h.2.1 hm, h.2.2⟩
  | opt d => exact ⟨h.1, inSpan_mono h.2.1 hm, h.2.2⟩
  | inc d => exact ⟨h.1, inSpan_mono h.2.1 hm, h.2.2⟩
  | plg d => exact ⟨h.1, inSpan_mono h.2.1 hm, h.2.2⟩
  | tag d => exact ⟨h.1, inSpan_mono h.2.1 hm, h.2.2⟩
  | cmt d => exact ⟨h.1, inSpan_mono h.2 hm⟩
  | hdl d => exact ⟨h.1, inSpan_mono h.2 hm⟩

theorem stripStr_shift (o : Nat) (s : SpannedStr) : stripStr (shiftStr o s) = stripStr s := rfl

theorem stripDate_shift (o : Nat) (d : SpannedDate) :
    stripDate (shiftDate o d) = stripDate d := rfl

theorem stripAccount_shift (o : Nat) (a : SpannedAccount) :
    stripAccount (shiftAccount o a) = stripAccount a := rfl

theorem stripCurrency_shift (o : Nat) (c : SpannedCurrency) :
    stripCurrency (shiftCurrency o c) = stripCurrency c := rfl

theorem stripLabel_shift (o : Nat) (l : SpannedLabel) :
    stripLabel (shiftLabel o l) = stripLabel l := rfl

theorem stripNumberExpr_shift (o : Nat) (e : NumberExpr) :
    stripNumberExpr (shiftNumberExpr o e) = stripNumberExpr e := rfl

theorem stripAmount_shift (o : Nat) (a : Amount) :
    stripAmount (shiftAmount o a) = stripAmount a := rfl

theorem stripCostSpec_shift (o : Nat) (c : CostSpec) :
    stripCostSpec (shiftCostSpec o c) = stripCostSpec c := rfl

theorem stripCustomValue_shift (o : Nat) (v : CustomValue) :
    stripCustomValue (shiftCustomValue o v) = stripCustomValue v := by
  obtain ⟨r, val⟩ := v
  cases val <;> rfl

theorem stripPosting_shift (o : Nat) (p : Posting) :
    stripPosting (shiftPosting o p) = stripPosting p := by
  obtain ⟨sp, acct, am, cs⟩ := p
  cases am <;> cases cs <;> rfl

theorem stripDirective_shift (o : Nat) (dir : Directive) :
    stripDirective (shiftDirective o dir) = stripDirective dir := by
  cases dir with
  | opn d =>
    simp [stripDirective, shiftDirective, List.map_map, Function.comp_def, stripCurrency_shift]
    exact ⟨rfl, rfl, rfl⟩
  | cls d => rfl
  | bal d => rfl
  | txn d =>
    simp [stripDirective, shiftDirective, List.map_map, Option.map_map, Function.comp_def,
      stripStr_shift, stripLabel_shift, stripPosting_shift]
    exact ⟨rfl, rfl⟩
  | prc d => rfl
  | evt d => rfl
  | nte d => rfl
  | cst d =>
    simp [stripDirective, shiftDirective, List.map_map, Function.comp_def,
      stripCustomValue_shift]
    exact ⟨rfl, rfl, rfl⟩
  | opt d => rfl
  | inc d => rfl
  | plg d =>
    simp [stripDirective, shiftDirective, Option.map_map, Function.comp_def, stripStr_shift]
    exact rfl
  | tag d => rfl
  | cmt d => rfl
  | hdl d => rfl

theorem forall2_mem_right {α β : Type} {R : α → β → Prop} :
    ∀ {l1 : List α} {l2 : List β}, List.Forall₂ R l1 l2 → ∀ b ∈ l2, ∃ a ∈ l1, R a b := by
  intro l1 l2 h
  induction h with
  | nil => intro b hb; simp at hb
  | cons hr _ ih =>
    intro b hb
    rcases List.mem_cons.mp hb with hb | hb
    · subst hb; exact ⟨_, by simp, hr⟩
    · obtain ⟨a, ha, har⟩ := ih b hb
      exact ⟨a, by simp [ha], har⟩

theorem forall2_ne_nil {α β : Type} {R : α → β → Prop} {l1 : List α} {l2 : List β}
    (h : List.Forall₂ R l1 l2) (h2 : l2 ≠ []) : l1 ≠ [] := by
  cases h with
  | nil => exact absurd rfl h2
  | cons _ _ => simp

theorem forall2_getLast {α β : Type} {R : α → β → Prop} :
    ∀ {l1 : List α} {l2 : List β} (h : List.Forall₂ R l1 l2) (h1 : l1 ≠ []) (h2 : l2 ≠ []),
      R (l1.getLast h1) (l2.getLast h2) := by
  intro l1 l2 h
  induction h with
  | nil => intro h1 _; exact absurd rfl h1
  | @cons a b t1 t2 hr hrest ih =>
    intro h1 h2
    cases hrest with
    | nil => simpa using hr
    | @cons a2 b2 t1b t2b hr2 hrest2 =>
      have e1 : (a :: a2 :: t1b).getLast h1 = (a2 :: t1b).getLast (by simp) :=
        List.getLast_cons (by simp)
      have e2 : (b :: b2 :: t2b).getLast h2 = (b2 :: t2b).getLast (by simp) :=
        List.getLast_cons (by simp)
      rw [e1, e2]
      exact ih (by simp) (by simp)

theorem forall2_pairwise {α β : Type} {R : α → β → Prop} {P : α → α → Prop} {Q : β → β → Prop}
    (hc : ∀ a b a2 b2, R a a2 → R b b2 → P a b → Q a2 b2) :
    ∀ {l1 : List α} {l2 : List β}, List.Forall₂ R l1 l2 → l1.Pairwise P → l2.Pairwise Q := by
  intro l1 l2 h
  induction h with
  | nil => intro _; exact List.Pairwise.nil
  | @cons a b t1 t2 hr hrest ih =>
    intro hp
    rcases List.pairwise_cons.mp hp with ⟨hpa, hpt⟩
    refine List.pairwise_cons.mpr ⟨?_, ih hpt⟩
    intro b2 hb2
    obtain ⟨a2, ha2, har⟩ := forall2_mem_right hrest b2 hb2
    exact hc a a2 b b2 hr har (hpa a2 ha2)

theorem Chained.mem_ok {S : List Char} {lns : List NLine} (h : Chained S lns) :
    ∀ x ∈ lns, lineSliceOk S x := by
  induction h with
  | nil => intro x hx; simp at hx
  | single y hy => intro x hx; simp at hx; subst hx; exact hy
  | cons y z rest hy _ _ _ ih =>
    intro x hx
    rcases List.mem_cons.mp hx with hx | hx
    · subst hx; exact hy
    · exact ih x hx

theorem Chained.lastStop_mono {S : List Char} :
    ∀ {lns : List NLine} (h : Chained S lns) (hne : lns ≠ []),
      ∀ x ∈ lns, lastStop x ≤ lastStop (lns.getLast hne) := by
  intro lns
  induction lns with
  | nil => intro _ hne; exact absurd rfl hne
  | cons y ys ih =>
    intro h hne x hx
    cases ys with
    | nil =>
      simp at hx
      subst hx
      simp
    | cons z zs =>
      have htl : Chained S (z :: zs) := Chained.tail h
      have hz : z.1 = y.1 + y.2.length + 1 := by
        cases h with
        | cons _ _ _ _ hz _ _ => exact hz
      rw [List.getLast_cons (by simp)]
      rcases List.mem_cons.mp hx with hx | hx
      · subst hx
        have h1 : z.1 ≤ lastStop ((z :: zs).getLast (by simp)) :=
          Chained.head_le_lastStop htl
        simp only [lastStop] at h1 ⊢
        omega
      · exact ih htl (by simp) x hx

theorem requireNoCont_ok {cont : List NLine} {u : Unit}
    (h : requireNoCont cont = .ok u) : cont = [] := by
  cases cont with
  | nil => rfl
  | cons x xs =>
    obtain ⟨o, L⟩ := x
    simp [requireNoCont] at h

theorem postingWfIn_mono {par par2 : Span} {q : Posting}
    (h : postingWfIn par q) (hm : inSpan par par2) : postingWfIn par2 q :=
  ⟨h.1, inSpan_mono h.2.1 hm, h.2.2⟩

theorem mapPostings_facts {S : List Char} :
    ∀ {cont : List NLine} {ps : List Posting},
      Chained S cont → mapPostings cont = .ok ps →
      List.Forall₂ (fun (x : NLine) (p : Posting) =>
        p.span = ⟨x.1, lastStop x⟩ ∧ postingWfIn p.span p ∧ lastStop x ≤ S.length)
        cont ps := by
  intro cont
  induction cont with
  | nil =>
    intro ps _ h
    simp only [mapPostings, Except.ok.injEq] at h
    subst h
    exact List.Forall₂.nil
  | cons x xs ih =>
    intro ps hch h
    simp only [mapPostings] at h
    obtain ⟨p, hpa, h2⟩ := exceptBind_ok h
    obtain ⟨ps0, hrec, h3⟩ := exceptMap_ok h2
    subst h3
    simp only [parsePostingAt] at hpa
    cases hpl : parsePostingLine x.2 with
    | error e => rw [hpl] at hpa; simp at hpa
    | ok p0 =>
      rw [hpl] at hpa
      simp only [Except.ok.injEq] at hpa
      subst hpa
      obtain ⟨hsp0, hwf0⟩ := parsePostingLine_facts hpl
      have hok := Chained.head_ok hch
      refine List.Forall₂.cons ⟨?_, ?_, ?_⟩ (ih (Chained.tail hch) hrec)
      · show (shiftPosting x.1 p0).span = _
        simp [shiftPosting, hsp0, shiftSpan, lastStop]
      · have := postingWfIn_shift (o := x.1) hwf0
        have hspan : (shiftPosting x.1 p0).span = shiftSpan x.1 ⟨0, x.2.length⟩ := by
          simp only [shiftPosting, hsp0]
        rw [hspan]
        exact this
      · exact hok.2.1

theorem getLast?_cons_eq {α : Type} :
    ∀ (a : α) (l : List α), (a :: l).getLast? = some ((a :: l).getLast (by simp)) := by
  intro a l
  induction l generalizing a with
  | nil => rfl
  | cons b t ih =>
    rw [List.getLast?_cons_cons, List.getLast_cons (by simp)]
    exact ih b

theorem parseTxnAt_facts {S : List Char} {o : Nat} {L : List Char} {cont : List NLine}
    {d : SpannedDate} {flag : Flag} {r : List Tok} {dir : Directive} {lo : Nat}
    (hch : Chained S ((o, L) :: cont))
    (hord : OrdToks lo L.length r) (hd : dateOkIn L.length d)
    (h : parseTxnAt o L.length cont d flag r = .ok dir) :
    ∃ t : Transaction, dir = .txn t ∧
      dir.spanOf = ⟨o, lastStop (((o, L) :: cont).getLast (by simp))⟩ ∧
      Directive.wfIn ⟨0, S.length⟩ dir ∧
      t.postings.Pairwise (fun a b => a.span.start < b.span.start) ∧
      (t.extra.tags.map (fun x => x.name)).Nodup ∧
      (t.extra.links.map (fun x => x.name)).Nodup ∧
      t.extra.tags.Pairwise (fun a b => a.span.stop ≤ b.span.start) ∧
      t.extra.links.Pairwise (fun a b => a.span.stop ≤ b.span.start) := by
  obtain ⟨hts1, hts2⟩ := takeStrs_facts hord
  have hok : lineSliceOk S (o, L) := Chained.head_ok hch
  have hokb : o + L.length ≤ S.length := hok.2.1
  have main : ∀ (payee narration : Option SpannedStr) (extra : TransactionExtra)
      (ps : List Posting),
      (∀ s, payee = some s → spanWf s.span ∧ s.span.stop ≤ L.length) →
      (∀ s, narration = some s → spanWf s.span ∧ s.span.stop ≤ L.length) →
      parseTagsLinks (takeStrs r).2 [] [] = .ok extra →
      mapPostings cont = .ok ps →
      dir = .txn ⟨⟨o, match ps.getLast? with
          | some p => p.span.stop
          | none => o + L.length⟩, shiftDate o d, flag,
        payee.map (shiftStr o), narration.map (shiftStr o),
        ⟨extra.tags.map (shiftLabel o), extra.links.map (shiftLabel o)⟩, ps⟩ →
      ∃ t : Transaction, dir = .txn t ∧
        dir.spanOf = ⟨o, lastStop (((o, L) :: cont).getLast (by simp))⟩ ∧
        Directive.wfIn ⟨0, S.length⟩ dir ∧
        t.postings.Pairwise (fun a b => a.span.start < b.span.start) ∧
        (t.extra.tags.map (fun x => x.name)).Nodup ∧
        (t.extra.links.map (fun x => x.name)).Nodup ∧
        t.extra.tags.Pairwise (fun a b => a.span.stop ≤ b.span.start) ∧
        t.extra.links.Pairwise (fun a b => a.span.stop ≤ b.span.start) := by
    intro payee narration extra ps hp hn htl hmp hdir
    obtain ⟨hwtg, hwlk, hntg, hnlk, hptg, hplk⟩ :=
      parseTagsLinks_facts hts2 (by simp) (by simp) (by simp) (by simp)
        (by simp) (by simp) (by simp) (by simp) htl
    have hf2 := mapPostings_facts (Chained.tail hch) hmp
    subst hdir
    obtain ⟨st, hstE, hkey1, hkey2, hgl, hkey3⟩ :
        ∃ st, (match ps.getLast? with
            | some p => p.span.stop
            | none => o + L.length) = st ∧
          o + L.length ≤ st ∧ st ≤ S.length ∧
          st = lastStop (((o, L) :: cont).getLast (by simp)) ∧
          ∀ x ∈ cont, lastStop x ≤ st := by
      cases ps with
      | nil =>
        cases hf2
        refine ⟨o + L.length, rfl, le_refl _, hokb, ?_, by simp⟩
        rfl
      | cons q qs =>
        have hcne : cont ≠ [] := forall2_ne_nil hf2 (by simp)
        have hq : (q :: qs).getLast? = some ((q :: qs).getLast (by simp)) :=
          getLast?_cons_eq q qs
        have hlast := forall2_getLast hf2 hcne (by simp)
        refine ⟨lastStop (cont.getLast hcne), ?_, ?_, ?_, ?_, ?_⟩
        · rw [hq]
          exact congrArg Span.stop hlast.1
        · cases cont with
          | nil => exact absurd rfl hcne
          | cons c cs =>
            have h2 := Chained.head_le_lastStop (Chained.tail hch)
            have hc1 : c.1 = o + L.length + 1 := by
              cases hch with
              | cons _ _ _ _ hy _ _ => simpa using hy
            exact le_trans (by omega) h2
        · exact hlast.2.2
        · rw [List.getLast_cons hcne]
        · exact fun x hx => Chained.lastStop_mono (Chained.tail hch) hcne x hx
    rw [hstE]
    refine ⟨_, rfl, ?_, ?_, ?_, ?_, ?_, ?_, ?_⟩
    · exact congrArg (Span.mk o) hgl
    · refine ⟨?_, ?_, ?_, ?_, ?_, ?_, ?_, ?_, ?_⟩
      · exact Nat.le_trans (Nat.le_add_right o L.length) hkey1
      · exact ⟨Nat.zero_le o, hkey2⟩
      · exact spanWf_shift hd.1
      · refine ⟨?_, ?_⟩
        · show o ≤ o + d.span.start
          omega
        · show o + d.span.stop ≤ st
          have := hd.2
          omega
      · intro s hs
        cases payee with
        | none => simp at hs
        | some a =>
          have ha := hp a rfl
          simp only [Option.map_some'] at hs
          cases hs
          refine ⟨spanWf_shift ha.1, ?_, ?_⟩
          · show o ≤ o + a.span.start
            omega
          · show o + a.span.stop ≤ st
            have := ha.2
            omega
      · intro s hs
        cases narration with
        | none => simp at hs
        | some a =>
          have ha := hn a rfl
          simp only [Option.map_some'] at hs
          cases hs
          refine ⟨spanWf_shift ha.1, ?_, ?_⟩
          · show o ≤ o + a.span.start
            omega
          · show o + a.span.stop ≤ st
            have := ha.2
            omega
      · intro tl htl2
        obtain ⟨t0, ht0, rfl⟩ := List.mem_map.mp htl2
        have hw := hwtg t0 ht0
        refine ⟨spanWf_shift hw.1, ?_, ?_⟩
        · show o ≤ o + t0.span.start
          omega
        · show o + t0.span.stop ≤ st
          have := hw.2
          omega
      · intro tl htl2
        obtain ⟨t0, ht0, rfl⟩ := List.mem_map.mp htl2
        have hw := hwlk t0 ht0
        refine ⟨spanWf_shift hw.1, ?_, ?_⟩
        · show o ≤ o + t0.span.start
          omega
        · show o + t0.span.stop ≤ st
          have := hw.2
          omega
      · intro p hp2
        obtain ⟨x, hx, hr⟩ := forall2_mem_right hf2 p hp2
        refine postingWfIn_mono hr.2.1 ?_
        rw [hr.1]
        refine ⟨?_, ?_⟩
        · show o ≤ x.1
          have h5 : (o, L).1 < x.1 :=
            (List.pairwise_cons.mp (Chained.pairwise_lt hch)).1 x hx
          simp only at h5
          omega
        · show lastStop x ≤ st
          exact hkey3 x hx
    · refine forall2_pairwise ?_ hf2 (Chained.pairwise_lt (Chained.tail hch))
      intro a b a2 b2 h1 h2 hlt
      rw [h1.1, h2.1]
      exact hlt
    · rw [List.map_map]
      exact hntg
    · rw [List.map_map]
      exact hnlk
    · refine List.pairwise_map.mpr (List.Pairwise.imp ?_ hptg)
      intro a b hab
      show o + a.span.stop ≤ o + b.span.start
      omega
    · refine List.pairwise_map.mpr (List.Pairwise.imp ?_ hplk)
      intro a b hab
      show o + a.span.stop ≤ o + b.span.start
      omega
  simp only [parseTxnAt] at h
  cases hstr : (takeStrs r).1 with
  | nil =>
    rw [hstr] at h
    dsimp only at h
    cases htl : parseTagsLinks (takeStrs r).2 [] [] with
    | error e => rw [htl] at h; simp at h
    | ok extra =>
      rw [htl] at h
      dsimp only at h
      cases hmp : mapPostings cont with
      | error e => rw [hmp] at h; simp at h
      | ok ps =>
        rw [hmp] at h
        dsimp only at h
        simp only [Except.ok.injEq] at h
        exact main none none extra ps (fun s hs => by simp at hs)
          (fun s hs => by simp at hs) htl hmp h.symm
  | cons a t1 =>
    cases t1 with
    | nil =>
      rw [hstr] at h
      dsimp only at h
      cases htl : parseTagsLinks (takeStrs r).2 [] [] with
      | error e => rw [htl] at h; simp at h
      | ok extra =>
        rw [htl] at h
        dsimp only at h
        cases hmp : mapPostings cont with
        | error e => rw [hmp] at h; simp at h
        | ok ps =>
          rw [hmp] at h
          dsimp only at h
          simp only [Except.ok.injEq] at h
          exact main none (some a) extra ps (fun s hs => by simp at hs)
            (fun s hs => by cases hs; exact hts1 a (by rw [hstr]; simp)) htl hmp h.symm
    | cons b t2 =>
      cases t2 with
      | nil =>
        rw [hstr] at h
        dsimp only at h
        cases htl : parseTagsLinks (takeStrs r).2 [] [] with
        | error e => rw [htl] at h; simp at h
        | ok extra =>
          rw [htl] at h
          dsimp only at h
          cases hmp : mapPostings cont with
          | error e => rw [hmp] at h; simp at h
          | ok ps =>
            rw [hmp] at h
            dsimp only at h
            simp only [Except.ok.injEq] at h
            exact main (some a) (some b) extra ps
              (fun s hs => by cases hs; exact hts1 a (by rw [hstr]; simp))
              (fun s hs => by cases hs; exact hts1 b (by rw [hstr]; simp)) htl hmp h.symm
      | cons c t3 =>
        rw [hstr] at h
        simp at h

theorem parseOpen_txnOf {n : Nat} {d : SpannedDate} {ts : List Tok} {dir : Directive}
    (h : parseOpen n d ts = .ok dir) : txnOf dir = none := by
  unfold parseOpen at h
  try dsimp only at h
  repeat' split at h
  all_goals first
  | exact Except.noConfusion h
  | (injection h with h2; subst h2; rfl)

theorem parseClose_txnOf {n : Nat} {d : SpannedDate} {ts : List Tok} {dir : Directive}
    (h : parseClose n d ts = .ok dir) : txnOf dir = none := by
  unfold parseClose at h
  try dsimp only at h
  repeat' split at h
  all_goals first
  | exact Except.noConfusion h
  | (injection h with h2; subst h2; rfl)

theorem parseBalance_txnOf {n : Nat} {d : SpannedDate} {ts : List Tok} {dir : Directive}
    (h : parseBalance n d ts = .ok dir) : txnOf dir = none := by
  unfold parseBalance at h
  try dsimp only at h
  repeat' split at h
  all_goals first
  | exact Except.noConfusion h
  | (injection h with h2; subst h2; rfl)

theorem parsePrice_txnOf {n : Nat} {d : SpannedDate} {ts : List Tok} {dir : Directive}
    (h : parsePrice n d ts = .ok dir) : txnOf dir = none := by
  unfold parsePrice at h
  try dsimp only at h
  repeat' split at h
  all_goals first
  | exact Except.noConfusion h
  | (injection h with h2; subst h2; rfl)

theorem parseEvent_txnOf {n : Nat} {d : SpannedDate} {ts : List Tok} {dir : Directive}
    (h : parseEvent n d ts = .ok dir) : txnOf dir = none := by
  unfold parseEvent at h
  try dsimp only at h
  repeat' split at h
  all_goals first
  | exact Except.noConfusion h
  | (injection h with h2; subst h2; rfl)

theorem parseNote_txnOf {n : Nat} {d : SpannedDate} {ts : List Tok} {dir : Directive}
    (h : parseNote n d ts = .ok dir) : txnOf dir = none := by
  unfold parseNote at h
  try dsimp only at h
  repeat' split at h
  all_goals first
  | exact Except.noConfusion h
  | (injection h with h2; subst h2; rfl)

theorem parseCustom_txnOf {n : Nat} {d : SpannedDate} {ts : List Tok} {dir : Directive}
    (h : parseCustom n d ts = .ok dir) : txnOf dir = none := by
  unfold parseCustom at h
  try dsimp only at h
  repeat' split at h
  all_goals first
  | exact Except.noConfusion h
  | (injection h with h2; subst h2; rfl)

theorem parseBare_txnOf {n : Nat} {kwSpan : Span} {k : Kw} {ts : List Tok} {dir : Directive}
    (h : parseBare n kwSpan k ts = .ok dir) : txnOf dir = none := by
  unfold parseBare at h
  try dsimp only at h
  repeat' split at h
  all_goals first
  | exact Except.noConfusion h
  | (injection h with h2; subst h2; rfl)

theorem txnOf_shiftn {o : Nat} {dir : Directive} (h : txnOf dir = none) :
    txnOf (shiftDirective o dir) = none := by
  cases dir <;> simp_all [txnOf, shiftDirective]

theorem dirPostings_none {dir : Directive} (h : txnOf dir = none) :
    dirPostings dir = [] := by
  cases dir <;> simp_all [txnOf, dirPostings]

theorem parseDated_facts {S : List Char} {o : Nat} {L : List Char} {cont : List NLine}
    {d : SpannedDate} {ts : List Tok} {dir : Directive} {lo : Nat}
    (hch : Chained S ((o, L) :: cont))
    (hord : OrdToks lo L.length ts) (hd : dateOkIn L.length d)
    (h : parseDated o L.length cont d ts = .ok dir) :
    dir.spanOf = ⟨o, lastStop (((o, L) :: cont).getLast (by simp))⟩ ∧
    Directive.wfIn ⟨0, S.length⟩ dir ∧
    (dirPostings dir).Pairwise (fun a b => a.span.start < b.span.start) ∧
    (∀ t, txnOf dir = some t →
      (t.extra.tags.map (fun x => x.name)).Nodup ∧
      (t.extra.links.map (fun x => x.name)).Nodup ∧
      t.extra.tags.Pairwise (fun a b => a.span.stop ≤ b.span.start) ∧
      t.extra.links.Pairwise (fun a b => a.span.stop ≤ b.span.start)) := by
  have hok : lineSliceOk S (o, L) := Chained.head_ok hch
  have hokb : o + L.length ≤ S.length := hok.2.1
  have sc : ∀ (dir0 : Directive), dir0.spanOf = ⟨0, L.length⟩ →
      Directive.wfIn ⟨0, L.length⟩ dir0 → txnOf dir0 = none →
      dir = shiftDirective o dir0 → cont = [] →
      dir.spanOf = ⟨o, lastStop (((o, L) :: cont).getLast (by simp))⟩ ∧
      Directive.wfIn ⟨0, S.length⟩ dir ∧
      (dirPostings dir).Pairwise (fun a b => a.span.start < b.span.start) ∧
      (∀ t, txnOf dir = some t →
        (t.extra.tags.map (fun x => x.name)).Nodup ∧
        (t.extra.links.map (fun x => x.name)).Nodup ∧
        t.extra.tags.Pairwise (fun a b => a.span.stop ≤ b.span.start) ∧
        t.extra.links.Pairwise (fun a b => a.span.stop ≤ b.span.start)) := by
    intro dir0 hsp hwf hno hdir hcont
    subst hdir
    subst hcont
    refine ⟨?_, ?_, ?_, ?_⟩
    · rw [spanOf_shift, hsp]
      rfl
    · exact wfIn_mono (wfIn_shift hwf) ⟨Nat.zero_le _, hokb⟩
    · rw [dirPostings_none (txnOf_shiftn hno)]
      exact List.Pairwise.nil
    · intro t ht
      rw [txnOf_shiftn hno] at ht
      exact Option.noConfusion ht
  have txn_case : ∀ (flag : Flag) (r : List Tok) (lo2 : Nat), OrdToks lo2 L.length r →
      parseTxnAt o L.length cont d flag r = .ok dir →
      dir.spanOf = ⟨o, lastStop (((o, L) :: cont).getLast (by simp))⟩ ∧
      Directive.wfIn ⟨0, S.length⟩ dir ∧
      (dirPostings dir).Pairwise (fun a b => a.span.start < b.span.start) ∧
      (∀ t, txnOf dir = some t →
        (t.extra.tags.map (fun x => x.name)).Nodup ∧
        (t.extra.links.map (fun x => x.name)).Nodup ∧
        t.extra.tags.Pairwise (fun a b => a.span.stop ≤ b.span.start) ∧
        t.extra.links.Pairwise (fun a b => a.span.stop ≤ b.span.start)) := by
    intro flag r lo2 hordr htx
    obtain ⟨t, hdt, hA, hB, hpw, h1, h2, h3, h4⟩ := parseTxnAt_facts hch hordr hd htx
    subst hdt
    refine ⟨hA, hB, ?_, ?_⟩
    · exact hpw
    · intro t2 ht2
      simp only [txnOf, Option.some.injEq] at ht2
      subst ht2
      exact ⟨h1, h2, h3, h4⟩
  simp only [parseDated] at h
  cases ts with
  | nil => simp at h
  | cons t r =>
    cases t with
    | kw sp k =>
      cases k with
      | opn =>
        cases hrc : requireNoCont cont with
        | error e => rw [hrc] at h; simp at h
        | ok u =>
          rw [hrc] at h
          dsimp only at h
          cases hp : parseOpen L.length d r with
          | error e => rw [hp] at h; simp at h
          | ok dir0 =>
            rw [hp] at h
            simp only [Except.ok.injEq] at h
            obtain ⟨hsp, hwf⟩ := parseOpen_facts hord.rest hd hp
            exact sc dir0 hsp hwf (parseOpen_txnOf hp) h.symm (requireNoCont_ok hrc)
      | cls =>
        cases hrc : requireNoCont cont with
        | error e => rw [hrc] at h; simp at h
        | ok u =>
          rw [hrc] at h
          dsimp only at h
          cases hp : parseClose L.length d r with
          | error e => rw [hp] at h; simp at h
          | ok dir0 =>
            rw [hp] at h
            simp only [Except.ok.injEq] at h
            obtain ⟨hsp, hwf⟩ := parseClose_facts hord.rest hd hp
            exact sc dir0 hsp hwf (parseClose_txnOf hp) h.symm (requireNoCont_ok hrc)
      | bal =>
        cases hrc : requireNoCont cont with
        | error e => rw [hrc] at h; simp at h
        | ok u =>
          rw [hrc] at h
          dsimp only at h
          cases hp : parseBalance L.length d r with
          | error e => rw [hp] at h; simp at h
          | ok dir0 =>
            rw [hp] at h
            simp only [Except.ok.injEq] at h
            obtain ⟨hsp, hwf⟩ := parseBalance_facts hord.rest hd hp
            exact sc dir0 hsp hwf (parseBalance_txnOf hp) h.symm (requireNoCont_ok hrc)
      | prc =>
        cases hrc : requireNoCont cont with
        | error e => rw [hrc] at h; simp at h
        | ok u =>
          rw [hrc] at h
          dsimp only at h
          cases hp : parsePrice L.length d r with
          | error e => rw [hp] at h; simp at h
          | ok dir0 =>
            rw [hp] at h
            simp only [Except.ok.injEq] at h
            obtain ⟨hsp, hwf⟩ := parsePrice_facts hord.rest hd hp
            exact sc dir0 hsp hwf (parsePrice_txnOf hp) h.symm (requireNoCont_ok hrc)
      | evt =>
        cases hrc : requireNoCont cont with
        | error e => rw [hrc] at h; simp at h
        | ok u =>
          rw [hrc] at h
          dsimp only at h
          cases hp : parseEvent L.length d r with
          | error e => rw [hp] at h; simp at h
          | ok dir0 =>
            rw [hp] at h
            simp only [Except.ok.injEq] at h
            obtain ⟨hsp, hwf⟩ := parseEvent_facts hord.rest hd hp
            exact sc dir0 hsp hwf (parseEvent_txnOf hp) h.symm (requireNoCont_ok hrc)
      | nte =>
        cases hrc : requireNoCont cont with
        | error e => rw [hrc] at h; simp at h
        | ok u =>
          rw [hrc] at h
          dsimp only at h
          cases hp : parseNote L.length d r with
          | error e => rw [hp] at h; simp at h
          | ok dir0 =>
            rw [hp] at h
            simp only [Except.ok.injEq] at h
            obtain ⟨hsp, hwf⟩ := parseNote_facts hord.rest hd hp
            exact sc dir0 hsp hwf (parseNote_txnOf hp) h.symm (requireNoCont_ok hrc)
      | cst =>
        cases hrc : requireNoCont cont with
        | error e => rw [hrc] at h; simp at h
        | ok u =>
          rw [hrc] at h
          dsimp only at h
          cases hp : parseCustom L.length d r with
          | error e => rw [hp] at h; simp at h
          | ok dir0 =>
            rw [hp] at h
            simp only [Except.ok.injEq] at h
            obtain ⟨hsp, hwf⟩ := parseCustom_facts hord.rest hd hp
            exact sc dir0 hsp hwf (parseCustom_txnOf hp) h.symm (requireNoCont_ok hrc)
      | txn => exact txn_case Flag.txn r _ hord.rest h
      | inc => simp at h
      | opt => simp at h
      | plg => simp at h
      | pushtag => simp at h
      | poptag => simp at h
    | sym sp c =>
      dsimp only [symHead?] at h
      by_cases hc : c = '*'
      · rw [if_pos hc] at h
        subst hc
        exact txn_case Flag.star r _ hord.rest h
      · rw [if_neg hc] at h
        by_cases hc2 : c = '!'
        · rw [if_pos hc2] at h
          subst hc2
          exact txn_case Flag.bang r _ hord.rest h
        · rw [if_neg hc2] at h
          simp at h
    | date sp y mo dy => dsimp only [symHead?] at h; simp at h
    | acct sp name => dsimp only [symHead?] at h; simp at h
    | cur sp name => dsimp only [symHead?] at h; simp at h
    | str sp v => dsimp only [symHead?] at h; simp at h
    | tag sp name => dsimp only [symHead?] at h; simp at h
    | link sp name => dsimp only [symHead?] at h; simp at h
    | num sp v => dsimp only [symHead?] at h; simp at h
    | word sp w => dsimp only [symHead?] at h; simp at h

theorem parseBlockToks_facts {S : List Char} {o : Nat} {L : List Char} {cont : List NLine}
    {dir : Directive}
    (hch : Chained S ((o, L) :: cont))
    (h : parseBlockToks o L cont = .ok dir) :
    dir.spanOf = ⟨o, lastStop (((o, L) :: cont).getLast (by simp))⟩ ∧
    Directive.wfIn ⟨0, S.length⟩ dir ∧
    (dirPostings dir).Pairwise (fun a b => a.span.start < b.span.start) ∧
    (∀ t, txnOf dir = some t →
      (t.extra.tags.map (fun x => x.name)).Nodup ∧
      (t.extra.links.map (fun x => x.name)).Nodup ∧
      t.extra.tags.Pairwise (fun a b => a.span.stop ≤ b.span.start) ∧
      t.extra.links.Pairwise (fun a b => a.span.stop ≤ b.span.start)) := by
  have hok : lineSliceOk S (o, L) := Chained.head_ok hch
  have hokb : o + L.length ≤ S.length := hok.2.1
  simp only [parseBlockToks] at h
  cases hlx : lexLine L with
  | error e => rw [hlx] at h; simp at h
  | ok ts =>
    rw [hlx] at h
    dsimp only at h
    have hord : OrdToks 0 L.length ts := by
      have := lexAux_ord (L.length + 1) 0 L ts hlx
      simpa using this
    cases ts with
    | nil => simp at h
    | cons t r =>
      cases t with
      | date sp y mo dy =>
        have hd : dateOkIn L.length (⟨sp, y, mo, dy⟩ : SpannedDate) := by
          have hb := hord.bounds (.date sp y mo dy) (by simp)
          exact ⟨hb.2.1, hb.2.2⟩
        exact parseDated_facts hch hord.rest hd h
      | kw sp k =>
        cases hrc : requireNoCont cont with
        | error e => rw [hrc] at h; simp at h
        | ok u =>
          rw [hrc] at h
          dsimp only at h
          cases hp : parseBare L.length sp k r with
          | error e => rw [hp] at h; simp at h
          | ok dir0 =>
            rw [hp] at h
            simp only [Except.ok.injEq] at h
            obtain ⟨hsp, hwf⟩ := parseBare_facts hord.rest hp
            have hcont := requireNoCont_ok hrc
            subst hcont
            subst h
            refine ⟨?_, ?_, ?_, ?_⟩
            · rw [spanOf_shift, hsp]
              rfl
            · exact wfIn_mono (wfIn_shift hwf) ⟨Nat.zero_le _, hokb⟩
            · rw [dirPostings_none (txnOf_shiftn (parseBare_txnOf hp))]
              exact List.Pairwise.nil
            · intro t ht
              rw [txnOf_shiftn (parseBare_txnOf hp)] at ht
              exact Option.noConfusion ht
      | acct sp name => simp at h
      | cur sp name => simp at h
      | str sp v => simp at h
      | tag sp name => simp at h
      | link sp name => simp at h
      | num sp v => simp at h
      | word sp w => simp at h
      | sym sp c => simp at h

theorem parseBlock_facts {S : List Char} {o : Nat} {L : List Char} {cont : List NLine}
    {dir : Directive}
    (hch : Chained S ((o, L) :: cont))
    (h : parseBlock ((o, L), cont) = .ok dir) :
    dir.spanOf = ⟨o, lastStop (((o, L) :: cont).getLast (by simp))⟩ ∧
    Directive.wfIn ⟨0, S.length⟩ dir ∧
    (dirPostings dir).Pairwise (fun a b => a.span.start < b.span.start) ∧
    (∀ t, txnOf dir = some t →
      (t.extra.tags.map (fun x => x.name)).Nodup ∧
      (t.extra.links.map (fun x => x.name)).Nodup ∧
      t.extra.tags.Pairwise (fun a b => a.span.stop ≤ b.span.start) ∧
      t.extra.links.Pairwise (fun a b => a.span.stop ≤ b.span.start)) := by
  have hok : lineSliceOk S (o, L) := Chained.head_ok hch
  have hokb : o + L.length ≤ S.length := hok.2.1
  simp only [parseBlock] at h
  cases L with
  | nil => exact parseBlockToks_facts hch h
  | cons c rest =>
    dsimp only at h
    by_cases hc : c = ';'
    · rw [if_pos hc] at h
      cases hrc : requireNoCont cont with
      | error e => rw [hrc] at h; simp at h
      | ok u =>
        rw [hrc] at h
        dsimp only at h
        simp only [Except.ok.injEq] at h
        have hcont := requireNoCont_ok hrc
        subst hcont
        subst h
        refine ⟨rfl, ⟨Nat.le_add_right _ _, Nat.zero_le _, hokb⟩, ?_, ?_⟩
        · exact List.Pairwise.nil
        · intro t ht
          exact Option.noConfusion ht
    · rw [if_neg hc] at h
      by_cases hc2 : c = '*'
      · rw [if_pos hc2] at h
        cases hrc : requireNoCont cont with
        | error e => rw [hrc] at h; simp at h
        | ok u =>
          rw [hrc] at h
          dsimp only at h
          simp only [Except.ok.injEq] at h
          have hcont := requireNoCont_ok hrc
          subst hcont
          subst h
          refine ⟨rfl, ⟨Nat.le_add_right _ _, Nat.zero_le _, hokb⟩, ?_, ?_⟩
          · exact List.Pairwise.nil
          · intro t ht
            exact Option.noConfusion ht
      · rw [if_neg hc2] at h
        exact parseBlockToks_facts hch h

theorem takeIndented_append : ∀ (xs : List NLine),
    (takeIndented xs).1 ++ (takeIndented xs).2 = xs := by
  intro xs
  induction xs with
  | nil => rfl
  | cons x t ih =>
    by_cases hc : contLine x.2 = true
    · simp only [takeIndented, hc, if_true, List.cons_append]
      rw [ih]
    · simp [takeIndented, hc]

theorem takeIndented_all : ∀ (xs : List NLine),
    ∀ x ∈ (takeIndented xs).1, contLine x.2 = true := by
  intro xs
  induction xs with
  | nil => intro x hx; simp [takeIndented] at hx
  | cons y t ih =>
    intro x hx
    by_cases hc : contLine y.2 = true
    · simp only [takeIndented, hc, if_true] at hx
      rcases List.mem_cons.mp hx with he | hm
      · subst he; exact hc
      · exact ih x hm
    · simp [takeIndented, hc] at hx

theorem contLine_not_blank {L : List Char} (h : contLine L = true) : isBlankL L = false := by
  simp only [contLine, Bool.and_eq_true, Bool.not_eq_true'] at h
  exact h.2

theorem goB_facts {S : List Char} :
    ∀ (f : Nat) {lns : List NLine} {bs : List Block}, Chained S lns → goB f lns = .ok bs →
      (∀ b ∈ bs, Chained S (blockLines b)) ∧
      ((bs.map blockLines).flatten = lns.filter (fun x => !isBlankL x.2)) ∧
      (∀ b ∈ bs, isBlankL b.1.2 = false ∧ isIndented b.1.2 = false ∧
        ∀ x ∈ b.2, contLine x.2 = true) := by
  intro f
  induction f with
  | zero => intro lns bs hch h; simp [goB] at h
  | succ f ih =>
    intro lns bs hch h
    cases lns with
    | nil =>
      simp only [goB, Except.ok.injEq] at h
      subst h
      simp
    | cons x xs =>
      rw [goB] at h
      by_cases hb : isBlankL x.2 = true
      · rw [if_pos hb] at h
        obtain ⟨h1, h2, h3⟩ := ih (Chained.tail hch) h
        refine ⟨h1, ?_, h3⟩
        rw [List.filter_cons]
        simpa [hb] using h2
      · rw [if_neg hb] at h
        have hb2 : isBlankL x.2 = false := by simpa using hb
        by_cases hi : isIndented x.2 = true
        · rw [if_pos hi] at h; simp at h
        · rw [if_neg hi] at h
          have hi2 : isIndented x.2 = false := by simpa using hi
          dsimp only at h
          cases hg : goB f (takeIndented xs).2 with
          | error e => rw [hg] at h; simp at h
          | ok bs0 =>
            rw [hg] at h
            simp only [Except.ok.injEq] at h
            subst h
            have hsplit : (takeIndented xs).1 ++ (takeIndented xs).2 = xs :=
              takeIndented_append xs
            have hchtail : Chained S xs := Chained.tail hch
            have hch2 : Chained S (takeIndented xs).2 := by
              rw [← hsplit] at hchtail
              exact Chained.append_right hchtail
            obtain ⟨h1, h2, h3⟩ := ih hch2 hg
            have hall : ∀ y ∈ (takeIndented xs).1, (!isBlankL y.2) = true := by
              intro y hy
              have hc := takeIndented_all xs y hy
              simp [contLine_not_blank hc]
            refine ⟨?_, ?_, ?_⟩
            · intro b hbmem
              rcases List.mem_cons.mp hbmem with hbe | hbm
              · subst hbe
                show Chained S (x :: (takeIndented xs).1)
                have hc3 : Chained S ((x :: (takeIndented xs).1) ++ (takeIndented xs).2) := by
                  rw [List.cons_append, hsplit]
                  exact hch
                exact Chained.append_left hc3
              · exact h1 b hbm
            · show ((x :: (takeIndented xs).1) :: bs0.map blockLines).flatten = _
              have hfx : List.filter (fun x => !isBlankL x.2) xs =
                  (takeIndented xs).1 ++
                    List.filter (fun x => !isBlankL x.2) (takeIndented xs).2 := by
                conv_lhs => rw [← hsplit]
                rw [List.filter_append, List.filter_eq_self.mpr hall]
              rw [List.flatten_cons, List.filter_cons]
              simp only [hb2, Bool.not_false, if_true]
              rw [h2, hfx, List.cons_append]
            · intro b hbmem
              rcases List.mem_cons.mp hbmem with hbe | hbm
              · subst hbe
                exact ⟨hb2, hi2, takeIndented_all xs⟩
              · exact h3 b hbm

theorem mapBlocks_facts {S : List Char} :
    ∀ {bs : List Block} {ds : List Directive},
      (∀ b ∈ bs, Chained S (blockLines b)) → mapBlocks bs = .ok ds →
      List.Forall₂ (fun (b : Block) (dir : Directive) =>
        dir.spanOf = ⟨b.1.1, lastStop ((blockLines b).getLast (by simp [blockLines]))⟩ ∧
        Directive.wfIn ⟨0, S.length⟩ dir ∧
        (dirPostings dir).Pairwise (fun a b => a.span.start < b.span.start) ∧
        (∀ t, txnOf dir = some t →
          (t.extra.tags.map (fun x => x.name)).Nodup ∧
          (t.extra.links.map (fun x => x.name)).Nodup ∧
          t.extra.tags.Pairwise (fun a b => a.span.stop ≤ b.span.start) ∧
          t.extra.links.Pairwise (fun a b => a.span.stop ≤ b.span.start))) bs ds := by
  intro bs
  induction bs with
  | nil =>
    intro ds _ h
    simp only [mapBlocks, Except.ok.injEq] at h
    subst h
    exact List.Forall₂.nil
  | cons b bt ih =>
    intro ds hch h
    simp only [mapBlocks] at h
    obtain ⟨dir, hpb, h2⟩ := exceptBind_ok h
    obtain ⟨ds0, hrec, h3⟩ := exceptMap_ok h2
    subst h3
    have hchb := hch b (by simp)
    obtain ⟨⟨o, L⟩, cont⟩ := b
    exact List.Forall₂.cons (parseBlock_facts hchb hpb)
      (ih (fun b2 hb2 => hch b2 (by simp [hb2])) hrec)

theorem parse_string_facts {S fn : List Char} {f : File}
    (h : parse_string S fn = .ok f) :
    f.content = S ∧
    (∀ d ∈ f.directives, Directive.wfIn ⟨0, S.length⟩ d) ∧
    f.directives.Pairwise (fun a b => a.spanOf.start < b.spanOf.start) ∧
    (∀ d ∈ f.directives, (dirPostings d).Pairwise (fun a b => a.span.start < b.span.start)) ∧
    (∀ d ∈ f.directives, ∀ t, txnOf d = some t →
      (t.extra.tags.map (fun x => x.name)).Nodup ∧
      (t.extra.links.map (fun x => x.name)).Nodup ∧
      t.extra.tags.Pairwise (fun a b => a.span.stop ≤ b.span.start) ∧
      t.extra.links.Pairwise (fun a b => a.span.stop ≤ b.span.start)) := by
  simp only [parse_string] at h
  cases hfd : parseFileD S with
  | error e => rw [hfd] at h; simp at h
  | ok ds =>
    rw [hfd] at h
    simp only [Except.ok.injEq] at h
    subst h
    simp only [parseFileD] at hfd
    cases hg : goB ((numberedLines S).length + 1) (numberedLines S) with
    | error e => rw [hg] at hfd; simp at hfd
    | ok bs =>
      rw [hg] at hfd
      dsimp only at hfd
      have hchS := numberedLines_chained S
      obtain ⟨g1, g2, g3⟩ := goB_facts _ hchS hg
      have hf2 := mapBlocks_facts g1 hfd
      refine ⟨rfl, ?_, ?_, ?_, ?_⟩
      · intro d hd
        obtain ⟨b, hb, hr⟩ := forall2_mem_right hf2 d hd
        exact hr.2.1
      · have hpl : (numberedLines S).Pairwise (fun a b => a.1 < b.1) := hchS.pairwise_lt
        have hplf : ((numberedLines S).filter (fun x => !isBlankL x.2)).Pairwise
            (fun a b => a.1 < b.1) := hpl.filter _
        rw [← g2] at hplf
        have hbp : bs.Pairwise
            (fun b1 b2 => ∀ x ∈ blockLines b1, ∀ y ∈ blockLines b2, x.1 < y.1) := by
          have hmp := (List.pairwise_flatten.mp hplf).2
          exact List.pairwise_map.mp hmp
        refine forall2_pairwise ?_ hf2 hbp
        intro b1 b2 d1 d2 hr1 hr2 hlt
        rw [hr1.1, hr2.1]
        exact hlt b1.1 (by simp [blockLines]) b2.1 (by simp [blockLines])
      · intro d hd
        obtain ⟨b, hb, hr⟩ := forall2_mem_right hf2 d hd
        exact hr.2.2.1
      · intro d hd
        obtain ⟨b, hb, hr⟩ := forall2_mem_right hf2 d hd
        exact hr.2.2.2

theorem splitAcc_no_nl {t : List Char} (h : '\n' ∉ t) :
    ∀ (o : Nat) (cur : List Char), splitAcc o cur t = [(o, cur.reverse ++ t)] := by
  induction t with
  | nil => intro o cur; simp [splitAcc]
  | cons c r ih =>
    intro o cur
    have hc : ¬ c = '\n' := fun he => h (by simp [he])
    rw [splitAcc, if_neg hc]
    rw [ih (fun hm => h (by simp [hm])) o (c :: cur)]
    simp

theorem splitAcc_nl_split {t : List Char} (h : '\n' ∉ t) (rest : List Char) :
    ∀ (o : Nat) (cur : List Char),
      splitAcc o cur (t ++ '\n' :: rest) =
        (o, cur.reverse ++ t) :: splitAcc (o + cur.length + t.length + 1) [] rest := by
  induction t with
  | nil =>
    intro o cur
    rw [List.nil_append, splitAcc, if_pos rfl]
    simp
  | cons c r ih =>
    intro o cur
    have hc : ¬ c = '\n' := fun he => h (by simp [he])
    rw [List.cons_append, splitAcc, if_neg hc]
    rw [ih (fun hm => h (by simp [hm])) o (c :: cur)]
    have hlen : o + (c :: cur).length + r.length + 1 = o + cur.length + (c :: r).length + 1 := by
      simp only [List.length_cons]
      omega
    rw [hlen]
    simp

theorem splitAcc_intercalate_texts :
    ∀ (texts : List (List Char)), texts ≠ [] → (∀ t ∈ texts, '\n' ∉ t) →
      ∀ (o : Nat),
        (splitAcc o [] (List.intercalate ['\n'] texts)).map Prod.snd = texts := by
  intro texts
  induction texts with
  | nil => intro hne; exact absurd rfl hne
  | cons t rest ih =>
    intro _ hnl o
    cases rest with
    | nil =>
      rw [intercalate_single]
      rw [splitAcc_no_nl (hnl t (by simp)) o []]
      simp
    | cons t2 rest2 =>
      rw [intercalate_cons_cons]
      have hsep : t ++ ['\n'] ++ List.intercalate ['\n'] (t2 :: rest2) =
          t ++ '\n' :: List.intercalate ['\n'] (t2 :: rest2) := by
        simp
      rw [hsep]
      rw [splitAcc_nl_split (hnl t (by simp)) _ o []]
      simp only [List.map_cons]
      rw [ih (by simp) (fun x hx => hnl x (by simp [hx])) _]
      simp

theorem numberedLines_texts {texts : List (List Char)} (hne : texts ≠ [])
    (hnl : ∀ t ∈ texts, '\n' ∉ t) :
    (numberedLines (List.intercalate ['\n'] texts)).map Prod.snd = texts :=
  splitAcc_intercalate_texts texts hne hnl 0

theorem intercalate_append_ne (s : List Char) :
    ∀ (a b : List (List Char)), a ≠ [] → b ≠ [] →
      List.intercalate s (a ++ b) =
        List.intercalate s a ++ s ++ List.intercalate s b := by
  intro a
  induction a with
  | nil => intro b ha _; exact absurd rfl ha
  | cons x t ih =>
    intro b _ hb
    cases t with
    | nil =>
      cases b with
      | nil => exact absurd rfl hb
      | cons y yb =>
        rw [List.cons_append, List.nil_append, intercalate_cons_cons, intercalate_single]
    | cons x2 t2 =>
      have h2 := ih b (by simp) hb
      rw [List.cons_append] at h2
      calc List.intercalate s ((x :: x2 :: t2) ++ b)
          = List.intercalate s (x :: x2 :: (t2 ++ b)) := by simp
        _ = x ++ s ++ List.intercalate s (x2 :: (t2 ++ b)) :=
            intercalate_cons_cons s x x2 (t2 ++ b)
        _ = x ++ s ++ (List.intercalate s (x2 :: t2) ++ s ++ List.intercalate s b) := by
            rw [h2]
        _ = List.intercalate s (x :: x2 :: t2) ++ s ++ List.intercalate s b := by
            rw [intercalate_cons_cons s x x2 t2]
            simp [List.append_assoc]

theorem intercalate_intercalate (s : List Char) :
    ∀ (gs : List (List (List Char))), (∀ g ∈ gs, g ≠ []) →
      List.intercalate s (gs.map (List.intercalate s)) =
        List.intercalate s gs.flatten := by
  intro gs
  induction gs with
  | nil => intro _; rfl
  | cons g rest ih =>
    intro hne
    cases rest with
    | nil =>
      simp only [List.map_cons, List.map_nil, List.flatten_cons, List.flatten_nil,
        List.append_nil]
      rw [intercalate_single]
    | cons g2 rest2 =>
      have hih := ih (fun x hx => hne x (by simp [hx]))
      have hb2 : (g2 :: rest2).flatten ≠ [] := by
        have h2 := hne g2 (by simp)
        rw [List.flatten_cons]
        cases g2 with
        | nil => exact absurd rfl h2
        | cons u v => simp
      rw [List.map_cons, List.flatten_cons]
      rw [intercalate_append_ne s g ((g2 :: rest2).flatten) (hne g (by simp)) hb2]
      rw [← hih]
      rw [List.map_cons]
      rw [intercalate_cons_cons s (List.intercalate s g) (List.intercalate s g2)
        (List.map (List.intercalate s) rest2)]

theorem takeIndented_exact :
    ∀ (front back : List NLine), (∀ x ∈ front, contLine x.2 = true) →
      (∀ z, back.head? = some z → contLine z.2 = false) →
      takeIndented (front ++ back) = (front, back) := by
  intro front
  induction front with
  | nil =>
    intro back _ hb
    cases back with
    | nil => rfl
    | cons z t =>
      have hz := hb z rfl
      simp [takeIndented, hz]
  | cons x ft ih =>
    intro back hf hb
    have hx := hf x (by simp)
    rw [List.cons_append, takeIndented, if_pos hx,
      ih back (fun y hy => hf y (by simp [hy])) hb]

theorem map_eq_append_split {α β : Type} {f : α → β} :
    ∀ {l : List α} {l1 l2 : List β}, l.map f = l1 ++ l2 →
      ∃ s t, l = s ++ t ∧ s.map f = l1 ∧ t.map f = l2 := by
  intro l
  induction l with
  | nil =>
    intro l1 l2 h
    obtain ⟨h1, h2⟩ := List.append_eq_nil.mp h.symm
    exact ⟨[], [], rfl, by simp [h1], by simp [h2]⟩
  | cons x t ih =>
    intro l1 l2 h
    cases l1 with
    | nil => exact ⟨[], x :: t, rfl, rfl, by simpa using h⟩
    | cons u l1t =>
      simp only [List.map_cons, List.cons_append, List.cons.injEq] at h
      obtain ⟨h1, h2⟩ := h
      obtain ⟨s2, t2, hst, hs, ht⟩ := ih h2
      refine ⟨x :: s2, t2, ?_, ?_, ht⟩
      · rw [List.cons_append, ← hst]
      · simp [hs, h1]

theorem goB_resplit :
    ∀ (bs : List Block) (lns2 : List NLine) (f : Nat),
      lns2.map Prod.snd = (bs.map blockTexts).flatten →
      (∀ b ∈ bs, isBlankL b.1.2 = false ∧ isIndented b.1.2 = false ∧
        ∀ x ∈ b.2, contLine x.2 = true) →
      lns2.length + 1 ≤ f →
      ∃ bs2, goB f lns2 = .ok bs2 ∧
        List.Forall₂ (fun b b2 => blockTexts b = blockTexts b2) bs bs2 := by
  intro bs
  induction bs with
  | nil =>
    intro lns2 f hmap _ hf
    have hl : lns2 = [] := by
      cases lns2 with
      | nil => rfl
      | cons y t => simp at hmap
    subst hl
    cases f with
    | zero => omega
    | succ f0 => exact ⟨[], rfl, List.Forall₂.nil⟩
  | cons b bt ih =>
    intro lns2 f hmap hprops hf
    cases lns2 with
    | nil =>
      exfalso
      simp [blockTexts, blockLines] at hmap
    | cons y ys =>
      simp only [List.map_cons, List.flatten_cons, blockTexts, blockLines,
        List.cons_append, List.cons.injEq] at hmap
      obtain ⟨h1, h2⟩ := hmap
      obtain ⟨front, back, hfb, hface, hbacke⟩ := map_eq_append_split h2
      have hfrontc : ∀ x ∈ front, contLine x.2 = true := by
        intro x hxm
        have : x.2 ∈ List.map Prod.snd b.2 := by
          rw [← hface]
          exact List.mem_map_of_mem Prod.snd hxm
        obtain ⟨w, hw, hwe⟩ := List.mem_map.mp this
        rw [← hwe]
        exact (hprops b (by simp)).2.2 w hw
      have hbackhead : ∀ z, back.head? = some z → contLine z.2 = false := by
        intro z hz
        cases bt with
        | nil =>
          have hbe : back = [] := by simpa using hbacke
          subst hbe
          simp at hz
        | cons b2 rest =>
          cases back with
          | nil => simp at hz
          | cons z0 zt =>
            simp only [List.head?_cons, Option.some.injEq] at hz
            subst hz
            simp only [List.map_cons, List.flatten_cons, blockTexts, blockLines,
              List.cons_append, List.cons.injEq] at hbacke
            have hz2 : z0.2 = b2.1.2 := hbacke.1
            have hps := hprops b2 (by simp)
            rw [contLine, hz2, hps.2.1]
            simp
      have hyb : isBlankL y.2 = false := by
        rw [h1]
        exact (hprops b (by simp)).1
      have hyi : isIndented y.2 = false := by
        rw [h1]
        exact (hprops b (by simp)).2.1
      cases f with
      | zero => simp at hf
      | succ f0 =>
        have hlen : back.length + 1 ≤ f0 := by
          have h3 : ys.length = front.length + back.length := by
            rw [hfb, List.length_append]
          simp only [List.length_cons] at hf
          omega
        obtain ⟨bs2, hg2, hfa⟩ := ih back f0 hbacke
          (fun b2 hb2 => hprops b2 (by simp [hb2])) hlen
        refine ⟨(y, front) :: bs2, ?_, ?_⟩
        · rw [goB, if_neg (by simp [hyb]), if_neg (by simp [hyi])]
          dsimp only
          rw [hfb, takeIndented_exact front back hfrontc hbackhead]
          dsimp only
          rw [hg2]
        · refine List.Forall₂.cons ?_ hfa
          show blockTexts b = blockTexts (y, front)
          simp only [blockTexts, blockLines, List.map_cons]
          rw [h1, hface]

theorem mapPostings_congr :
    ∀ {cont cont2 : List NLine} {ps : List Posting},
      cont.map Prod.snd = cont2.map Prod.snd →
      mapPostings cont = .ok ps →
      ∃ ps2, mapPostings cont2 = .ok ps2 ∧ ps2.map stripPosting = ps.map stripPosting := by
  intro cont
  induction cont with
  | nil =>
    intro cont2 ps hm h
    have hc2 : cont2 = [] := by
      cases cont2 with
      | nil => rfl
      | cons z t => simp at hm
    subst hc2
    simp only [mapPostings, Except.ok.injEq] at h
    subst h
    exact ⟨[], rfl, rfl⟩
  | cons x xs ih =>
    intro cont2 ps hm h
    cases cont2 with
    | nil => simp at hm
    | cons z zs =>
      simp only [List.map_cons, List.cons.injEq] at hm
      obtain ⟨h1, h2⟩ := hm
      simp only [mapPostings] at h
      obtain ⟨p, hpa, hb⟩ := exceptBind_ok h
      obtain ⟨ps0, hrec, h3⟩ := exceptMap_ok hb
      subst h3
      obtain ⟨ps2, hrec2, hstrip⟩ := ih h2 hrec
      simp only [parsePostingAt] at hpa
      cases hpl : parsePostingLine x.2 with
      | error e => rw [hpl] at hpa; simp at hpa
      | ok p0 =>
        rw [hpl] at hpa
        simp only [Except.ok.injEq] at hpa
        subst hpa
        refine ⟨shiftPosting z.1 p0 :: ps2, ?_, ?_⟩
        · simp only [mapPostings, parsePostingAt, ← h1, hpl, hrec2, Except.bind, Except.map]
        · simp [stripPosting_shift, hstrip]

theorem parseTxnAt_congr {o o2 n : Nat} {cont cont2 : List NLine} {d : SpannedDate}
    {flag : Flag} {r : List Tok} {dir : Directive}
    (hm : cont.map Prod.snd = cont2.map Prod.snd)
    (h : parseTxnAt o n cont d flag r = .ok dir) :
    ∃ dir2, parseTxnAt o2 n cont2 d flag r = .ok dir2 ∧
      stripDirective dir2 = stripDirective dir := by
  simp only [parseTxnAt] at h ⊢
  have main : ∀ (payee narration : Option SpannedStr) {extra : TransactionExtra}
      {ps : List Posting},
      parseTagsLinks (takeStrs r).2 [] [] = .ok extra →
      mapPostings cont = .ok ps →
      dir = .txn ⟨⟨o, match ps.getLast? with
          | some p => p.span.stop
          | none => o + n⟩, shiftDate o d, flag,
        payee.map (shiftStr o), narration.map (shiftStr o),
        ⟨extra.tags.map (shiftLabel o), extra.links.map (shiftLabel o)⟩, ps⟩ →
      ∃ ps2, mapPostings cont2 = .ok ps2 ∧
        stripDirective (.txn ⟨⟨o2, match ps2.getLast? with
            | some p => p.span.stop
            | none => o2 + n⟩, shiftDate o2 d, flag,
          payee.map (shiftStr o2), narration.map (shiftStr o2),
          ⟨extra.tags.map (shiftLabel o2), extra.links.map (shiftLabel o2)⟩, ps2⟩) =
          stripDirective dir := by
    intro payee narration extra ps htl hmp hdir
    obtain ⟨ps2, hmp2, hstrip⟩ := mapPostings_congr hm hmp
    refine ⟨ps2, hmp2, ?_⟩
    subst hdir
    simp [stripDirective, Option.map_map, List.map_map, Function.comp_def,
      stripSpan, stripStr_shift, stripDate_shift, stripLabel_shift, stripPosting_shift, hstrip]
  cases hstr : (takeStrs r).1 with
  | nil =>
    rw [hstr] at h
    dsimp only at h ⊢
    cases htl : parseTagsLinks (takeStrs r).2 [] [] with
    | error e => rw [htl] at h; simp at h
    | ok extra =>
      rw [htl] at h
      dsimp only at h ⊢
      cases hmp : mapPostings cont with
      | error e => rw [hmp] at h; simp at h
      | ok ps =>
        rw [hmp] at h
        dsimp only at h
        simp only [Except.ok.injEq] at h
        obtain ⟨ps2, hmp2, hse⟩ := main none none htl hmp h.symm
        rw [hmp2]
        exact ⟨_, rfl, hse⟩
  | cons a t1 =>
    cases t1 with
    | nil =>
      rw [hstr] at h
      dsimp only at h ⊢
      cases htl : parseTagsLinks (takeStrs r).2 [] [] with
      | error e => rw [htl] at h; simp at h
      | ok extra =>
        rw [htl] at h
        dsimp only at h ⊢
        cases hmp : mapPostings cont with
        | error e => rw [hmp] at h; simp at h
        | ok ps =>
          rw [hmp] at h
          dsimp only at h
          simp only [Except.ok.injEq] at h
          obtain ⟨ps2, hmp2, hse⟩ := main none (some a) htl hmp h.symm
          rw [hmp2]
          exact ⟨_, rfl, hse⟩
    | cons b t2 =>
      cases t2 with
      | nil =>
        rw [hstr] at h
        dsimp only at h ⊢
        cases htl : parseTagsLinks (takeStrs r).2 [] [] with
        | error e => rw [htl] at h; simp at h
        | ok extra =>
          rw [htl] at h
          dsimp only at h ⊢
          cases hmp : mapPostings cont with
          | error e => rw [hmp] at h; simp at h
          | ok ps =>
            rw [hmp] at h
            dsimp only at h
            simp only [Except.ok.injEq] at h
            obtain ⟨ps2, hmp2, hse⟩ := main (some a) (some b) htl hmp h.symm
            rw [hmp2]
            exact ⟨_, rfl, hse⟩
      | cons c t3 =>
        rw [hstr] at h
        simp at h

theorem parseDated_congr {o o2 n : Nat} {cont cont2 : List NLine} {d : SpannedDate}
    {ts : List Tok} {dir : Directive}
    (hm : cont.map Prod.snd = cont2.map Prod.snd)
    (h : parseDated o n cont d ts = .ok dir) :
    ∃ dir2, parseDated o2 n cont2 d ts = .ok dir2 ∧
      stripDirective dir2 = stripDirective dir := by
  simp only [parseDated] at h ⊢
  cases ts with
  | nil => simp at h
  | cons t r =>
    cases t with
    | kw sp k =>
      cases k with
      | opn =>
        cases hrc : requireNoCont cont with
        | error e => rw [hrc] at h; simp at h
        | ok u =>
          rw [hrc] at h
          dsimp only at h
          have hcont := requireNoCont_ok hrc
          subst hcont
          have hc2 : cont2 = [] := by
            cases cont2 with
            | nil => rfl
            | cons z t => simp at hm
          subst hc2
          cases hp : parseOpen n d r with
          | error e => rw [hp] at h; simp at h
          | ok dir0 =>
            rw [hp] at h
            simp only [Except.ok.injEq] at h
            subst h
            refine ⟨shiftDirective o2 dir0, ?_, ?_⟩
            · dsimp only [requireNoCont]
              rw [hp]
            · rw [stripDirective_shift, stripDirective_shift]
      | cls =>
        cases hrc : requireNoCont cont with
        | error e => rw [hrc] at h; simp at h
        | ok u =>
          rw [hrc] at h
          dsimp only at h
          have hcont := requireNoCont_ok hrc
          subst hcont
          have hc2 : cont2 = [] := by
            cases cont2 with
            | nil => rfl
            | cons z t => simp at hm
          subst hc2
          cases hp : parseClose n d r with
          | error e => rw [hp] at h; simp at h
          | ok dir0 =>
            rw [hp] at h
            simp only [Except.ok.injEq] at h
            subst h
            refine ⟨shiftDirective o2 dir0, ?_, ?_⟩
            · dsimp only [requireNoCont]
              rw [hp]
            · rw [stripDirective_shift, stripDirective_shift]
      | bal =>
        cases hrc : requireNoCont cont with
        | error e => rw [hrc] at h; simp at h
        | ok u =>
          rw [hrc] at h
          dsimp only at h
          have hcont := requireNoCont_ok hrc
          subst hcont
          have hc2 : cont2 = [] := by
            cases cont2 with
            | nil => rfl
            | cons z t => simp at hm
          subst hc2
          cases hp : parseBalance n d r with
          | error e => rw [hp] at h; simp at h
          | ok dir0 =>
            rw [hp] at h
            simp only [Except.ok.injEq] at h
            subst h
            refine ⟨shiftDirective o2 dir0, ?_, ?_⟩
            · dsimp only [requireNoCont]
              rw [hp]
            · rw [stripDirective_shift, stripDirective_shift]
      | prc =>
        cases hrc : requireNoCont cont with
        | error e => rw [hrc] at h; simp at h
        | ok u =>
          rw [hrc] at h
          dsimp only at h
          have hcont := requireNoCont_ok hrc
          subst hcont
          have hc2 : cont2 = [] := by
            cases cont2 with
            | nil => rfl
            | cons z t => simp at hm
          subst hc2
          cases hp : parsePrice n d r with
          | error e => rw [hp] at h; simp at h
          | ok dir0 =>
            rw [hp] at h
            simp only [Except.ok.injEq] at h
            subst h
            refine ⟨shiftDirective o2 dir0, ?_, ?_⟩
            · dsimp only [requireNoCont]
              rw [hp]
            · rw [stripDirective_shift, stripDirective_shift]
      | evt =>
        cases hrc : requireNoCont cont with
        | error e => rw [hrc] at h; simp at h
        | ok u =>
          rw [hrc] at h
          dsimp only at h
          have hcont := requireNoCont_ok hrc
          subst hcont
          have hc2 : cont2 = [] := by
            cases cont2 with
            | nil => rfl
            | cons z t => simp at hm
          subst hc2
          cases hp : parseEvent n d r with
          | error e => rw [hp] at h; simp at h
          | ok dir0 =>
            rw [hp] at h
            simp only [Except.ok.injEq] at h
            subst h
            refine ⟨shiftDirective o2 dir0, ?_, ?_⟩
            · dsimp only [requireNoCont]
              rw [hp]
            · rw [stripDirective_shift, stripDirective_shift]
      | nte =>
        cases hrc : requireNoCont cont with
        | error e => rw [hrc] at h; simp at h
        | ok u =>
          rw [hrc] at h
          dsimp only at h
          have hcont := requireNoCont_ok hrc
          subst hcont
          have hc2 : cont2 = [] := by
            cases cont2 with
            | nil => rfl
            | cons z t => simp at hm
          subst hc2
          cases hp : parseNote n d r with
          | error e => rw [hp] at h; simp at h
          | ok dir0 =>
            rw [hp] at h
            simp only [Except.ok.injEq] at h
            subst h
            refine ⟨shiftDirective o2 dir0, ?_, ?_⟩
            · dsimp only [requireNoCont]
              rw [hp]
            · rw [stripDirective_shift, stripDirective_shift]
      | cst =>
        cases hrc : requireNoCont cont with
        | error e => rw [hrc] at h; simp at h
        | ok u =>
          rw [hrc] at h
          dsimp only at h
          have hcont := requireNoCont_ok hrc
          subst hcont
          have hc2 : cont2 = [] := by
            cases cont2 with
            | nil => rfl
            | cons z t => simp at hm
          subst hc2
          cases hp : parseCustom n d r with
          | error e => rw [hp] at h; simp at h
          | ok dir0 =>
            rw [hp] at h
            simp only [Except.ok.injEq] at h
            subst h
            refine ⟨shiftDirective o2 dir0, ?_, ?_⟩
            · dsimp only [requireNoCont]
              rw [hp]
            · rw [stripDirective_shift, stripDirective_shift]
      | txn => exact parseTxnAt_congr hm h
      | inc => simp at h
      | opt => simp at h
      | plg => simp at h
      | pushtag => simp at h
      | poptag => simp at h
    | sym sp c =>
      dsimp only [symHead?] at h ⊢
      by_cases hc : c = '*'
      · rw [if_pos hc] at h ⊢
        exact parseTxnAt_congr hm h
      · rw [if_neg hc] at h ⊢
        by_cases hc2 : c = '!'
        · rw [if_pos hc2] at h ⊢
          exact parseTxnAt_congr hm h
        · rw [if_neg hc2] at h
          simp at h
    | date sp y mo dy => dsimp only [symHead?] at h; simp at h
    | acct sp name => dsimp only [symHead?] at h; simp at h
    | cur sp name => dsimp only [symHead?] at h; simp at h
    | str sp v => dsimp only [symHead?] at h; simp at h
    | tag sp name => dsimp only [symHead?] at h; simp at h
    | link sp name => dsimp only [symHead?] at h; simp at h
    | num sp v => dsimp only [symHead?] at h; simp at h
    | word sp w => dsimp only [symHead?] at h; simp at h

theorem parseBlockToks_congr {o o2 : Nat} {L : List Char} {cont cont2 : List NLine}
    {dir : Directive}
    (hm : cont.map Prod.snd = cont2.map Prod.snd)
    (h : parseBlockToks o L cont = .ok dir) :
    ∃ dir2, parseBlockToks o2 L cont2 = .ok dir2 ∧
      stripDirective dir2 = stripDirective dir := by
  simp only [parseBlockToks] at h ⊢
  cases hlx : lexLine L with
  | error e => rw [hlx] at h; simp at h
  | ok ts =>
    rw [hlx] at h
    dsimp only at h ⊢
    cases ts with
    | nil => simp at h
    | cons t r =>
      cases t with
      | date sp y mo dy => exact parseDated_congr hm h
      | kw sp k =>
        cases hrc : requireNoCont cont with
        | error e => rw [hrc] at h; simp at h
        | ok u =>
          rw [hrc] at h
          dsimp only at h
          have hcont := requireNoCont_ok hrc
          subst hcont
          have hc2 : cont2 = [] := by
            cases cont2 with
            | nil => rfl
            | cons z t => simp at hm
          subst hc2
          cases hp : parseBare L.length sp k r with
          | error e => rw [hp] at h; simp at h
          | ok dir0 =>
            rw [hp] at h
            simp only [Except.ok.injEq] at h
            subst h
            refine ⟨shiftDirective o2 dir0, ?_, ?_⟩
            · dsimp only [requireNoCont]
              rw [hp]
            · rw [stripDirective_shift, stripDirective_shift]
      | acct sp name => simp at h
      | cur sp name => simp at h
      | str sp v => simp at h
      | tag sp name => simp at h
      | link sp name => simp at h
      | num sp v => simp at h
      | word sp w => simp at h
      | sym sp c => simp at h

theorem parseBlock_congr {b b2 : Block} {dir : Directive}
    (hm : blockTexts b = blockTexts b2)
    (h : parseBlock b = .ok dir) :
    ∃ dir2, parseBlock b2 = .ok dir2 ∧ stripDirective dir2 = stripDirective dir := by
  obtain ⟨⟨o, L⟩, cont⟩ := b
  obtain ⟨⟨o2, L2⟩, cont2⟩ := b2
  simp only [blockTexts, blockLines, List.map_cons, List.cons.injEq] at hm
  obtain ⟨hL, hmc⟩ := hm
  subst hL
  simp only [parseBlock] at h ⊢
  try dsimp only at h ⊢
  cases L with
  | nil => exact parseBlockToks_congr hmc h
  | cons c rest =>
    dsimp only at h ⊢
    by_cases hc : c = ';'
    · rw [if_pos hc] at h ⊢
      cases hrc : requireNoCont cont with
      | error e => rw [hrc] at h; simp at h
      | ok u =>
        rw [hrc] at h
        dsimp only at h
        simp only [Except.ok.injEq] at h
        have hcont := requireNoCont_ok hrc
        subst hcont
        subst h
        have hc2 : cont2 = [] := by
          cases cont2 with
          | nil => rfl
          | cons z t => simp at hmc
        subst hc2
        exact ⟨.cmt ⟨⟨o2, o2 + (c :: rest).length⟩, c :: rest⟩, rfl, rfl⟩
    · rw [if_neg hc] at h ⊢
      by_cases hc2 : c = '*'
      · rw [if_pos hc2] at h ⊢
        cases hrc : requireNoCont cont with
        | error e => rw [hrc] at h; simp at h
        | ok u =>
          rw [hrc] at h
          dsimp only at h
          simp only [Except.ok.injEq] at h
          have hcont := requireNoCont_ok hrc
          subst hcont
          subst h
          have hcc2 : cont2 = [] := by
            cases cont2 with
            | nil => rfl
            | cons z t => simp at hmc
          subst hcc2
          exact ⟨.hdl ⟨⟨o2, o2 + (c :: rest).length⟩,
            (munch (fun x => x == '*') (c :: rest)).1.length, c :: rest⟩, rfl, rfl⟩
      · rw [if_neg hc2] at h ⊢
        exact parseBlockToks_congr hmc h

theorem mapBlocks_congr :
    ∀ {bs bs2 : List Block} {ds : List Directive},
      List.Forall₂ (fun b b2 => blockTexts b = blockTexts b2) bs bs2 →
      mapBlocks bs = .ok ds →
      ∃ ds2, mapBlocks bs2 = .ok ds2 ∧
        ds2.map stripDirective = ds.map stripDirective := by
  intro bs
  induction bs with
  | nil =>
    intro bs2 ds hfa h
    cases hfa
    simp only [mapBlocks, Except.ok.injEq] at h
    subst h
    exact ⟨[], rfl, rfl⟩
  | cons b bt ih =>
    intro bs2 ds hfa h
    cases hfa with
    | cons hr hrest =>
      simp only [mapBlocks] at h
      obtain ⟨dir, hpb, hb2⟩ := exceptBind_ok h
      obtain ⟨ds0, hrec, h3⟩ := exceptMap_ok hb2
      subst h3
      obtain ⟨dir2, hpb2, hsd⟩ := parseBlock_congr hr hpb
      obtain ⟨ds2, hrec2, hsds⟩ := ih hrest hrec
      refine ⟨dir2 :: ds2, ?_, ?_⟩
      · simp only [mapBlocks, hpb2, hrec2, Except.bind, Except.map]
      · simp [hsd, hsds]

theorem forall2_map_eq {α β γ : Type} {R : α → β → Prop} {g : α → γ} {h : β → γ}
    (hc : ∀ a b, R a b → h b = g a) :
    ∀ {l1 : List α} {l2 : List β}, List.Forall₂ R l1 l2 → l2.map h = l1.map g := by
  intro l1 l2 hf
  induction hf with
  | nil => rfl
  | cons hr _ ih => simp [ih, hc _ _ hr]

theorem forall2_and_left {α β : Type} {R : α → β → Prop} {P : α → Prop} :
    ∀ {l1 : List α} {l2 : List β}, (∀ a ∈ l1, P a) → List.Forall₂ R l1 l2 →
      List.Forall₂ (fun a b => P a ∧ R a b) l1 l2 := by
  intro l1 l2 hp hf
  induction hf with
  | nil => exact List.Forall₂.nil
  | @cons a b t1 t2 hr _ ih =>
    exact List.Forall₂.cons ⟨hp a (by simp), hr⟩ (ih (fun x hx => hp x (by simp [hx])))

theorem parse_string_roundTrip {S fn fn2 : List Char} {f : File}
    (h : parse_string S fn = .ok f) : roundTrip fn2 f := by
  simp only [parse_string] at h
  cases hfd : parseFileD S with
  | error e => rw [hfd] at h; simp at h
  | ok ds =>
    rw [hfd] at h
    simp only [Except.ok.injEq] at h
    subst h
    simp only [parseFileD] at hfd
    cases hg : goB ((numberedLines S).length + 1) (numberedLines S) with
    | error e => rw [hg] at hfd; simp at hfd
    | ok bs =>
      rw [hg] at hfd
      dsimp only at hfd
      have hchS := numberedLines_chained S
      obtain ⟨g1, g2, g3⟩ := goB_facts _ hchS hg
      have hf2 := forall2_and_left g1 (mapBlocks_facts g1 hfd)
      have hdump : ds.map (Directive.dump S) =
          bs.map (fun b => List.intercalate ['\n'] (blockTexts b)) := by
        refine forall2_map_eq ?_ hf2
        intro b dir hr
        obtain ⟨⟨o, L⟩, cont⟩ := b
        have hsl := chained_slice_intercalate hr.1
        rw [Directive.dump, hr.2.1]
        exact hsl
      have hjoin : File.joinDumps ⟨S, ds⟩ =
          List.intercalate ['\n'] ((bs.map blockTexts).flatten) := by
        rw [File.joinDumps]
        show List.intercalate ['\n'] (ds.map (Directive.dump S)) = _
        rw [hdump]
        have hmm : bs.map (fun b => List.intercalate ['\n'] (blockTexts b)) =
            (bs.map blockTexts).map (List.intercalate ['\n']) := by
          simp [List.map_map, Function.comp_def]
        rw [hmm]
        refine intercalate_intercalate ['\n'] (bs.map blockTexts) ?_
        intro gr hgr
        obtain ⟨b, hb, hbe⟩ := List.mem_map.mp hgr
        subst hbe
        simp [blockTexts, blockLines]
      cases bs with
      | nil =>
        cases hf2
        rfl
      | cons b0 bt =>
        have hTne : (((b0 :: bt).map blockTexts).flatten : List (List Char)) ≠ [] := by
          simp [blockTexts, blockLines]
        have hTnl : ∀ t ∈ ((b0 :: bt).map blockTexts).flatten, '\n' ∉ t := by
          intro t ht
          rw [List.mem_flatten] at ht
          obtain ⟨l, hl, htl⟩ := ht
          obtain ⟨b, hb, hbe⟩ := List.mem_map.mp hl
          subst hbe
          obtain ⟨x, hx, hxe⟩ := List.mem_map.mp htl
          subst hxe
          exact ((g1 b hb).mem_ok x hx).2.2
        have htexts := numberedLines_texts hTne hTnl
        obtain ⟨bs2, hg2, hfa⟩ := goB_resplit (b0 :: bt)
          (numberedLines (List.intercalate ['\n'] (((b0 :: bt).map blockTexts).flatten)))
          ((numberedLines
            (List.intercalate ['\n'] (((b0 :: bt).map blockTexts).flatten))).length + 1)
          htexts g3 (le_refl _)
        obtain ⟨ds2, hmb2, hsds⟩ := mapBlocks_congr hfa hfd
        have hpf : parseFileD
            (List.intercalate ['\n'] (((b0 :: bt).map blockTexts).flatten)) = .ok ds2 := by
          simp only [parseFileD]
          rw [hg2]
          exact hmb2
        show (parse_string (File.joinDumps ⟨S, ds⟩) fn2).map
            (fun g => g.directives.map stripDirective) = .ok (ds.map stripDirective)
        rw [hjoin]
        simp only [parse_string]
        rw [hpf]
        simp [Except.map, hsds]

theorem mapBlocks_forall2 :
    ∀ {bs : List Block} {ds : List Directive}, mapBlocks bs = .ok ds →
      List.Forall₂ (fun b dir => parseBlock b = .ok dir) bs ds := by
  intro bs
  induction bs with
  | nil =>
    intro ds h
    simp only [mapBlocks, Except.ok.injEq] at h
    subst h
    exact List.Forall₂.nil
  | cons b bt ih =>
    intro ds h
    simp only [mapBlocks] at h
    obtain ⟨dir, hpb, h2⟩ := exceptBind_ok h
    obtain ⟨ds0, hrec, h3⟩ := exceptMap_ok h2
    subst h3
    exact List.Forall₂.cons hpb (ih hrec)

theorem parseTxnAt_postings {S : List Char} {o : Nat} {L : List Char} {cont : List NLine}
    {d : SpannedDate} {flag : Flag} {r : List Tok} {dir : Directive}
    (hch : Chained S ((o, L) :: cont))
    (h : parseTxnAt o L.length cont d flag r = .ok dir) :
    ∀ p ∈ dirPostings dir, ∃ x ∈ cont,
      p.span = ⟨x.1, x.1 + x.2.length⟩ ∧ sliceSp S p.span = x.2 := by
  simp only [parseTxnAt] at h
  have main : ∀ {ps : List Posting}, mapPostings cont = .ok ps →
      ∀ p ∈ ps, ∃ x ∈ cont,
        p.span = ⟨x.1, x.1 + x.2.length⟩ ∧ sliceSp S p.span = x.2 := by
    intro ps hmp p hp
    have hf2 := mapPostings_facts (Chained.tail hch) hmp
    obtain ⟨x, hx, hr⟩ := forall2_mem_right hf2 p hp
    refine ⟨x, hx, hr.1, ?_⟩
    have hok := Chained.mem_ok (Chained.tail hch) x hx
    rw [hr.1]
    exact hok.1
  cases hstr : (takeStrs r).1 with
  | nil =>
    rw [hstr] at h
    dsimp only at h
    cases htl : parseTagsLinks (takeStrs r).2 [] [] with
    | error e => rw [htl] at h; simp at h
    | ok extra =>
      rw [htl] at h
      dsimp only at h
      cases hmp : mapPostings cont with
      | error e => rw [hmp] at h; simp at h
      | ok ps =>
        rw [hmp] at h
        dsimp only at h
        simp only [Except.ok.injEq] at h
        subst h
        exact main hmp
  | cons a t1 =>
    cases t1 with
    | nil =>
      rw [hstr] at h
      dsimp only at h
      cases htl : parseTagsLinks (takeStrs r).2 [] [] with
      | error e => rw [htl] at h; simp at h
      | ok extra =>
        rw [htl] at h
        dsimp only at h
        cases hmp : mapPostings cont with
        | error e => rw [hmp] at h; simp at h
        | ok ps =>
          rw [hmp] at h
          dsimp only at h
          simp only [Except.ok.injEq] at h
          subst h
          exact main hmp
    | cons b t2 =>
      cases t2 with
      | nil =>
        rw [hstr] at h
        dsimp only at h
        cases htl : parseTagsLinks (takeStrs r).2 [] [] with
        | error e => rw [htl] at h; simp at h
        | ok extra =>
          rw [htl] at h
          dsimp only at h
          cases hmp : mapPostings cont with
          | error e => rw [hmp] at h; simp at h
          | ok ps =>
            rw [hmp] at h
            dsimp only at h
            simp only [Except.ok.injEq] at h
            subst h
            exact main hmp
      | cons c t3 =>
        rw [hstr] at h
        simp at h

theorem parseDated_postings {S : List Char} {o : Nat} {L : List Char} {cont : List NLine}
    {d : SpannedDate} {ts : List Tok} {dir : Directive}
    (hch : Chained S ((o, L) :: cont))
    (h : parseDated o L.length cont d ts = .ok dir) :
    ∀ p ∈ dirPostings dir, ∃ x ∈ cont,
      p.span = ⟨x.1, x.1 + x.2.length⟩ ∧ sliceSp S p.span = x.2 := by
  simp only [parseDated] at h
  cases ts with
  | nil => simp at h
  | cons t r =>
    cases t with
    | kw sp k =>
      cases k with
      | opn =>
        cases hrc : requireNoCont cont with
        | error e => rw [hrc] at h; simp at h
        | ok u =>
          rw [hrc] at h
          dsimp only at h
          cases hp : parseOpen L.length d r with
          | error e => rw [hp] at h; simp at h
          | ok dir0 =>
            rw [hp] at h
            simp only [Except.ok.injEq] at h
            subst h
            rw [dirPostings_none (txnOf_shiftn (parseOpen_txnOf hp))]
            simp
      | cls =>
        cases hrc : requireNoCont cont with
        | error e => rw [hrc] at h; simp at h
        | ok u =>
          rw [hrc] at h
          dsimp only at h
          cases hp : parseClose L.length d r with
          | error e => rw [hp] at h; simp at h
          | ok dir0 =>
            rw [hp] at h
            simp only [Except.ok.injEq] at h
            subst h
            rw [dirPostings_none (txnOf_shiftn (parseClose_txnOf hp))]
            simp
      | bal =>
        cases hrc : requireNoCont cont with
        | error e => rw [hrc] at h; simp at h
        | ok u =>
          rw [hrc] at h
          dsimp only at h
          cases hp : parseBalance L.length d r with
          | error e => rw [hp] at h; simp at h
          | ok dir0 =>
            rw [hp] at h
            simp only [Except.ok.injEq] at h
            subst h
            rw [dirPostings_none (txnOf_shiftn (parseBalance_txnOf hp))]
            simp
      | prc =>
        cases hrc : requireNoCont cont with
        | error e => rw [hrc] at h; simp at h
        | ok u =>
          rw [hrc] at h
          dsimp only at h
          cases hp : parsePrice L.length d r with
          | error e => rw [hp] at h; simp at h
          | ok dir0 =>
            rw [hp] at h
            simp only [Except.ok.injEq] at h
            subst h
            rw [dirPostings_none (txnOf_shiftn (parsePrice_txnOf hp))]
            simp
      | evt =>
        cases hrc : requireNoCont cont with
        | error e => rw [hrc] at h; simp at h
        | ok u =>
          rw [hrc] at h
          dsimp only at h
          cases hp : parseEvent L.length d r with
          | error e => rw [hp] at h; simp at h
          | ok dir0 =>
            rw [hp] at h
            simp only [Except.ok.injEq] at h
            subst h
            rw [dirPostings_none (txnOf_shiftn (parseEvent_txnOf hp))]
            simp
      | nte =>
        cases hrc : requireNoCont cont with
        | error e => rw [hrc] at h; simp at h
        | ok u =>
          rw [hrc] at h
          dsimp only at h
          cases hp : parseNote L.length d r with
          | error e => rw [hp] at h; simp at h
          | ok dir0 =>
            rw [hp] at h
            simp only [Except.ok.injEq] at h
            subst h
            rw [dirPostings_none (txnOf_shiftn (parseNote_txnOf hp))]
            simp
      | cst =>
        cases hrc : requireNoCont cont with
        | error e => rw [hrc] at h; simp at h
        | ok u =>
          rw [hrc] at h
          dsimp only at h
          cases hp : parseCustom L.length d r with
          | error e => rw [hp] at h; simp at h
          | ok dir0 =>
            rw [hp] at h
            simp only [Except.ok.injEq] at h
            subst h
            rw [dirPostings_none (txnOf_shiftn (parseCustom_txnOf hp))]
            simp
      | txn => exact parseTxnAt_postings hch h
      | inc => simp at h
      | opt => simp at h
      | plg => simp at h
      | pushtag => simp at h
      | poptag => simp at h
    | sym sp c =>
      dsimp only [symHead?] at h
      by_cases hc : c = '*'
      · rw [if_pos hc] at h
        exact parseTxnAt_postings hch h
      · rw [if_neg hc] at h
        by_cases hc2 : c = '!'
        · rw [if_pos hc2] at h
          exact parseTxnAt_postings hch h
        · rw [if_neg hc2] at h
          simp at h
    | date sp y mo dy => dsimp only [symHead?] at h; simp at h
    | acct sp name => dsimp only [symHead?] at h; simp at h
    | cur sp name => dsimp only [symHead?] at h; simp at h
    | str sp v => dsimp only [symHead?] at h; simp at h
    | tag sp name => dsimp only [symHead?] at h; simp at h
    | link sp name => dsimp only [symHead?] at h; simp at h
    | num sp v => dsimp only [symHead?] at h; simp at h
    | word sp w => dsimp only [symHead?] at h; simp at h

theorem parseBlockToks_postings {S : List Char} {o : Nat} {L : List Char} {cont : List NLine}
    {dir : Directive}
    (hch : Chained S ((o, L) :: cont))
    (h : parseBlockToks o L cont = .ok dir) :
    ∀ p ∈ dirPostings dir, ∃ x ∈ cont,
      p.span = ⟨x.1, x.1 + x.2.length⟩ ∧ sliceSp S p.span = x.2 := by
  simp only [parseBlockToks] at h
  cases hlx : lexLine L with
  | error e => rw [hlx] at h; simp at h
  | ok ts =>
    rw [hlx] at h
    dsimp only at h
    cases ts with
    | nil => simp at h
    | cons t r =>
      cases t with
      | date sp y mo dy => exact parseDated_postings hch h
      | kw sp k =>
        cases hrc : requireNoCont cont with
        | error e => rw [hrc] at h; simp at h
        | ok u =>
          rw [hrc] at h
          dsimp only at h
          cases hp : parseBare L.length sp k r with
          | error e => rw [hp] at h; simp at h
          | ok dir0 =>
            rw [hp] at h
            simp only [Except.ok.injEq] at h
            subst h
            rw [dirPostings_none (txnOf_shiftn (parseBare_txnOf hp))]
            simp
      | acct sp name => simp at h
      | cur sp name => simp at h
      | str sp v => simp at h
      | tag sp name => simp at h
      | link sp name => simp at h
      | num sp v => simp at h
      | word sp w => simp at h
      | sym sp c => simp at h

theorem parseBlock_postings {S : List Char} {o : Nat} {L : List Char} {cont : List NLine}
    {dir : Directive}
    (hch : Chained S ((o, L) :: cont))
    (h : parseBlock ((o, L), cont) = .ok dir) :
    ∀ p ∈ dirPostings dir, ∃ x ∈ cont,
      p.span = ⟨x.1, x.1 + x.2.length⟩ ∧ sliceSp S p.span = x.2 := by
  simp only [parseBlock] at h
  cases L with
  | nil => exact parseBlockToks_postings hch h
  | cons c rest =>
    dsimp only at h
    by_cases hc : c = ';'
    · rw [if_pos hc] at h
      cases hrc : requireNoCont cont with
      | error e => rw [hrc] at h; simp at h
      | ok u =>
        rw [hrc] at h
        dsimp only at h
        simp only [Except.ok.injEq] at h
        subst h
        simp [dirPostings]
    · rw [if_neg hc] at h
      by_cases hc2 : c = '*'
      · rw [if_pos hc2] at h
        cases hrc : requireNoCont cont with
        | error e => rw [hrc] at h; simp at h
        | ok u =>
          rw [hrc] at h
          dsimp only at h
          simp only [Except.ok.injEq] at h
          subst h
          simp [dirPostings]
      · rw [if_neg hc2] at h
        exact parseBlockToks_postings hch h

theorem parse_string_posting_lines {S fn : List Char} {f : File}
    (h : parse_string S fn = .ok f) :
    ∀ d ∈ f.directives, ∀ p ∈ dirPostings d,
      ∃ x ∈ numberedLines S, contLine x.2 = true ∧
        p.span = ⟨x.1, x.1 + x.2.length⟩ ∧
        Posting.dump f.content p = x.2 := by
  simp only [parse_string] at h
  cases hfd : parseFileD S with
  | error e => rw [hfd] at h; simp at h
  | ok ds =>
    rw [hfd] at h
    simp only [Except.ok.injEq] at h
    subst h
    simp only [parseFileD] at hfd
    cases hg : goB ((numberedLines S).length + 1) (numberedLines S) with
    | error e => rw [hg] at hfd; simp at hfd
    | ok bs =>
      rw [hg] at hfd
      dsimp only at hfd
      have hchS := numberedLines_chained S
      obtain ⟨g1, g2, g3⟩ := goB_facts _ hchS hg
      have hf2 := mapBlocks_forall2 hfd
      intro d hd p hp
      obtain ⟨b, hb, hpb⟩ := forall2_mem_right hf2 d hd
      have hchb := g1 b hb
      obtain ⟨⟨o, L⟩, cont⟩ := b
      obtain ⟨x, hx, hsp, hsl⟩ := parseBlock_postings hchb hpb p hp
      refine ⟨x, ?_, ?_, hsp, hsl⟩
      · have hmem : x ∈ ((bs.map blockLines).flatten) := by
          rw [List.mem_flatten]
          exact ⟨blockLines ((o, L), cont), List.mem_map_of_mem blockLines hb,
            by simp [blockLines, hx]⟩
        rw [g2] at hmem
        exact (List.mem_filter.mp hmem).1
      · exact (g3 _ hb).2.2 x hx

/-- Claim C1: for every source string the parser accepts, every node's `dump`
returns exactly the byte slice of the file content at that node's span —
directives, postings, amounts, cost specs and custom values alike. -/
theorem c1_byte_fidelity (S fn : List Char) (f : File)
    (h : parse_string S fn = .ok f) : byteFidelity S f := by
  have hc := (parse_string_facts h).1
  refine ⟨hc, ?_, ?_, ?_, ?_, ?_⟩
  · intro d hd
    rw [hc]
    rfl
  · intro d hd p hp
    rw [hc]
    rfl
  · intro d hd a ha
    rw [hc]
    rfl
  · intro d hd c hcx
    rw [hc]
    rfl
  · intro d hd v hv
    rw [hc]
    rfl

/-- Witness for C1: the concrete buffer `c1wS` parses and enjoys byte
fidelity. -/
theorem c1_byte_fidelity_witness :
    parse_string c1wS (lit "w.bean") = .ok (parsedFile c1wS (lit "w.bean")) ∧
    byteFidelity c1wS (parsedFile c1wS (lit "w.bean")) :=
  ⟨by rfl, c1_byte_fidelity c1wS (lit "w.bean") (parsedFile c1wS (lit "w.bean")) (by rfl)⟩

/-- Claim C2: re-parsing the newline-joined dumps of a successfully parsed
file succeeds and reproduces the same directives modulo spans. -/
theorem c2_round_trip (S fn fn2 : List Char) (f : File)
    (h : parse_string S fn = .ok f) : roundTrip fn2 f :=
  parse_string_roundTrip h

/-- Witness for C2: the mixed-directives snapshot buffer round-trips. -/
theorem c2_round_trip_witness :
    parse_string mixedS (lit "m.bean") = .ok (parsedFile mixedS (lit "m.bean")) ∧
    roundTrip (lit "r.bean") (parsedFile mixedS (lit "m.bean")) :=
  ⟨by rfl, c2_round_trip mixedS (lit "m.bean") (lit "r.bean")
    (parsedFile mixedS (lit "m.bean")) (by rfl)⟩

/-- Claim C3: in every successfully parsed file, every node's span is
well-formed, bounded by the content length, and contained in its parent's
span along every parent-child edge. -/
theorem c3_span_containment (S fn : List Char) (f : File)
    (h : parse_string S fn = .ok f) : spanContainment S f :=
  (parse_string_facts h).2.1

/-- Witness for C3 at the mixed-directives buffer. -/
theorem c3_span_containment_witness :
    parse_string mixedS (lit "m.bean") = .ok (parsedFile mixedS (lit "m.bean")) ∧
    spanContainment mixedS (parsedFile mixedS (lit "m.bean")) :=
  ⟨by rfl, c3_span_containment mixedS (lit "m.bean")
    (parsedFile mixedS (lit "m.bean")) (by rfl)⟩

/-- Claim C4: directives appear in `file.directives` ordered by span start,
and the postings of every transaction are ordered by span start. -/
theorem c4_order_preservation (S fn : List Char) (f : File)
    (h : parse_string S fn = .ok f) : orderPreserved f :=
  ⟨(parse_string_facts h).2.2.1, (parse_string_facts h).2.2.2.1⟩

/-- Witness for C4 at the mixed-directives buffer. -/
theorem c4_order_preservation_witness :
    parse_string mixedS (lit "m.bean") = .ok (parsedFile mixedS (lit "m.bean")) ∧
    orderPreserved (parsedFile mixedS (lit "m.bean")) :=
  ⟨by rfl, c4_order_preservation mixedS (lit "m.bean")
    (parsedFile mixedS (lit "m.bean")) (by rfl)⟩

/-- Claim C5: the input `"this is not a directive\n"` parsed as `bad.bean`
fails with no AST, the rendered message starts with `bad.bean:1:1:` and its
tail names the expected productions. -/
theorem c5_syntax_error :
    parse_string c5S (lit "bad.bean") = .error c5msg ∧
    c5msg.take 13 = lit "bad.bean:1:1:" ∧
    c5msg.drop 14 = dispatchMsg :=
  ⟨by rfl, by rfl, by rfl⟩

/-- Claim C6: for every accepted source and every posting of every parsed
transaction, the posting's dump is byte-for-byte the original continuation
line it was parsed from — an indented, non-blank line of the source — so the
original leading whitespace and the whitespace between account and amount
survive character-for-character, whatever spacing the source used; on the
two-space and four-space snapshot files the posting dumps are exactly the
original lines and the transaction dump contains them literally. -/
theorem c6_indentation_preserved :
    (∀ (S fn : List Char) (f : File), parse_string S fn = .ok f →
      ∀ d ∈ f.directives, ∀ p ∈ dirPostings d,
        ∃ x ∈ numberedLines S, contLine x.2 = true ∧
          p.span = ⟨x.1, x.1 + x.2.length⟩ ∧
          Posting.dump f.content p = x.2) ∧
    ((parsedDirectives c6bS (lit "f.bean")).filterMap txnOf).map
        (fun t => t.postings.map (Posting.dump c6bS)) =
      [[lit "  Assets:Cash             -10 USD", lit "  Expenses:Food  10 USD"]] ∧
    ((parsedDirectives c6aS (lit "f.bean")).filterMap txnOf).map
        (fun t => t.postings.map (Posting.dump c6aS)) =
      [[lit "    Assets:Cash  -10 USD", lit "    Expenses:Food        10 USD"]] ∧
    ((parsedDirectives c6bS (lit "f.bean")).filterMap txnOf).map
        (fun t => Directive.dump c6bS (.txn t)) =
      [lit "2020-01-03 * \"Payee\" \"Narration\"\n  Assets:Cash             -10 USD\n  Expenses:Food  10 USD"] :=
  ⟨fun _ _ _ h => parse_string_posting_lines h, by rfl, by rfl, by rfl⟩

/-- Witness for C6: the two-space snapshot file parses and every posting of
its transaction dumps to its original indented source line. -/
theorem c6_indentation_preserved_witness :
    parse_string c6bS (lit "f.bean") = .ok (parsedFile c6bS (lit "f.bean")) ∧
    (∀ d ∈ (parsedFile c6bS (lit "f.bean")).directives, ∀ p ∈ dirPostings d,
      ∃ x ∈ numberedLines c6bS, contLine x.2 = true ∧
        p.span = ⟨x.1, x.1 + x.2.length⟩ ∧
        Posting.dump (parsedFile c6bS (lit "f.bean")).content p = x.2) :=
  ⟨by rfl, c6_indentation_preserved.1 c6bS (lit "f.bean")
    (parsedFile c6bS (lit "f.bean")) (by rfl)⟩

/-- Claim C7: the arithmetic balance line evaluates its amount to the exact
rational 100.5 with the number span covering `100 + 0.5`, and number
expressions follow standard precedence, left associativity, unary minus and
parentheses. -/
theorem c7_arithmetic_amount :
    c7num.map (fun e => e.value) = some ((201 : Rat) / 2) ∧
    c7num.map (fun e => sliceSp c7S e.span) = some (lit "100 + 0.5") ∧
    balValue (lit "2020-01-02 balance Assets:Cash 2 + 3 * 4 USD") = some 14 ∧
    balValue (lit "2020-01-02 balance Assets:Cash 1 - 2 - 3 USD") = some (-4) ∧
    balValue (lit "2020-01-02 balance Assets:Cash (1 - 2) * 3 USD") = some (-3) ∧
    balValue (lit "2020-01-02 balance Assets:Cash -5 + 1 USD") = some (-4) ∧
    balValue (lit "2020-01-02 balance Assets:Cash 7 / 2 USD") = some ((7 : Rat) / 2) := by
  refine ⟨?_, ?_, ?_, ?_, ?_, ?_, ?_⟩ <;> with_unfolding_all rfl

/-- Claim C8: a duplicate tag or link in one transaction header is rejected
with a diagnostic, and in every successfully parsed file the tags and links
of every transaction are duplicate-free and ordered. -/
theorem c8_tags_links_unique :
    (∀ (S fn : List Char) (f : File), parse_string S fn = .ok f → tagsLinksUnique f) ∧
    parse_string c8dupS (lit "t.bean") = .error (lit "t.bean:1:27: duplicate tag") ∧
    parse_string (lit "2020-01-03 * \"P\" ^a ^a\n") (lit "t.bean") =
      .error (lit "t.bean:1:21: duplicate link") :=
  ⟨fun _ _ _ h => (parse_string_facts h).2.2.2.2, by rfl, by rfl⟩

/-- Witness for C8: the mixed-directives buffer parses with unique ordered
tags and links. -/
theorem c8_tags_links_unique_witness :
    parse_string mixedS (lit "m.bean") = .ok (parsedFile mixedS (lit "m.bean")) ∧
    tagsLinksUnique (parsedFile mixedS (lit "m.bean")) :=
  ⟨by rfl, c8_tags_links_unique.1 mixedS (lit "m.bean")
    (parsedFile mixedS (lit "m.bean")) (by rfl)⟩

/-- Claim C9: every parse failure surfaces at the entry point as the single
rendered diagnostic string (filename, location and message), with no file
value alongside it. -/
theorem c9_valueerror_surface (S fn : List Char) (e : AErr)
    (h : parseFileD S = .error e) :
    parse_string S fn = .error (renderDiag fn S e) := by
  simp [parse_string, h]

/-- Witness for C9: the scenario-4 input fails and surfaces exactly the
rendered diagnostic. -/
theorem c9_valueerror_surface_witness :
    parseFileD c5S = .error (⟨0, 4⟩, dispatchMsg) ∧
    parse_string c5S (lit "bad.bean") =
      .error (renderDiag (lit "bad.bean") c5S (⟨0, 4⟩, dispatchMsg)) :=
  ⟨by rfl, c9_valueerror_surface c5S (lit "bad.bean") (⟨0, 4⟩, dispatchMsg) (by rfl)⟩

/-- Claim C10: every parsed amount, cost spec and custom value carries a
`raw` sub-node, and its `dump` equals the content slice at exactly the raw
span. -/
theorem c10_raw_anchoring (S fn : List Char) (f : File)
    (h : parse_string S fn = .ok f) : rawAnchored S f := by
  have hc := (parse_string_facts h).1
  refine ⟨hc, ?_, ?_, ?_⟩
  · intro d hd a ha
    rw [hc]
    rfl
  · intro d hd c hcx
    rw [hc]
    rfl
  · intro d hd v hv
    rw [hc]
    rfl

/-- Witness for C10: the concrete buffer `c1wS` parses with raw-anchored
amounts, cost specs and custom values. -/
theorem c10_raw_anchoring_witness :
    parse_string c1wS (lit "w.bean") = .ok (parsedFile c1wS (lit "w.bean")) ∧
    rawAnchored c1wS (parsedFile c1wS (lit "w.bean")) :=
  ⟨by rfl, c10_raw_anchoring c1wS (lit "w.bean") (parsedFile c1wS (lit "w.bean")) (by rfl)⟩

end BA
